import Mathlib

/-!
# Verification of the plainjson JSON engine

A shallow embedding of the plainjson Rust crate (files `peekable_codepoints.rs`,
`json_tag.rs`, `json_node.rs`, `json_path.rs`) together with proofs about it.

Modelling conventions:

* Rust `String` values are modelled as `List Char` (the tokenizer and path
  compiler operate codepoint-by-codepoint through `PeekableCodePoints`, so a
  list of codepoints is the natural carrier).  The `PeekableCodePoints` cursor
  is modelled by the list of not-yet-consumed characters: `peek_char i` is
  `List.get? i`, `pop n` is `take`/`drop`, `skip n` is `drop` — the buffering
  in `peekable_codepoints.rs` is transparent for a finite in-memory input.
* Rust `f64` payloads are modelled as `Rat`.  The crate itself never computes
  with numbers; it only stores what `f64::from_str` returns and re-renders it
  with the standard formatter.  Both of those live in the Rust standard
  library, outside this repository, so they are modelled at the boundary:
  see `rust_f64_from_str` and `f64_display`.
* `char::is_numeric` and `char::is_whitespace` are Unicode classifiers from
  the Rust standard library; they are modelled by their restrictions to the
  ASCII range (`char_is_numeric`, i.e. `Char.isDigit`, and
  `Char.isWhitespace`).  Theorems whose truth depends on the classification of
  a character therefore carry an ASCII hypothesis where it matters.
* `anyhow::Result` is modelled as `Except String`; the formatted error texts
  are replaced by fixed strings (the formatting arguments of `bail!` are not
  modelled), except where a claim mentions the exact message.
-/

namespace Plainjson

/-- The six structural symbols plus literal runs, from `json_tag.rs`. -/
inductive JsonTag where
  | LeftCurly
  | RightCurly
  | LeftSquare
  | RightSquare
  | Colon
  | Comma
  | Literal (s : List Char)
deriving DecidableEq, Repr

/-- The structural characters recognised by the tokenizer
(`'{' | '}' | '[' | ']' | ',' | ':'` in `read_json_tag`). -/
def is_structural (c : Char) : Bool :=
  c = '{' || c = '}' || c = '[' || c = ']' || c = ',' || c = ':'

/-- Restriction of Rust's Unicode `char::is_numeric` to the ASCII range.
The Unicode tables live in the Rust standard library, outside this
repository; on ASCII characters `is_numeric` holds exactly for `'0'..='9'`. -/
def char_is_numeric (c : Char) : Bool := c.isDigit

/-- The literal scanner of `JsonTag::read_json_tag` (json_tag.rs lines 41-94):
given the unconsumed input `l`, the scan position `e`, the open-quote state,
the one-shot escape flag and the `quote_as_literal` recovery flag, return the
final value of `end`, i.e. how many characters the literal token takes.

The extra hypothesis `hq` records the loop invariant that once
`quote_as_literal` is set no quote can be open (the only branch that opens a
quote is disabled by `quote_as_literal`); it makes the recursion well-founded:
every step either advances `e` or fires the line-break recovery, which can
happen at most once. -/
def scan_literal (l : List Char) (e : Nat) (quote : Option Char)
    (is_escape : Bool) (quote_as_literal : Bool)
    (hq : quote_as_literal = true → quote = none) : Nat :=
  match hc : l.get? e with
  | none => e
  | some c =>
    if c = '\\' then
      scan_literal l (e + 1) quote true quote_as_literal hq
    else if hquote : (c = '\'' ∨ c = '"') ∧ is_escape = false ∧ quote_as_literal = false then
      let quote' := match quote with
        | none => some c
        | some q => if q = c then none else some q
      scan_literal l (e + 1) quote' is_escape quote_as_literal
        (fun h => absurd h (by simp [hquote.2.2]))
    else if hnl : (c = '\r' ∨ c = '\n') ∧ quote ≠ none then
      scan_literal l 0 none false true (fun _ => rfl)
    else if c.isWhitespace ∧ quote = none then
      e
    else if is_structural c ∧ is_escape = false ∧ quote = none then
      e
    else
      scan_literal l (e + 1) quote false quote_as_literal hq
termination_by ((if quote_as_literal then 0 else 1), l.length - e)
decreasing_by
  · have : e < l.length := List.get?_eq_some.mp hc |>.1
    exact Prod.Lex.right _ (by omega)
  · have : e < l.length := List.get?_eq_some.mp hc |>.1
    exact Prod.Lex.right _ (by omega)
  · have hqf : quote_as_literal = false := by
      cases h : quote_as_literal with
      | true => exact absurd (hq h) hnl.2
      | false => rfl
    exact hqf ▸ Prod.Lex.left _ _ (by simp)
  · have : e < l.length := List.get?_eq_some.mp hc |>.1
    exact Prod.Lex.right _ (by omega)

section ScanLiteralUnfold

variable {l : List Char} {e : Nat} {c : Char} (quote : Option Char)
  (is_escape quote_as_literal : Bool) (hq : quote_as_literal = true → quote = none)

/-- Branch 1 of the scan loop: end of input stops the scan. -/
theorem scan_literal_none (h : l.get? e = none) :
    scan_literal l e quote is_escape quote_as_literal hq = e := by
  rw [scan_literal]
  split
  · rfl
  · rename_i c hc; rw [h] at hc; exact Option.noConfusion hc

/-- Branch 2: a backslash sets the one-shot escape flag. -/
theorem scan_literal_escape (h : l.get? e = some '\\') :
    scan_literal l e quote is_escape quote_as_literal hq
      = scan_literal l (e + 1) quote true quote_as_literal hq := by
  rw [scan_literal]
  split
  · rename_i hc; rw [h] at hc; exact Option.noConfusion hc
  · rename_i c hc
    rw [h] at hc; cases hc
    rw [if_pos rfl]

/-- Branch 3: an unescaped quote character (with recovery off) toggles the
quote state. -/
theorem scan_literal_quote (h : l.get? e = some c) (hbs : c ≠ '\\')
    (hg : (c = '\'' ∨ c = '"') ∧ is_escape = false ∧ quote_as_literal = false) :
    scan_literal l e quote is_escape quote_as_literal hq
      = scan_literal l (e + 1)
          (match quote with
            | none => some c
            | some q => if q = c then none else some q)
          is_escape quote_as_literal
          (fun h' => absurd h' (by simp [hg.2.2])) := by
  rw [scan_literal]
  split
  · rename_i hc; rw [h] at hc; exact Option.noConfusion hc
  · rename_i c' hc
    rw [h] at hc; cases hc
    rw [if_neg hbs, dif_pos hg]

/-- Branch 4: a line break with a quote open fires the recovery rule. -/
theorem scan_literal_newline (h : l.get? e = some c)
    (hnlc : c = '\r' ∨ c = '\n') (hqo : quote ≠ none) :
    scan_literal l e quote is_escape quote_as_literal hq
      = scan_literal l 0 none false true (fun _ => rfl) := by
  have hbs : c ≠ '\\' := by rcases hnlc with h1 | h1 <;> simp [h1]
  have hng : ¬ ((c = '\'' ∨ c = '"') ∧ is_escape = false ∧ quote_as_literal = false) := by
    rcases hnlc with h1 | h1 <;> simp [h1]
  rw [scan_literal]
  split
  · rename_i hc; rw [h] at hc; exact Option.noConfusion hc
  · rename_i c' hc
    rw [h] at hc; cases hc
    rw [if_neg hbs, dif_neg hng, dif_pos ⟨hnlc, hqo⟩]

/-- Branch 5: unquoted whitespace terminates the literal. -/
theorem scan_literal_ws (h : l.get? e = some c) (hws : c.isWhitespace)
    (hqn : quote = none) :
    scan_literal l e quote is_escape quote_as_literal hq = e := by
  have hbs : c ≠ '\\' := by rintro rfl; exact absurd hws (by decide)
  have hng : ¬ ((c = '\'' ∨ c = '"') ∧ is_escape = false ∧ quote_as_literal = false) := by
    rintro ⟨h1 | h1, -, -⟩ <;> (subst h1; exact absurd hws (by decide))
  have hnl : ¬ ((c = '\r' ∨ c = '\n') ∧ quote ≠ none) := by
    rintro ⟨-, hcon⟩; exact hcon hqn
  rw [scan_literal]
  split
  · rename_i hc; rw [h] at hc
  · rename_i c' hc
    rw [h] at hc; cases hc
    rw [if_neg hbs, dif_neg hng, dif_neg hnl, if_pos ⟨hws, hqn⟩]

/-- Branch 6: an unescaped, unquoted structural character terminates the
literal. -/
theorem scan_literal_structural (h : l.get? e = some c) (hst : is_structural c)
    (hesc : is_escape = false) (hqn : quote = none) :
    scan_literal l e quote is_escape quote_as_literal hq = e := by
  have hc6 : c = '{' ∨ c = '}' ∨ c = '[' ∨ c = ']' ∨ c = ',' ∨ c = ':' := by
    simpa [is_structural, or_assoc] using hst
  have hbs : c ≠ '\\' := by
    rcases hc6 with h1 | h1 | h1 | h1 | h1 | h1 <;> simp [h1]
  have hng : ¬ ((c = '\'' ∨ c = '"') ∧ is_escape = false ∧ quote_as_literal = false) := by
    rcases hc6 with h1 | h1 | h1 | h1 | h1 | h1 <;> simp [h1]
  have hnl : ¬ ((c = '\r' ∨ c = '\n') ∧ quote ≠ none) := by
    rintro ⟨-, hcon⟩; exact hcon hqn
  have hnw : ¬ (c.isWhitespace = true ∧ quote = none) := by
    rintro ⟨hcw, -⟩
    rcases hc6 with h1 | h1 | h1 | h1 | h1 | h1 <;>
      (subst h1; exact absurd hcw (by decide))
  rw [scan_literal]
  split
  · rename_i hc; rw [h] at hc
  · rename_i c' hc
    rw [h] at hc; cases hc
    rw [if_neg hbs, dif_neg hng, dif_neg hnl, if_neg hnw, if_pos ⟨hst, hesc, hqn⟩]

/-- Branch 7: any other character is consumed, clearing the escape flag. -/
theorem scan_literal_other (h : l.get? e = some c) (hbs : c ≠ '\\')
    (hng : ¬ ((c = '\'' ∨ c = '"') ∧ is_escape = false ∧ quote_as_literal = false))
    (hnl : ¬ ((c = '\r' ∨ c = '\n') ∧ quote ≠ none))
    (hnw : ¬ (c.isWhitespace = true ∧ quote = none))
    (hns : ¬ (is_structural c = true ∧ is_escape = false ∧ quote = none)) :
    scan_literal l e quote is_escape quote_as_literal hq
      = scan_literal l (e + 1) quote false quote_as_literal hq := by
  rw [scan_literal]
  split
  · rename_i hc; rw [h] at hc; exact Option.noConfusion hc
  · rename_i c' hc
    rw [h] at hc; cases hc
    rw [if_neg hbs, dif_neg hng, dif_neg hnl, if_neg hnw, if_neg hns]

end ScanLiteralUnfold

/-- `JsonTag::read_json_tag`: skip whitespace, emit a structural symbol, or
scan a literal.  Returns the token (none at end of input) and the rest of the
input (the source consumes from the cursor via `skip`/`pop`). -/
def read_json_tag : List Char → Option JsonTag × List Char
  | [] => (none, [])
  | c :: rest =>
    if c.isWhitespace then read_json_tag rest
    else if c = '{' then (some .LeftCurly, rest)
    else if c = '}' then (some .RightCurly, rest)
    else if c = '[' then (some .LeftSquare, rest)
    else if c = ']' then (some .RightSquare, rest)
    else if c = ',' then (some .Comma, rest)
    else if c = ':' then (some .Colon, rest)
    else
      let e := scan_literal (c :: rest) 0 none false false (by simp)
      (some (.Literal ((c :: rest).take e)), (c :: rest).drop e)

/-- The literal scanner never stops at offset 0 when the first character is
neither whitespace nor structural: the token it produces is nonempty. -/
theorem scan_literal_pos (l : List Char) (c0 : Char) (h0 : l.get? 0 = some c0)
    (hw : ¬ c0.isWhitespace) (hs : ¬ is_structural c0) :
    ∀ (e : Nat) (quote : Option Char) (is_escape : Bool) (qal : Bool)
      (hq : qal = true → quote = none),
      scan_literal l e quote is_escape qal hq ≠ 0 := by
  intro e quote is_escape qal hq
  induction e, quote, is_escape, qal, hq using scan_literal.induct l with
  | case1 e quote is_escape qal hq hc =>
    rw [scan_literal_none _ _ _ _ hc]
    rintro rfl
    rw [h0] at hc
    exact Option.noConfusion hc
  | case2 e quote is_escape qal hq hc ih =>
    rw [scan_literal_escape _ _ _ _ hc]
    exact ih
  | case3 e quote is_escape qal hq c hc hbs hquote q' ih =>
    rw [scan_literal_quote _ _ _ _ hc hbs hquote]
    exact ih
  | case4 e quote is_escape qal hq c hc hbs hquote hnl ih =>
    rw [scan_literal_newline _ _ _ _ hc hnl.1 hnl.2]
    exact ih
  | case5 e quote is_escape qal hq c hc hbs hquote hnl hws =>
    rw [scan_literal_ws _ _ _ _ hc hws.1 hws.2]
    rintro rfl
    rw [h0] at hc
    cases hc
    exact hw hws.1
  | case6 e quote is_escape qal hq c hc hbs hquote hnl hws hst =>
    rw [scan_literal_structural _ _ _ _ hc hst.1 hst.2.1 hst.2.2]
    rintro rfl
    rw [h0] at hc
    cases hc
    exact hs hst.1
  | case7 e quote is_escape qal hq c hc hbs hquote hnl hws hst ih =>
    rw [scan_literal_other _ _ _ _ hc hbs hquote hnl hws hst]
    exact ih

/-- Reading one token consumes at least one character. -/
theorem read_json_tag_consumes :
    ∀ (l : List Char) (t : JsonTag) (rest : List Char),
      read_json_tag l = (some t, rest) → rest.length < l.length := by
  intro l
  induction l with
  | nil => intro t rest h; simp [read_json_tag] at h
  | cons c cs ih =>
    intro t rest h
    rw [read_json_tag] at h
    by_cases hw : c.isWhitespace
    · rw [if_pos hw] at h
      exact Nat.lt_trans (ih t rest h) (Nat.lt_succ_self _)
    · rw [if_neg hw] at h
      by_cases h1 : c = '{'
      · simp only [if_pos h1] at h; cases h; simp
      · rw [if_neg h1] at h
        by_cases h2 : c = '}'
        · simp only [if_pos h2] at h; cases h; simp
        · rw [if_neg h2] at h
          by_cases h3 : c = '['
          · simp only [if_pos h3] at h; cases h; simp
          · rw [if_neg h3] at h
            by_cases h4 : c = ']'
            · simp only [if_pos h4] at h; cases h; simp
            · rw [if_neg h4] at h
              by_cases h5 : c = ','
              · simp only [if_pos h5] at h; cases h; simp
              · rw [if_neg h5] at h
                by_cases h6 : c = ':'
                · simp only [if_pos h6] at h; cases h; simp
                · rw [if_neg h6] at h
                  simp only at h
                  have hs : ¬ is_structural c = true := by
                    simp [is_structural, h1, h2, h3, h4, h5, h6]
                  have hpos := scan_literal_pos (c :: cs) c rfl hw hs 0 none
                    false false (by simp)
                  cases h
                  simp only [List.length_drop, List.length_cons]
                  omega

/-- `JsonTag::parse`: the whole token stream of an input.  (In the source this
can only fail with an I/O error from the underlying reader; for an in-memory
input it is total.) -/
def JsonTag.parse (l : List Char) : List JsonTag :=
  match h : read_json_tag l with
  | (none, _) => []
  | (some t, rest) => t :: JsonTag.parse rest
termination_by l.length
decreasing_by exact read_json_tag_consumes l t rest h

/-! ## The value tree (`json_node.rs`) -/

/-- `JsonNode` from `json_node.rs`.  An object property `JsonObjProp
{name, value}` is modelled as the pair `(name, value)`; `f64` payloads are
modelled as `Rat` (see the header). -/
inductive JsonNode where
  | PlainNull
  | PlainString (s : List Char)
  | PlainNumber (q : Rat)
  | PlainBoolean (b : Bool)
  | Array (elems : List JsonNode)
  | Object (props : List (List Char × JsonNode))

/-- Value of a run of ASCII digits, most significant first. -/
def digits_to_nat (l : List Char) : Nat :=
  l.foldl (fun acc c => 10 * acc + (c.toNat - '0'.toNat)) 0

/-- Modelled from the spec: `f64::from_str` is the Rust standard library's
float parser, external to this repository; the spec's number grammar is
"digits with at most one `.`".  On that domain `from_str` succeeds exactly
when the text contains at least one ASCII digit, and the value is modelled as
the exact decimal (IEEE rounding is outside the model). -/
def rust_f64_from_str (s : List Char) : Except String Rat :=
  if s.all (fun c => c.isDigit || c = '.') ∧ (s.filter (· = '.')).length ≤ 1
      ∧ s.any (·.isDigit) then
    let ipart := s.takeWhile (· ≠ '.')
    let fpart := (s.dropWhile (· ≠ '.')).drop 1
    .ok ((digits_to_nat ipart : Rat) + (digits_to_nat fpart : Rat) / ((10 : Rat) ^ fpart.length))
  else .error "invalid float literal"

/-- `JsonNode::parse_plain` (json_node.rs lines 161-186): classify a literal
as number, boolean, null or string.  The match arms are tried in source
order: the numeric guard first, then the keyword arms, then the
quote-stripping default. -/
def parse_plain (literal : List Char) : Except String JsonNode :=
  if (literal.all fun c => char_is_numeric c || c = '.') ∧
      (literal.filter (· = '.')).length ≤ 1 then
    (rust_f64_from_str literal).map JsonNode.PlainNumber
  else if literal = "true".toList ∨ literal = "True".toList ∨ literal = "TRUE".toList then
    .ok (JsonNode.PlainBoolean true)
  else if literal = "false".toList ∨ literal = "False".toList ∨ literal = "FALSE".toList then
    .ok (JsonNode.PlainBoolean false)
  else if literal = "null".toList ∨ literal = "Null".toList ∨ literal = "NULL".toList then
    .ok JsonNode.PlainNull
  else if ((literal.head? = some '\'' ∧ literal.getLast? = some '\'')
        ∨ (literal.head? = some '"' ∧ literal.getLast? = some '"'))
      ∧ 1 < literal.length then
    .ok (JsonNode.PlainString ((literal.drop 1).dropLast))
  else
    .ok (JsonNode.PlainString literal)

/-- The scan loop of `JsonNode::find_match_tag` (json_node.rs lines 140-158):
advance from `i` counting same-kind nesting in `mismatch` until the matching
close is found at nesting level zero.  (In the source `mismatch` is an `i32`,
but the loop only decrements it when it is positive, so `Nat` is exact.) -/
def find_match_loop (tags : List JsonTag) (lt rt : JsonTag) (i mismatch : Nat) :
    Except String Nat :=
  match hget : tags.get? i with
  | none => .error "matching tag not found"
  | some t =>
    if t = rt ∧ mismatch = 0 then .ok i
    else
      find_match_loop tags lt rt (i + 1)
        (if t = lt then mismatch + 1 else if t = rt then mismatch - 1 else mismatch)
termination_by tags.length - i
decreasing_by
  have : i < tags.length := List.get?_eq_some.mp hget |>.1
  omega

/-- `JsonNode::find_match_tag`: the scan starts one past the opening tag with
nesting level zero. -/
def find_match_tag (tags : List JsonTag) (start : Nat) (lt rt : JsonTag) :
    Except String Nat :=
  find_match_loop tags lt rt (start + 1) 0

theorem find_match_loop_none {tags : List JsonTag} {lt rt : JsonTag}
    {i m : Nat} (h : tags.get? i = none) :
    find_match_loop tags lt rt i m = .error "matching tag not found" := by
  rw [find_match_loop]
  split
  · rfl
  · rename_i t hc; rw [h] at hc; exact Option.noConfusion hc

theorem find_match_loop_break {tags : List JsonTag} {lt rt t : JsonTag}
    {i m : Nat} (hget : tags.get? i = some t) (hb : t = rt ∧ m = 0) :
    find_match_loop tags lt rt i m = .ok i := by
  rw [find_match_loop]
  split
  · rename_i hc; rw [hget] at hc; exact Option.noConfusion hc
  · rename_i t' hc
    rw [hget] at hc; cases hc
    rw [if_pos hb]

theorem find_match_loop_step {tags : List JsonTag} {lt rt t : JsonTag}
    {i m : Nat} (hget : tags.get? i = some t) (hb : ¬ (t = rt ∧ m = 0)) :
    find_match_loop tags lt rt i m
      = find_match_loop tags lt rt (i + 1)
          (if t = lt then m + 1 else if t = rt then m - 1 else m) := by
  rw [find_match_loop]
  split
  · rename_i hc; rw [hget] at hc; exact Option.noConfusion hc
  · rename_i t' hc
    rw [hget] at hc; cases hc
    rw [if_neg hb]

theorem find_match_loop_facts {tags : List JsonTag} {lt rt : JsonTag}
    {i mismatch j : Nat} (h : find_match_loop tags lt rt i mismatch = .ok j) :
    i ≤ j ∧ j < tags.length ∧ tags.get? j = some rt := by
  induction i, mismatch using find_match_loop.induct tags lt rt with
  | case1 i mismatch hget =>
    rw [find_match_loop_none hget] at h
    exact Except.noConfusion h
  | case2 i mismatch t hget hbreak =>
    rw [find_match_loop_break hget hbreak] at h
    cases h
    exact ⟨le_refl _, List.get?_eq_some.mp hget |>.1, hbreak.1 ▸ hget⟩
  | case3 i mismatch t hget hbreak ih =>
    rw [find_match_loop_step hget hbreak] at h
    have := ih h
    exact ⟨by omega, this.2⟩

theorem find_match_tag_facts {tags : List JsonTag} {start j : Nat}
    {lt rt : JsonTag} (h : find_match_tag tags start lt rt = .ok j) :
    start + 1 ≤ j ∧ j < tags.length ∧ tags.get? j = some rt :=
  find_match_loop_facts h

/-- The bracket-stripping step at the top of `JsonNode::parse_array`. -/
def trim_square (l : List JsonTag) : List JsonTag :=
  if l.head? = some JsonTag.LeftSquare ∧ l.getLast? = some JsonTag.RightSquare then
    (l.drop 1).dropLast
  else l

/-- The bracket-stripping step at the top of `JsonNode::parse_object`. -/
def trim_curly (l : List JsonTag) : List JsonTag :=
  if l.head? = some JsonTag.LeftCurly ∧ l.getLast? = some JsonTag.RightCurly then
    (l.drop 1).dropLast
  else l

/-- The slice `&json_tags[i..=j]`. -/
def tag_slice (tags : List JsonTag) (i j : Nat) : List JsonTag :=
  (tags.drop i).take (j - i + 1)

theorem tag_slice_head {tags : List JsonTag} {i j : Nat} {t : JsonTag}
    (hij : i ≤ j) (h : tags.get? i = some t) :
    (tag_slice tags i j).head? = some t := by
  have hi : i < tags.length := List.get?_eq_some.mp h |>.1
  unfold tag_slice
  rw [List.head?_take, if_neg (by omega), List.head?_drop]
  rw [List.get?_eq_getElem?] at h
  exact h

theorem tag_slice_length {tags : List JsonTag} {i j : Nat}
    (hij : i ≤ j) (hj : j < tags.length) :
    (tag_slice tags i j).length = j - i + 1 := by
  unfold tag_slice
  simp only [List.length_take, List.length_drop]
  omega

theorem tag_slice_get {tags : List JsonTag} {i j : Nat} (k : Nat)
    (hk : k ≤ j - i) :
    (tag_slice tags i j).get? k = tags.get? (i + k) := by
  unfold tag_slice
  rw [List.get?_eq_getElem?, List.getElem?_take_of_lt (by omega),
    List.getElem?_drop, ← List.get?_eq_getElem?]

theorem tag_slice_last {tags : List JsonTag} {i j : Nat} {t : JsonTag}
    (hij : i ≤ j) (hj : j < tags.length) (h : tags.get? j = some t) :
    (tag_slice tags i j).getLast? = some t := by
  rw [List.getLast?_eq_getElem?, tag_slice_length hij hj,
    ← List.get?_eq_getElem?]
  have h1 : j - i + 1 - 1 = j - i := by omega
  rw [h1, tag_slice_get (j - i) (le_refl _)]
  have h2 : i + (j - i) = j := by omega
  rw [h2, h]

theorem trim_square_length_of {l : List JsonTag}
    (h1 : l.head? = some JsonTag.LeftSquare)
    (h2 : l.getLast? = some JsonTag.RightSquare) :
    (trim_square l).length = l.length - 2 := by
  unfold trim_square
  rw [if_pos ⟨h1, h2⟩]
  simp only [List.length_dropLast, List.length_drop]
  omega

theorem trim_curly_length_of {l : List JsonTag}
    (h1 : l.head? = some JsonTag.LeftCurly)
    (h2 : l.getLast? = some JsonTag.RightCurly) :
    (trim_curly l).length = l.length - 2 := by
  unfold trim_curly
  rw [if_pos ⟨h1, h2⟩]
  simp only [List.length_dropLast, List.length_drop]
  omega

/-- The name-stripping applied to object property names in
`JsonNode::parse_object` (lines 231-241).  In the source a name that starts
and ends with the same quote but has length 1 leads to the slice `[1..0]`,
which panics; `none` marks that case. -/
def strip_name_quotes (str : List Char) : Option (List Char) :=
  if (str.head? = some '\'' ∧ str.getLast? = some '\'')
      ∨ (str.head? = some '"' ∧ str.getLast? = some '"') then
    if str.length ≤ 1 then none
    else some ((str.drop 1).dropLast)
  else some str

/-- The "skip colon symbol" step of `JsonNode::parse_object` (lines 243-247):
`start` is `i + 1`, advanced once more when the tag there is a colon.
(`c0` is the tag at `i + 1`; the caller has already ruled out the
out-of-bounds panic.) -/
def skip_colon_index (c0 : JsonTag) (i : Nat) : Nat :=
  if c0 = JsonTag.Colon then i + 2 else i + 1

theorem skip_colon_index_ge {c0 : JsonTag} {i : Nat} :
    i + 1 ≤ skip_colon_index c0 i := by
  unfold skip_colon_index; split <;> omega

/-- The "skip comma symbol" step of the array/object loops (lines 207-212 and
266-271): advance once when the tag at `k` is a comma. -/
def skip_comma_index (inner : List JsonTag) (k : Nat) : Nat :=
  if inner.get? k = some JsonTag.Comma then k + 1 else k

theorem le_skip_comma_index {inner : List JsonTag} {k : Nat} :
    k ≤ skip_comma_index inner k := by
  unfold skip_comma_index; split <;> omega

mutual

/-- The scan loop of `JsonNode::parse_tags` (json_node.rs lines 66-107) from
index `i`: a literal becomes a plain node, a bracket recurses through
`parse_array`/`parse_object` (inlined here as strip-and-loop, which is their
definition) on the matched inclusive slice, and any other tag is skipped. -/
def parse_tags_from (tags : List JsonTag) (i : Nat) :
    Except String (List JsonNode) :=
  match hget : tags.get? i with
  | none => .ok []
  | some (JsonTag.Literal lit) =>
    match parse_plain lit with
    | .error e => .error e
    | .ok n =>
      match parse_tags_from tags (i + 1) with
      | .error e => .error e
      | .ok ns => .ok (n :: ns)
  | some JsonTag.LeftSquare =>
    match hj : find_match_tag tags i JsonTag.LeftSquare JsonTag.RightSquare with
    | .error e => .error e
    | .ok j =>
      match parse_array_loop (trim_square (tag_slice tags i j)) 0 with
      | .error e => .error e
      | .ok elems =>
        match parse_tags_from tags (j + 1) with
        | .error e => .error e
        | .ok ns => .ok (JsonNode.Array elems :: ns)
  | some JsonTag.LeftCurly =>
    match hj : find_match_tag tags i JsonTag.LeftCurly JsonTag.RightCurly with
    | .error e => .error e
    | .ok j =>
      match parse_object_loop (trim_curly (tag_slice tags i j)) 0 with
      | .error e => .error e
      | .ok props =>
        match parse_tags_from tags (j + 1) with
        | .error e => .error e
        | .ok ns => .ok (JsonNode.Object props :: ns)
  | some _ => parse_tags_from tags (i + 1)
termination_by 3 * tags.length + (tags.length - i)
decreasing_by
  · have hi := List.get?_eq_some.mp hget |>.1
    omega
  · obtain ⟨h1, h2, h3⟩ := find_match_tag_facts hj
    have hi := List.get?_eq_some.mp hget |>.1
    have hs1 : (tag_slice tags i j).head? = some JsonTag.LeftSquare :=
      tag_slice_head (by omega) hget
    have hs2 : (tag_slice tags i j).getLast? = some JsonTag.RightSquare :=
      tag_slice_last (by omega) h2 h3
    have ht := trim_square_length_of hs1 hs2
    have hl : (tag_slice tags i j).length = j - i + 1 :=
      tag_slice_length (by omega) h2
    rw [ht, hl]
    omega
  · obtain ⟨h1, h2, h3⟩ := find_match_tag_facts hj
    have hi := List.get?_eq_some.mp hget |>.1
    omega
  · obtain ⟨h1, h2, h3⟩ := find_match_tag_facts hj
    have hi := List.get?_eq_some.mp hget |>.1
    have hs1 : (tag_slice tags i j).head? = some JsonTag.LeftCurly :=
      tag_slice_head (by omega) hget
    have hs2 : (tag_slice tags i j).getLast? = some JsonTag.RightCurly :=
      tag_slice_last (by omega) h2 h3
    have ht := trim_curly_length_of hs1 hs2
    have hl : (tag_slice tags i j).length = j - i + 1 :=
      tag_slice_length (by omega) h2
    rw [ht, hl]
    omega
  · obtain ⟨h1, h2, h3⟩ := find_match_tag_facts hj
    have hi := List.get?_eq_some.mp hget |>.1
    omega
  · have hi := List.get?_eq_some.mp hget |>.1
    omega

/-- `JsonNode::parse_next` (lines 110-137): parse one node at index `i` and
return it (or `none` for a skipped tag) together with the advanced index; the
subtype records that the index strictly advances.  The source indexes
`json_tags[i]` directly, which panics past the end; the error message marks
that case. -/
def parse_next (tags : List JsonTag) (i : Nat) :
    Except String (Option JsonNode × {j : Nat // i < j}) :=
  match hget : tags.get? i with
  | none => .error "panicked: index out of bounds"
  | some (JsonTag.Literal _) =>
    match parse_tags_from (tag_slice tags i i) 0 with
    | .error e => .error e
    | .ok ns => .ok (ns.head?, ⟨i + 1, by omega⟩)
  | some JsonTag.LeftSquare =>
    match hj : find_match_tag tags i JsonTag.LeftSquare JsonTag.RightSquare with
    | .error e => .error e
    | .ok j =>
      match parse_tags_from (tag_slice tags i j) 0 with
      | .error e => .error e
      | .ok ns => .ok (ns.head?, ⟨j + 1, by
          have := (find_match_tag_facts hj).1
          omega⟩)
  | some JsonTag.LeftCurly =>
    match hj : find_match_tag tags i JsonTag.LeftCurly JsonTag.RightCurly with
    | .error e => .error e
    | .ok j =>
      match parse_tags_from (tag_slice tags i j) 0 with
      | .error e => .error e
      | .ok ns => .ok (ns.head?, ⟨j + 1, by
          have := (find_match_tag_facts hj).1
          omega⟩)
  | some _ => .ok (none, ⟨i + 1, by omega⟩)
termination_by 3 * tags.length + (tags.length - i) + 1
decreasing_by
  · have hi := List.get?_eq_some.mp hget |>.1
    have hs : (tag_slice tags i i).length ≤ tags.length - i := by
      simp only [tag_slice, List.length_take, List.length_drop]
      omega
    omega
  · have hi := List.get?_eq_some.mp hget |>.1
    have hs : (tag_slice tags i j).length ≤ tags.length - i := by
      simp only [tag_slice, List.length_take, List.length_drop]
      omega
    omega
  · have hi := List.get?_eq_some.mp hget |>.1
    have hs : (tag_slice tags i j).length ≤ tags.length - i := by
      simp only [tag_slice, List.length_take, List.length_drop]
      omega
    omega

/-- The element loop of `JsonNode::parse_array` (lines 197-213), over the
bracket-stripped interior, from index `i`: parse the next node, skip one
following comma if present, repeat until the interior is exhausted. -/
def parse_array_loop (inner : List JsonTag) (i : Nat) :
    Except String (List JsonNode) :=
  match hlt : inner.get? i with
  | none => .ok []
  | some _ =>
    match parse_next inner i with
    | .error e => .error e
    | .ok (none, i') => parse_array_loop inner i'.1
    | .ok (some n, i') =>
      match parse_array_loop inner (skip_comma_index inner i'.1) with
      | .error e => .error e
      | .ok ns => .ok (n :: ns)
termination_by 3 * inner.length + (inner.length - i) + 2
decreasing_by
  · omega
  · have hi := List.get?_eq_some.mp hlt |>.1
    have := i'.2
    omega
  · have hi := List.get?_eq_some.mp hlt |>.1
    have h2 := i'.2
    have h3 : i'.1 ≤ skip_comma_index inner i'.1 := le_skip_comma_index
    omega

/-- The property loop of `JsonNode::parse_object` (lines 228-272), over the
bracket-stripped interior, from index `i`: a literal property name (quotes
stripped), an optional colon (indexed without a bounds check in the source —
a panic case), the property value via the inner value loop, then an optional
comma. -/
def parse_object_loop (inner : List JsonTag) (i : Nat) :
    Except String (List (List Char × JsonNode)) :=
  match hlt : inner.get? i with
  | none => .ok []
  | some (JsonTag.Literal str) =>
    match strip_name_quotes str with
    | none => .error "panicked: slice index out of range"
    | some prop_name =>
      match hcolon : inner.get? (i + 1) with
      | none => .error "panicked: index out of bounds"
      | some c0 =>
        match parse_obj_value_loop inner (skip_colon_index c0 i) with
        | .error e => .error e
        | .ok (none, _) => .error "object property value not found"
        | .ok (some v, iNew) =>
          match parse_object_loop inner (skip_comma_index inner iNew.1) with
          | .error e => .error e
          | .ok props => .ok ((prop_name, v) :: props)
  | some _ => .error "object property name must be string"
termination_by 3 * inner.length + (inner.length - i) + 2
decreasing_by
  · have hi := List.get?_eq_some.mp hlt |>.1
    have h2 : i + 1 ≤ skip_colon_index c0 i := skip_colon_index_ge
    omega
  · have hi := List.get?_eq_some.mp hlt |>.1
    have h2 := iNew.2
    have h3 : i + 1 ≤ skip_colon_index c0 i := skip_colon_index_ge
    have h4 : iNew.1 ≤ skip_comma_index inner iNew.1 := le_skip_comma_index
    omega

/-- The inner value loop of `JsonNode::parse_object` (lines 249-258): from
`start`, keep calling `parse_next` (skipping tags that yield no node) until a
value is produced or the interior is exhausted; returns the value (if any)
and where the scan stopped (never before `start`). -/
def parse_obj_value_loop (inner : List JsonTag) (start : Nat) :
    Except String (Option JsonNode × {j : Nat // start ≤ j}) :=
  match hlt : inner.get? start with
  | none => .ok (none, ⟨start, le_refl _⟩)
  | some _ =>
    match parse_next inner start with
    | .error e => .error e
    | .ok (none, s') =>
      match parse_obj_value_loop inner s'.1 with
      | .error e => .error e
      | .ok (r, j) => .ok (r, ⟨j.1, le_trans (le_of_lt s'.2) j.2⟩)
    | .ok (some n, s') => .ok (some n, ⟨s'.1, le_of_lt s'.2⟩)
termination_by 3 * inner.length + (inner.length - start) + 2
decreasing_by
  · omega
  · have hi := List.get?_eq_some.mp hlt |>.1
    have := s'.2
    omega

end

/-- `JsonNode::parse_array` (lines 189-217): strip the enclosing square
brackets if present, then run the element loop. -/
def JsonNode.parse_array (json_tags : List JsonTag) : Except String JsonNode :=
  (parse_array_loop (trim_square json_tags) 0).map JsonNode.Array

/-- `JsonNode::parse_object` (lines 220-275): strip the enclosing curly
brackets if present, then run the property loop. -/
def JsonNode.parse_object (json_tags : List JsonTag) : Except String JsonNode :=
  (parse_object_loop (trim_curly json_tags) 0).map JsonNode.Object

/-- `JsonNode::parse_tags` (lines 66-107). -/
def JsonNode.parse_tags (json_tags : List JsonTag) : Except String (List JsonNode) :=
  parse_tags_from json_tags 0

/-- `JsonNode::parse` (lines 58-63): tokenize, then parse the tag stream. -/
def JsonNode.parse (l : List Char) : Except String (List JsonNode) :=
  JsonNode.parse_tags (JsonTag.parse l)

/-- `JsonNode::parse_single_node` (lines 46-55): parse, then demand exactly
one top-level node.  (Any other count — zero included — produces the
`more than 1 node found` error.) -/
def JsonNode.parse_single_node (l : List Char) : Except String JsonNode :=
  match JsonNode.parse l with
  | .error e => .error e
  | .ok [n] => .ok n
  | .ok _ => .error "more than 1 node found"

/-! ## Serialization (`JsonNode::fmt_indent`, json_node.rs lines 278-325) -/

/-- The decimal digits of a natural number, most significant first. -/
def nat_digits (n : Nat) : List Char :=
  if n < 10 then [Char.ofNat ('0'.toNat + n)]
  else nat_digits (n / 10) ++ [Char.ofNat ('0'.toNat + n % 10)]
termination_by n
decreasing_by
  rename_i h
  have : 0 < n := by omega
  exact Nat.div_lt_self this (by omega)

/-- Modelled from the spec: the `Display` implementation for `f64` lives in
the Rust standard library, outside this repository.  The spec's number
grammar is "digits with at most one `.`"; the model renders a nonnegative
integer value as its digit run (which is what the standard formatter prints
for such values) and marks every other value with a placeholder — theorems
about serialization restrict themselves to the modelled domain. -/
def f64_display (q : Rat) : List Char :=
  if q.den = 1 ∧ 0 ≤ q.num then nat_digits q.num.toNat else ['?']

/-- `n` spaces, as produced by `{:indent$}` with an empty string. -/
def indent_spaces (n : Nat) : List Char := List.replicate n ' '

mutual

/-- `JsonNode::fmt_indent` (lines 278-325), as a function from the node to
the character list it writes.  `pretty` is `f.alternate()` (the `{:#}`
format); the local bindings mirror the source's shadowed variables. -/
def fmt_indent (n : JsonNode) (pretty : Bool) (indent_width : Nat)
    (no_plain_indent : Bool) : List Char :=
  let ending := if pretty then ['\n'] else []
  let comma_separator := if pretty then [','] else [',', ' ']
  let iw := if pretty then indent_width else 0
  let next_indent_width := if pretty then iw + 4 else 0
  let plain_indent_width := if no_plain_indent then 0 else iw
  match n with
  | .PlainNull => indent_spaces plain_indent_width ++ "null".toList
  | .PlainBoolean b =>
    indent_spaces plain_indent_width ++ (if b then "true".toList else "false".toList)
  | .PlainNumber q => indent_spaces plain_indent_width ++ f64_display q
  | .PlainString s => indent_spaces plain_indent_width ++ '"' :: (s ++ ['"'])
  | .Object props =>
    '{' :: (ending ++ fmt_props props pretty next_indent_width (comma_separator ++ ending)
      ++ ending ++ indent_spaces iw ++ ['}'])
  | .Array arr =>
    '[' :: (ending ++ fmt_elems arr pretty next_indent_width (comma_separator ++ ending)
      ++ ending ++ indent_spaces iw ++ [']'])

/-- The element loop of the `Array` arm of `fmt_indent` (lines 308-321):
elements joined by the separator (comma + line ending). -/
def fmt_elems (arr : List JsonNode) (pretty : Bool) (next_indent_width : Nat)
    (sep : List Char) : List Char :=
  match arr with
  | [] => []
  | [x] => fmt_indent x pretty next_indent_width false
  | x :: xs =>
    fmt_indent x pretty next_indent_width false ++ sep
      ++ fmt_elems xs pretty next_indent_width sep

/-- The property loop of the `Object` arm of `fmt_indent` (lines 290-307):
each property as indent + quoted name + `": "` + value (with
`no_plain_indent`), joined by the separator. -/
def fmt_props (props : List (List Char × JsonNode)) (pretty : Bool)
    (next_indent_width : Nat) (sep : List Char) : List Char :=
  match props with
  | [] => []
  | [p] =>
    indent_spaces next_indent_width ++ '"' :: (p.1 ++ ['"', ':', ' '])
      ++ fmt_indent p.2 pretty next_indent_width true
  | p :: ps =>
    indent_spaces next_indent_width ++ '"' :: (p.1 ++ ['"', ':', ' '])
      ++ fmt_indent p.2 pretty next_indent_width true ++ sep
      ++ fmt_props ps pretty next_indent_width sep

end

/-- The `Display` implementation for `JsonNode` (lines 328-333) without the
alternate flag: the compact rendering. -/
def JsonNode.to_compact (n : JsonNode) : List Char := fmt_indent n false 0 false

/-- The `Display` implementation for `JsonNode` with the alternate flag
(`{:#}`): the pretty, 4-space-indented rendering. -/
def JsonNode.to_pretty (n : JsonNode) : List Char := fmt_indent n true 0 false

/-! ## The path compiler (`json_path.rs`, parsing half) -/

/-- `PartFragType` from json_path.rs.  The two name-fragment constructors are
`DotNotationPathName` and `BracketNotationPathName` in the source; they are
shortened here to `DotPathName`/`BracketPathName`. -/
inductive PartFragType where
  | None
  | RootPathName
  | CurrentPathName
  | DotPathName
  | BracketPathName
  | ElementSelector
  | Filter
deriving DecidableEq

/-- `PartFragType::identify_frag` (json_path.rs lines 32-59): classify the
next path fragment from one or two lookahead characters. -/
def PartFragType.identify_frag (l : List Char) : Except String PartFragType :=
  match l.get? 0 with
  | Option.none => .ok PartFragType.None
  | some c =>
    if c = '.' then .ok PartFragType.None
    else if c = '$' then .ok PartFragType.RootPathName
    else if c = '@' then .ok PartFragType.CurrentPathName
    else if c = '[' then
      match l.get? 1 with
      | Option.none => .error "unexpected end"
      | some c2 =>
        if c2 = '\'' then .ok PartFragType.BracketPathName
        else if c2.isDigit || c2 = '-' || c2 = ':' || c2 = '*' then
          .ok PartFragType.ElementSelector
        else if c2 = '?' then .ok PartFragType.Filter
        else .error "unrecognized json path part fragment"
    else .ok PartFragType.DotPathName

/-- `ArrayElementSelector` from json_path.rs.  `Single` holds a `usize`
(`Nat`), `Range` two optional `i32` (`Int`), `Multiple` a list of `usize`. -/
inductive ArrayElementSelector where
  | All
  | Single (i : Nat)
  | Range (s e : Option Int)
  | Multiple (idxs : List Nat)
deriving DecidableEq

/-- `ArrayElementSelector::trim_brackets` (lines 77-88). -/
def trim_brackets (s : List Char) : List Char :=
  if s.head? = some '[' ∧ s.getLast? = some ']' then (s.drop 1).dropLast else s

/-- Modelled from the spec: `usize::from_str` is the standard library's
integer parser.  The selector texts this crate feeds it contain only digits,
`-`, `*`, `:`, `,` and brackets, so the model accepts exactly a nonempty
all-digit run (the optional `+` sign and the overflow bound are outside the
reachable inputs and not modelled). -/
def rust_usize_from_str (s : List Char) : Except String Nat :=
  if s ≠ [] ∧ s.all (·.isDigit) then .ok (digits_to_nat s)
  else .error "invalid digit found in string"

/-- Modelled from the spec: `i32::from_str`, restricted the same way — an
optional leading `-`, then a nonempty all-digit run. -/
def rust_i32_from_str (s : List Char) : Except String Int :=
  if s ≠ [] ∧ s.all (·.isDigit) then .ok ((digits_to_nat s : Int))
  else if s.head? = some '-' ∧ s.drop 1 ≠ [] ∧ (s.drop 1).all (·.isDigit) then
    .ok (-((digits_to_nat (s.drop 1) : Int)))
  else .error "invalid digit found in string"

/-- `ArrayElementSelector::parse_single_or_all` (lines 91-99). -/
def parse_single_or_all (s : List Char) : Except String ArrayElementSelector :=
  let index_str := trim_brackets s
  if index_str = "*".toList then .ok ArrayElementSelector.All
  else (rust_usize_from_str index_str).map ArrayElementSelector.Single

/-- `ArrayElementSelector::parse_range` (lines 102-119).  The source calls
`.position(|c| c == ':').unwrap()`, which panics when no colon is present;
the caller only dispatches here when the scan saw a colon. -/
def parse_range (s : List Char) : Except String ArrayElementSelector :=
  let range_str := trim_brackets s
  match range_str.findIdx? (· = ':') with
  | Option.none => .error "panicked: no colon in range selector"
  | some ci =>
    let range_left_str := range_str.take ci
    let range_right_str := range_str.drop (ci + 1)
    match (if range_left_str = [] then .ok Option.none
      else (rust_i32_from_str range_left_str).map some : Except String (Option Int)) with
    | .error e => .error e
    | .ok range_left =>
      match (if range_right_str = [] then .ok Option.none
        else (rust_i32_from_str range_right_str).map some : Except String (Option Int)) with
      | .error e => .error e
      | .ok range_right => .ok (ArrayElementSelector.Range range_left range_right)

/-- The character loop of `ArrayElementSelector::parse_multiple`
(lines 122-145): `number_str` is the pending digit run, a comma flushes it,
whitespace is skipped, and the final run is flushed at the end. -/
def parse_multiple_go (cs : List Char) (number_str : List Char) :
    Except String (List Nat) :=
  match cs with
  | [] => (rust_usize_from_str number_str).map (fun i => [i])
  | c :: rest =>
    if c = ',' then
      match rust_usize_from_str number_str with
      | .error e => .error e
      | .ok i => (parse_multiple_go rest []).map (fun l => i :: l)
    else if c.isWhitespace then parse_multiple_go rest number_str
    else parse_multiple_go rest (number_str ++ [c])

/-- `ArrayElementSelector::parse_multiple` (lines 122-145). -/
def parse_multiple (s : List Char) : Except String ArrayElementSelector :=
  (parse_multiple_go (trim_brackets s) []).map ArrayElementSelector.Multiple

/-- The scan loop of `ArrayElementSelector::parse` (lines 152-175): find the
closing `]`, recording whether a comma or colon occurred. -/
def selector_scan (l : List Char) (i : Nat) (has_comma has_colon : Bool) :
    Except String (Nat × Bool × Bool) :=
  match hget : l.get? i with
  | Option.none => .error "unexpected end"
  | some c =>
    if c = ']' then .ok (i, has_comma, has_colon)
    else if c = ',' then selector_scan l (i + 1) true has_colon
    else if c = ':' then selector_scan l (i + 1) has_comma true
    else if c.isDigit || c = '-' || c = '*' then selector_scan l (i + 1) has_comma has_colon
    else if c = '[' then selector_scan l (i + 1) has_comma has_colon
    else if c.isWhitespace then selector_scan l (i + 1) has_comma has_colon
    else .error "unrecognized array element selector"
termination_by l.length - i
decreasing_by
  all_goals
    have : i < l.length := List.get?_eq_some.mp hget |>.1
    omega

/-- `ArrayElementSelector::parse` (lines 148-187): scan to the closing `]`,
pop the selector text (bracket included), and dispatch on the recorded
comma/colon flags. -/
def ArrayElementSelector.parse (l : List Char) :
    Except String (ArrayElementSelector × List Char) :=
  match selector_scan l 0 false false with
  | .error e => .error e
  | .ok (i, has_comma, has_colon) =>
    let elem_selector_str := l.take (i + 1)
    let rest := l.drop (i + 1)
    (if has_comma then parse_multiple elem_selector_str
     else if has_colon then parse_range elem_selector_str
     else parse_single_or_all elem_selector_str).map (fun es => (es, rest))

/-- The scan loop of `JsonPathPart::parse_dot_notation_path_name`
(lines 226-245): stop at an unescaped `.` or `[`, or at end of input. -/
def dot_name_scan (l : List Char) (i : Nat) (is_escape : Bool) : Nat :=
  match hget : l.get? i with
  | Option.none => i
  | some c =>
    if c = '\\' then dot_name_scan l (i + 1) true
    else if (c = '.' ∨ c = '[') ∧ is_escape = false then i
    else dot_name_scan l (i + 1) false
termination_by l.length - i
decreasing_by
  all_goals
    have : i < l.length := List.get?_eq_some.mp hget |>.1
    omega

/-- `JsonPathPart::parse_dot_notation_path_name` (lines 220-252): a
zero-length name is a fatal error, otherwise pop the scanned name. -/
def parse_dot_path_name (l : List Char) : Except String (List Char × List Char) :=
  if dot_name_scan l 0 false = 0 then .error "empty json path part fragment"
  else .ok (l.take (dot_name_scan l 0 false), l.drop (dot_name_scan l 0 false))

/-- The scan loop of `JsonPathPart::parse_bracket_notation_path_name`
(lines 261-295): single-quoted and escape-aware; the closing quote must be
followed immediately by `]`, and the loop stops at the closing quote. -/
def bracket_name_scan (l : List Char) (i : Nat) (is_escape in_quote : Bool) :
    Except String Nat :=
  match hget : l.get? i with
  | Option.none => .error "unexpected end"
  | some c =>
    if c = '\\' then bracket_name_scan l (i + 1) true in_quote
    else if c = '\'' ∧ is_escape = false then
      if in_quote then
        match l.get? (i + 1) with
        | Option.none => .error "unexpected end"
        | some c2 =>
          if c2 = ']' then .ok i
          else .error "expecting square bracket at the end"
      else bracket_name_scan l (i + 1) false true
    else bracket_name_scan l (i + 1) false in_quote
termination_by l.length - i
decreasing_by
  all_goals
    have : i < l.length := List.get?_eq_some.mp hget |>.1
    omega

/-- `JsonPathPart::parse_bracket_notation_path_name` (lines 255-303): pop the
name through the `]`, and strip the `['` / `']` wrapping when present. -/
def parse_bracket_path_name (l : List Char) :
    Except String (List Char × List Char) :=
  match bracket_name_scan l 0 false false with
  | .error e => .error e
  | .ok i =>
    if (l.take (i + 2)).take 2 = ['[', '\'']
        ∧ (l.take (i + 2)).drop ((l.take (i + 2)).length - 2) = ['\'', ']'] then
      .ok (((l.take (i + 2)).drop 2).take (i - 2), l.drop (i + 2))
    else .ok (l.take (i + 2), l.drop (i + 2))

theorem selector_scan_facts_aux {l : List Char} :
    ∀ (k : Nat) {i : Nat} {hc hcl : Bool} {j : Nat} {b1 b2 : Bool},
      l.length - i ≤ k →
      selector_scan l i hc hcl = .ok (j, b1, b2) → i ≤ j ∧ j < l.length := by
  intro k
  induction k with
  | zero =>
    intro i hc hcl j b1 b2 hk h
    rw [selector_scan] at h
    split at h
    · exact Except.noConfusion h
    · rename_i c hget
      have := (List.get?_eq_some.mp hget).1
      split_ifs at h
      all_goals try (cases h; exact ⟨le_refl _, by omega⟩)
      all_goals first
        | exact Except.noConfusion h
        | omega
  | succ k ih =>
    intro i hc hcl j b1 b2 hk h
    rw [selector_scan] at h
    split at h
    · exact Except.noConfusion h
    · rename_i c hget
      have hlt := (List.get?_eq_some.mp hget).1
      split_ifs at h
      all_goals try (cases h; exact ⟨le_refl _, hlt⟩)
      all_goals try (exact Except.noConfusion h)
      all_goals
        have h9 := ih (by omega) h
        omega

theorem selector_scan_facts {l : List Char} {i : Nat} {hc hcl : Bool}
    {j : Nat} {b1 b2 : Bool}
    (h : selector_scan l i hc hcl = .ok (j, b1, b2)) : i ≤ j ∧ j < l.length :=
  selector_scan_facts_aux (l.length - i) (le_refl _) h

theorem dot_name_scan_bounds_aux {l : List Char} :
    ∀ (k : Nat) {i : Nat} {is_escape : Bool}, l.length - i ≤ k → i ≤ l.length →
      i ≤ dot_name_scan l i is_escape ∧ dot_name_scan l i is_escape ≤ l.length := by
  intro k
  induction k with
  | zero =>
    intro i is_escape hk hi
    rw [dot_name_scan]
    split
    · exact ⟨le_refl _, hi⟩
    · rename_i c hget
      have := (List.get?_eq_some.mp hget).1
      omega
  | succ k ih =>
    intro i is_escape hk hi
    rw [dot_name_scan]
    split
    · exact ⟨le_refl _, hi⟩
    · rename_i c hget
      have hlt := (List.get?_eq_some.mp hget).1
      split_ifs
      all_goals try exact ⟨le_refl _, hi⟩
      all_goals
        have h1 := @ih (i + 1) true (by omega) (by omega)
        have h2 := @ih (i + 1) false (by omega) (by omega)
        omega

theorem dot_name_scan_bounds {l : List Char} {i : Nat} {is_escape : Bool}
    (hi : i ≤ l.length) :
    i ≤ dot_name_scan l i is_escape ∧ dot_name_scan l i is_escape ≤ l.length :=
  dot_name_scan_bounds_aux (l.length - i) (le_refl _) hi

theorem bracket_name_scan_facts_aux {l : List Char} :
    ∀ (k : Nat) {i : Nat} {is_escape in_quote : Bool} {j : Nat},
      l.length - i ≤ k →
      bracket_name_scan l i is_escape in_quote = .ok j → i ≤ j ∧ j < l.length := by
  intro k
  induction k with
  | zero =>
    intro i is_escape in_quote j hk h
    rw [bracket_name_scan] at h
    split at h
    · exact Except.noConfusion h
    · rename_i c hget
      have := (List.get?_eq_some.mp hget).1
      omega
  | succ k ih =>
    intro i is_escape in_quote j hk h
    rw [bracket_name_scan] at h
    split at h
    · exact Except.noConfusion h
    · rename_i c hget
      have hlt := (List.get?_eq_some.mp hget).1
      split_ifs at h
      · have := ih (by omega) h; omega
      · split at h
        · exact Except.noConfusion h
        · split at h
          · cases h; exact ⟨le_refl _, hlt⟩
          · exact Except.noConfusion h
      · have := ih (by omega) h; omega
      · have := ih (by omega) h; omega

theorem bracket_name_scan_facts {l : List Char} {i : Nat}
    {is_escape in_quote : Bool} {j : Nat}
    (h : bracket_name_scan l i is_escape in_quote = .ok j) :
    i ≤ j ∧ j < l.length :=
  bracket_name_scan_facts_aux (l.length - i) (le_refl _) h

/-- `JsonPathPart` from json_path.rs: a path name plus an optional element
selector.  (The filter member is commented out in the source.) -/
structure JsonPathPart where
  path_name : List Char
  elem_selector : Option ArrayElementSelector
deriving DecidableEq

/-- `JsonPathPart::parse_next` (lines 307-352): classify and read one
fragment as the path name, then an optional element selector; a filter
fragment at the end reaches the source's `todo!()`, modelled as an error. -/
def JsonPathPart.parse_next (l : List Char) :
    Except String (Option (JsonPathPart × List Char)) :=
  match PartFragType.identify_frag l with
  | .error e => .error e
  | .ok frag_type =>
    match (match frag_type with
      | PartFragType.None => .ok Option.none
      | PartFragType.RootPathName => .ok (some (['$'], l.drop 1))
      | PartFragType.CurrentPathName => .ok (some (['@'], l.drop 1))
      | PartFragType.DotPathName => (parse_dot_path_name l).map some
      | PartFragType.BracketPathName => (parse_bracket_path_name l).map some
      | _ => .error "unexpected json path part type"
      : Except String (Option (List Char × List Char))) with
    | .error e => .error e
    | .ok Option.none => .ok Option.none
    | .ok (some (path_name, rest)) =>
      match PartFragType.identify_frag rest with
      | .error e => .error e
      | .ok next_frag_type =>
        match (if next_frag_type = PartFragType.ElementSelector then
            (ArrayElementSelector.parse rest).map
              (fun p => (some p.1, p.2))
          else .ok (Option.none, rest)
          : Except String (Option ArrayElementSelector × List Char)) with
        | .error e => .error e
        | .ok (elem_selector, rest2) =>
          match PartFragType.identify_frag rest2 with
          | .error e => .error e
          | .ok last_frag_type =>
            if last_frag_type = PartFragType.Filter then
              .error "not implemented: json path filter"
            else .ok (some (⟨path_name, elem_selector⟩, rest2))

theorem identify_frag_nil : PartFragType.identify_frag [] = .ok PartFragType.None := rfl

theorem parse_dot_path_name_consumes {l n rest}
    (h : parse_dot_path_name l = .ok (n, rest)) : rest.length < l.length := by
  unfold parse_dot_path_name at h
  split at h
  · exact Except.noConfusion h
  · rename_i hne
    cases h
    have hb := @dot_name_scan_bounds l 0 false (by omega)
    simp only [List.length_drop]
    omega

theorem parse_bracket_path_name_consumes {l n rest}
    (h : parse_bracket_path_name l = .ok (n, rest)) : rest.length < l.length := by
  unfold parse_bracket_path_name at h
  split at h
  · exact Except.noConfusion h
  · rename_i i hscan
    have hb := bracket_name_scan_facts hscan
    split at h <;> (cases h; simp only [List.length_drop]; omega)

theorem selector_parse_consumes {l es rest}
    (h : ArrayElementSelector.parse l = .ok (es, rest)) :
    rest.length < l.length := by
  unfold ArrayElementSelector.parse at h
  split at h
  · exact Except.noConfusion h
  · rename_i i has_comma has_colon hscan
    have hb := selector_scan_facts hscan
    simp only [Except.map] at h
    split at h
    · exact Except.noConfusion h
    · rename_i es' heq
      cases h
      simp only [List.length_drop]
      omega

theorem parse_next_consumes {l : List Char} {p : JsonPathPart} {rest2 : List Char}
    (h : JsonPathPart.parse_next l = .ok (some (p, rest2))) :
    rest2.length < l.length := by
  unfold JsonPathPart.parse_next at h
  split at h
  · exact Except.noConfusion h
  · rename_i ft hfrag
    split at h
    · exact Except.noConfusion h
    · exact Option.noConfusion (Except.ok.inj h)
    · rename_i name rest hname
      -- the selector stage can only shrink `rest` further
      have hrest : rest.length < l.length := by
        split at hname
        · exact Option.noConfusion (Except.ok.inj hname)
        · cases hname
          -- RootPathName: `l` is nonempty since `identify_frag` did not say None
          cases l with
          | nil => rw [identify_frag_nil] at hfrag; cases hfrag
          | cons c cs => simp
        · cases hname
          cases l with
          | nil => rw [identify_frag_nil] at hfrag; cases hfrag
          | cons c cs => simp
        · rename_i hdot
          simp only [Except.map] at hname
          split at hname
          · exact Except.noConfusion hname
          · rename_i pr heq
            cases hname
            exact parse_dot_path_name_consumes (by rw [heq])
        · rename_i hbr
          simp only [Except.map] at hname
          split at hname
          · exact Except.noConfusion hname
          · rename_i pr heq
            cases hname
            exact parse_bracket_path_name_consumes (by rw [heq])
        · exact Except.noConfusion hname
      split at h
      · exact Except.noConfusion h
      · rename_i nft hnft
        split at h
        · exact Except.noConfusion h
        · rename_i esel rest' hsel
          have hrest' : rest'.length ≤ rest.length := by
            split at hsel
            · simp only [Except.map] at hsel
              split at hsel
              · exact Except.noConfusion hsel
              · rename_i pr heq
                cases hsel
                exact le_of_lt (selector_parse_consumes (by rw [heq]))
            · cases hsel; exact le_refl _
          split at h
          · exact Except.noConfusion h
          · rename_i lft hlft
            split at h
            · exact Except.noConfusion h
            · cases h
              omega

/-- `JsonPath` from json_path.rs: an ordered list of parts. -/
structure JsonPath where
  parts : List JsonPathPart
deriving DecidableEq

/-- The loop of `JsonPath::parse` (lines 419-437): read parts until the
classifier reports no more, consuming one explicit `.` separator after each
part when present. -/
def json_path_parse_loop (l : List Char) : Except String (List JsonPathPart) :=
  match hp : JsonPathPart.parse_next l with
  | .error e => .error e
  | .ok Option.none => .ok []
  | .ok (some (part, rest)) =>
    match json_path_parse_loop (if rest.head? = some '.' then rest.drop 1 else rest) with
    | .error e => .error e
    | .ok parts => .ok (part :: parts)
termination_by l.length
decreasing_by
  have := parse_next_consumes hp
  split
  · simp only [List.length_drop]; omega
  · omega

/-- `JsonPath::parse` (lines 419-437). -/
def JsonPath.parse (l : List Char) : Except String JsonPath :=
  (json_path_parse_loop l).map JsonPath.mk

/-! ## The path evaluator (`json_path.rs`, evaluation half)

`evaluate_json_path` produces `Vec<&'a mut JsonNode>` — live mutable
references into the tree.  A reference into an owned tree is determined by
the index path from the root to the node it points at, so the evaluator is
modelled over such index paths (`Loc`): reading through a reference is
`node_at`, writing through it is `set_at`. -/

/-- A location inside a tree: at an `Object` the index into the property
list, at an `Array` the index into the element list. -/
abbrev Loc := List Nat

/-- Dereference a location. -/
def node_at : JsonNode → Loc → Option JsonNode
  | n, [] => some n
  | JsonNode.Array es, i :: r =>
    match es.get? i with
    | some e => node_at e r
    | none => Option.none
  | JsonNode.Object pl, i :: r =>
    match pl.get? i with
    | some p => node_at p.2 r
    | none => Option.none
  | _, _ :: _ => Option.none
termination_by _ l => l.length

/-- Replace the element at an index, leaving the list unchanged when the
index is out of range. -/
def modify_idx : List α → Nat → (α → α) → List α
  | [], _, _ => []
  | x :: xs, 0, f => f x :: xs
  | x :: xs, n + 1, f => x :: modify_idx xs n f

/-- Write `v` through a location (`*n = value.clone()` in
`json_path_set_raw`).  On a location that does not denote a node — which a
live reference never is — the tree is returned unchanged. -/
def set_at : JsonNode → Loc → JsonNode → JsonNode
  | _, [], v => v
  | JsonNode.Array es, i :: r, v =>
    JsonNode.Array (modify_idx es i (fun e => set_at e r v))
  | JsonNode.Object pl, i :: r, v =>
    JsonNode.Object (modify_idx pl i (fun p => (p.1, set_at p.2 r v)))
  | n, _ :: _, _ => n
termination_by _ l _ => l.length

/-- The scan loop of `get_mut_by_indexes` (json_path.rs lines 356-376),
generic in the element type exactly like the source: keep the elements whose
position (counted from `i`) appears in `indexes`, in list order. -/
def get_mut_by_indexes_go (l : List α) (indexes : List Nat) (i : Nat) : List α :=
  match l with
  | [] => []
  | x :: xs =>
    if indexes.contains i then x :: get_mut_by_indexes_go xs indexes (i + 1)
    else get_mut_by_indexes_go xs indexes (i + 1)

/-- `get_mut_by_indexes` (lines 356-376). -/
def get_mut_by_indexes (l : List α) (indexes : List Nat) : List α :=
  get_mut_by_indexes_go l indexes 0

/-- The scan loop of `get_mut_by_index_range` (lines 379-404): positions
below `start` are skipped, the loop breaks at the first position `≥ e`
(checked after the skip, as in the source). -/
def get_mut_by_index_range_go (l : List α) (start e i : Nat) : List α :=
  match l with
  | [] => []
  | x :: xs =>
    if i < start then get_mut_by_index_range_go xs start e (i + 1)
    else if e ≤ i then []
    else x :: get_mut_by_index_range_go xs start e (i + 1)

/-- `get_mut_by_index_range` (lines 379-404). -/
def get_mut_by_index_range (l : List α) (start e : Nat) : List α :=
  get_mut_by_index_range_go l start e 0

/-- The `as usize` cast of an `i32`-typed value (line 499): sign-extend and
reinterpret, i.e. reduce modulo `2^64`. -/
def int_as_usize (x : Int) : Nat := (x % (2 ^ 64 : Int)).toNat

/-- The `as i32` cast of a `usize`-typed value (line 499): two's-complement
wrap into `[-2^31, 2^31)`. -/
def usize_as_i32 (n : Nat) : Int := ((n + 2 ^ 31 : Int) % 2 ^ 32) - 2 ^ 31

/-- The locations of the elements of the array member at `c` — the list
`arr.iter_mut()` ranges over, as locations. -/
def elem_locs (c : Loc) (len : Nat) : List Loc :=
  (List.range len).map (fun k => c ++ [k])

/-- The selector dispatch of `evaluate_json_path` (lines 473-526) for one
`Array` member at `c` with `len` elements, mirroring the nested matches on
`Single` / `Multiple` / `Range` / `All` including the sign checks and the
integer casts. -/
def apply_selector (es : ArrayElementSelector) (len : Nat) (c : Loc) :
    Except String (List Loc) :=
  match es with
  | ArrayElementSelector.Single i => .ok (if i < len then [c ++ [i]] else [])
  | ArrayElementSelector.Multiple il => .ok (get_mut_by_indexes (elem_locs c len) il)
  | ArrayElementSelector.Range s e =>
    match s with
    | Option.none =>
      match e with
      | Option.none => .ok (elem_locs c len)
      | some ev =>
        if ev < 0 then
          .error "array element selector end index must not be negative"
        else .ok (get_mut_by_index_range (elem_locs c len) 0 (int_as_usize ev))
    | some sv =>
      if sv < 0 then
        match e with
        | Option.none =>
          .ok (get_mut_by_index_range (elem_locs c len)
            (int_as_usize (usize_as_i32 len + sv)) len)
        | some _ =>
          .error "array element selector start index must not be negative when end index specified"
      else
        match e with
        | Option.none =>
          .ok (get_mut_by_index_range (elem_locs c len) (int_as_usize sv) len)
        | some ev =>
          if ev < 0 then
            .error "array element selector end index must not be negative"
          else
            .ok (get_mut_by_index_range (elem_locs c len) (int_as_usize sv)
              (int_as_usize ev))
  | ArrayElementSelector.All => .ok (get_mut_by_index_range (elem_locs c len) 0 len)

/-- The name-step loop of `evaluate_json_path` (lines 446-462) over the
working set: an `Object` member contributes the value of its *first*
property whose name matches; any other member, or an `Object` without a
match, is silently dropped. -/
def name_step (t : JsonNode) (pn : List Char) : List Loc → List Loc
  | [] => []
  | c :: rest =>
    match node_at t c with
    | some (JsonNode.Object pl) =>
      match pl.findIdx? (fun x => x.1 == pn) with
      | some k => (c ++ [k]) :: name_step t pn rest
      | Option.none => name_step t pn rest
    | _ => name_step t pn rest

/-- The selector-step loop of `evaluate_json_path` (lines 465-534) over the
working set: every member must be an `Array` (anything else is the fatal
`SelectorTypeError`), and the selected element locations are appended in
order. -/
def selector_step (t : JsonNode) (es : ArrayElementSelector) :
    List Loc → Except String (List Loc)
  | [] => .ok []
  | c :: rest =>
    match node_at t c with
    | some (JsonNode.Array arr) =>
      match apply_selector es arr.length c with
      | .error e => .error e
      | .ok sel =>
        match selector_step t es rest with
        | .error e => .error e
        | .ok next => .ok (sel ++ next)
    | _ => .error "element selector must be applied on array notation"

/-- One `path_part` iteration of `evaluate_json_path` (lines 442-535):
`$`/`@` are no-ops for the name stage, then the optional selector stage. -/
def eval_step (t : JsonNode) (part : JsonPathPart) (ws : List Loc) :
    Except String (List Loc) :=
  let ws1 :=
    if part.path_name = ['$'] then ws
    else if part.path_name = ['@'] then ws
    else name_step t part.path_name ws
  match part.elem_selector with
  | Option.none => .ok ws1
  | some es => selector_step t es ws1

/-- The fold of `evaluate_json_path` over the parts. -/
def evaluate_json_path_aux (t : JsonNode) :
    List JsonPathPart → List Loc → Except String (List Loc)
  | [], ws => .ok ws
  | p :: ps, ws =>
    match eval_step t p ws with
    | .error e => .error e
    | .ok ws1 => evaluate_json_path_aux t ps ws1

/-- `JsonPath::evaluate_json_path` (lines 440-538): starting from the
singleton working set holding the root. -/
def JsonPath.evaluate_json_path (jp : JsonPath) (t : JsonNode) :
    Except String (List Loc) :=
  evaluate_json_path_aux t jp.parts [[]]

/-- Dereference a list of locations (`result.push(&*n)` in
`json_path_get_raw`); a live reference never dangles, which
`evaluate_json_path_valid` below makes precise for locations. -/
def read_locs (t : JsonNode) : List Loc → Except String (List JsonNode)
  | [] => .ok []
  | c :: rest =>
    match node_at t c with
    | some n => (read_locs t rest).map (n :: ·)
    | Option.none => .error "dangling location"

/-- `JsonPath::json_path_get_raw` (lines 541-552). -/
def JsonPath.json_path_get_raw (jp : JsonPath) (t : JsonNode) :
    Except String (List JsonNode) :=
  match jp.evaluate_json_path t with
  | .error e => .error e
  | .ok locs => read_locs t locs

/-- The number-projection loop of `json_path_get_number` (lines 555-566). -/
def extract_numbers : List JsonNode → Except String (List Rat)
  | [] => .ok []
  | JsonNode.PlainNumber q :: rest => (extract_numbers rest).map (q :: ·)
  | _ :: _ => .error "expecting number"

/-- The bool-projection loop of `json_path_get_bool` (lines 569-580). -/
def extract_bools : List JsonNode → Except String (List Bool)
  | [] => .ok []
  | JsonNode.PlainBoolean b :: rest => (extract_bools rest).map (b :: ·)
  | _ :: _ => .error "expecting bool"

/-- The string-projection loop of `json_path_get_str` (lines 583-594). -/
def extract_strs : List JsonNode → Except String (List (List Char))
  | [] => .ok []
  | JsonNode.PlainString s :: rest => (extract_strs rest).map (s :: ·)
  | _ :: _ => .error "expecting string"

/-- `JsonPath::json_path_get_number` (lines 555-566). -/
def JsonPath.json_path_get_number (jp : JsonPath) (t : JsonNode) :
    Except String (List Rat) :=
  match jp.json_path_get_raw t with
  | .error e => .error e
  | .ok selected => extract_numbers selected

/-- `JsonPath::json_path_get_bool` (lines 569-580). -/
def JsonPath.json_path_get_bool (jp : JsonPath) (t : JsonNode) :
    Except String (List Bool) :=
  match jp.json_path_get_raw t with
  | .error e => .error e
  | .ok selected => extract_bools selected

/-- `JsonPath::json_path_get_str` (lines 583-594). -/
def JsonPath.json_path_get_str (jp : JsonPath) (t : JsonNode) :
    Except String (List (List Char)) :=
  match jp.json_path_get_raw t with
  | .error e => .error e
  | .ok selected => extract_strs selected

/-- `JsonPath::json_path_set_raw` (lines 617-628): evaluate once, then write
the value through every resulting reference.  The references are pairwise
non-overlapping nodes of one exclusively borrowed tree, so writing them one
location at a time computes the same final tree; the updated tree is
returned (the source mutates in place). -/
def JsonPath.json_path_set_raw (jp : JsonPath) (t : JsonNode) (value : JsonNode) :
    Except String JsonNode :=
  match jp.evaluate_json_path t with
  | .error e => .error e
  | .ok locs => .ok (locs.foldl (fun acc c => set_at acc c value) t)

/-- `JsonPath::json_path_set_null` (lines 597-599). -/
def JsonPath.json_path_set_null (jp : JsonPath) (t : JsonNode) :
    Except String JsonNode :=
  jp.json_path_set_raw t JsonNode.PlainNull

/-- `JsonPath::json_path_set_number` (lines 602-604). -/
def JsonPath.json_path_set_number (jp : JsonPath) (t : JsonNode) (value : Rat) :
    Except String JsonNode :=
  jp.json_path_set_raw t (JsonNode.PlainNumber value)

/-- `JsonPath::json_path_set_bool` (lines 607-609). -/
def JsonPath.json_path_set_bool (jp : JsonPath) (t : JsonNode) (value : Bool) :
    Except String JsonNode :=
  jp.json_path_set_raw t (JsonNode.PlainBoolean value)

/-- `JsonPath::json_path_set_str` (lines 612-614). -/
def JsonPath.json_path_set_str (jp : JsonPath) (t : JsonNode) (value : List Char) :
    Except String JsonNode :=
  jp.json_path_set_raw t (JsonNode.PlainString value)

/-- `JsonNode::get_number` (lines 633-642): parse the path text, evaluate the
typed getter, and return the first match (or `none` on an empty match). -/
def JsonNode.get_number (t : JsonNode) (json_path : List Char) :
    Except String (Option Rat) :=
  match JsonPath.parse json_path with
  | .error e => .error e
  | .ok jp =>
    match jp.json_path_get_number t with
    | .error e => .error e
    | .ok [] => .ok Option.none
    | .ok (x :: _) => .ok (some x)

/-- `JsonNode::get_bool` (lines 645-654). -/
def JsonNode.get_bool (t : JsonNode) (json_path : List Char) :
    Except String (Option Bool) :=
  match JsonPath.parse json_path with
  | .error e => .error e
  | .ok jp =>
    match jp.json_path_get_bool t with
    | .error e => .error e
    | .ok [] => .ok Option.none
    | .ok (x :: _) => .ok (some x)

/-- `JsonNode::get_str` (lines 657-666). -/
def JsonNode.get_str (t : JsonNode) (json_path : List Char) :
    Except String (Option (List Char)) :=
  match JsonPath.parse json_path with
  | .error e => .error e
  | .ok jp =>
    match jp.json_path_get_str t with
    | .error e => .error e
    | .ok [] => .ok Option.none
    | .ok (x :: _) => .ok (some x)

/-- `JsonNode::get_raw` (lines 669-678). -/
def JsonNode.get_raw (t : JsonNode) (json_path : List Char) :
    Except String (Option JsonNode) :=
  match JsonPath.parse json_path with
  | .error e => .error e
  | .ok jp =>
    match jp.json_path_get_raw t with
    | .error e => .error e
    | .ok [] => .ok Option.none
    | .ok (x :: _) => .ok (some x)

/-- `JsonNode::set_number` (lines 688-692), returning the updated tree. -/
def JsonNode.set_number (t : JsonNode) (json_path : List Char) (value : Rat) :
    Except String JsonNode :=
  match JsonPath.parse json_path with
  | .error e => .error e
  | .ok jp => jp.json_path_set_number t value

/-- `JsonNode::set_bool` (lines 695-699). -/
def JsonNode.set_bool (t : JsonNode) (json_path : List Char) (value : Bool) :
    Except String JsonNode :=
  match JsonPath.parse json_path with
  | .error e => .error e
  | .ok jp => jp.json_path_set_bool t value

/-- `JsonNode::set_str` (lines 702-706). -/
def JsonNode.set_str (t : JsonNode) (json_path : List Char) (value : List Char) :
    Except String JsonNode :=
  match JsonPath.parse json_path with
  | .error e => .error e
  | .ok jp => jp.json_path_set_str t value

/-- `JsonNode::set_null` (lines 681-685). -/
def JsonNode.set_null (t : JsonNode) (json_path : List Char) :
    Except String JsonNode :=
  match JsonPath.parse json_path with
  | .error e => .error e
  | .ok jp => jp.json_path_set_null t

/-- `JsonNode::set_raw` (lines 709-713). -/
def JsonNode.set_raw (t : JsonNode) (json_path : List Char) (value : JsonNode) :
    Except String JsonNode :=
  match JsonPath.parse json_path with
  | .error e => .error e
  | .ok jp => jp.json_path_set_raw t value

/-! ## Basic lemmas about the tokenizer -/

theorem tokenize_of_none {l : List Char} {rest : List Char}
    (h : read_json_tag l = (Option.none, rest)) : JsonTag.parse l = [] := by
  rw [JsonTag.parse]
  split
  · rfl
  · rename_i t rest' heq
    rw [h] at heq
    exact Option.noConfusion (congrArg Prod.fst heq)

theorem tokenize_of_some {l : List Char} {t : JsonTag} {rest : List Char}
    (h : read_json_tag l = (some t, rest)) :
    JsonTag.parse l = t :: JsonTag.parse rest := by
  rw [JsonTag.parse]
  split
  · rename_i rest' heq
    rw [h] at heq
    exact Option.noConfusion (congrArg Prod.fst heq)
  · rename_i t' rest' heq
    rw [h] at heq
    have h1 : some t = some t' := congrArg Prod.fst heq
    have h2 : rest = rest' := congrArg Prod.snd heq
    cases h1
    cases h2
    rfl

theorem read_json_tag_all_ws {l : List Char} (h : ∀ c ∈ l, c.isWhitespace) :
    read_json_tag l = (Option.none, []) := by
  induction l with
  | nil => rfl
  | cons c cs ih =>
    rw [read_json_tag, if_pos (h c (List.mem_cons_self c cs))]
    exact ih (fun c' hc' => h c' (List.mem_cons_of_mem c hc'))

/-! ## Claim C10 -/

/-- C10: `parse_single_node` returns an error exactly when the number of
top-level JSON values parsed from the input differs from one; empty or
whitespace-only input is rejected with the same `more than 1 node found`
error as multi-value input, and on success the result is the unique
top-level value. -/
theorem parse_single_node_exactly_one :
    (∀ (l : List Char) (ns : List JsonNode), JsonNode.parse l = .ok ns →
      ((JsonNode.parse_single_node l = .error "more than 1 node found" ↔ ns.length ≠ 1)
        ∧ ∀ n, ns = [n] → JsonNode.parse_single_node l = .ok n))
    ∧ (∀ l : List Char, (∀ c ∈ l, c.isWhitespace) →
        JsonNode.parse_single_node l = .error "more than 1 node found") := by
  have key : ∀ (l : List Char) (ns : List JsonNode), JsonNode.parse l = .ok ns →
      ((JsonNode.parse_single_node l = .error "more than 1 node found" ↔ ns.length ≠ 1)
        ∧ ∀ n, ns = [n] → JsonNode.parse_single_node l = .ok n) := by
    intro l ns h
    unfold JsonNode.parse_single_node
    rw [h]
    match ns with
    | [] => exact ⟨by simp, by simp⟩
    | [n] =>
      refine ⟨by simp, ?_⟩
      intro n' hn'
      cases hn'
      rfl
    | a :: b :: rest => exact ⟨by simp, by simp⟩
  refine ⟨key, ?_⟩
  intro l hws
  have ht : JsonTag.parse l = [] := tokenize_of_none (read_json_tag_all_ws hws)
  have hp : JsonNode.parse l = .ok [] := by
    unfold JsonNode.parse JsonNode.parse_tags
    rw [ht]
    rw [parse_tags_from]
    rfl
  exact ((key l [] hp).1).mpr (by simp)

unseal scan_literal JsonTag.parse parse_tags_from parse_next parse_array_loop parse_object_loop parse_obj_value_loop find_match_loop in
theorem parse_true_null_concrete :
    JsonNode.parse "true null".toList
      = .ok [JsonNode.PlainBoolean true, JsonNode.PlainNull] := rfl

/-- Witness for C10 at concrete inputs: whitespace-only input errors, and a
two-value input errors while its parse succeeds with two nodes. -/
theorem parse_single_node_exactly_one_witness :
    JsonNode.parse_single_node "   ".toList = .error "more than 1 node found"
    ∧ JsonNode.parse_single_node "true null".toList = .error "more than 1 node found" := by
  refine ⟨parse_single_node_exactly_one.2 "   ".toList (by decide), ?_⟩
  exact (parse_single_node_exactly_one.1 "true null".toList
    [JsonNode.PlainBoolean true, JsonNode.PlainNull] parse_true_null_concrete).1.mpr
    (by simp)

/-! ## Claim C7 -/

/-- C7, counterexample: the literal `"."` has every character an ASCII digit
or `.` with at most one `.` present, so the claim says it becomes a number —
but the parser propagates the float-conversion failure as an error instead
of producing any node. -/
theorem parse_plain_dot_counterexample :
    parse_plain ['.'] = .error "invalid float literal"
    ∧ ∀ n : JsonNode, parse_plain ['.'] ≠ .ok n := by
  refine ⟨rfl, ?_⟩
  intro n h
  rw [(rfl : parse_plain ['.'] = .error "invalid float literal")] at h
  exact Except.noConfusion h

/-- C7 (amended): classification of a `Literal` token by the tree parser,
for ASCII literals (the source classifies with the host's Unicode
`char::is_numeric`, which agrees with "ASCII digit" on the ASCII range):
a matching quote pair of length at least 2 is stripped into a string; a text
of digits and at most one `.` is converted to a number when it contains at
least one digit and is an error otherwise (e.g. `"."`); otherwise the
case-sensitive variants of true/false/null become boolean/null, and any
other text becomes a string holding the raw text. -/
theorem parse_plain_classification (literal : List Char)
    (hascii : ∀ c ∈ literal, c.toNat < 128) :
    (((literal.head? = some '\'' ∧ literal.getLast? = some '\'')
        ∨ (literal.head? = some '"' ∧ literal.getLast? = some '"'))
      → 1 < literal.length
      → parse_plain literal = .ok (JsonNode.PlainString ((literal.drop 1).dropLast)))
    ∧ ((literal.all fun c => char_is_numeric c || c = '.') →
        (literal.filter (· = '.')).length ≤ 1 →
        ((literal.any (·.isDigit) →
          ∃ q, parse_plain literal = .ok (JsonNode.PlainNumber q))
        ∧ (¬ literal.any (·.isDigit) →
          parse_plain literal = .error "invalid float literal")))
    ∧ (¬ ((literal.all fun c => char_is_numeric c || c = '.')
          ∧ (literal.filter (· = '.')).length ≤ 1) →
        ((literal = "true".toList ∨ literal = "True".toList ∨ literal = "TRUE".toList →
            parse_plain literal = .ok (JsonNode.PlainBoolean true))
          ∧ (literal = "false".toList ∨ literal = "False".toList ∨ literal = "FALSE".toList →
            parse_plain literal = .ok (JsonNode.PlainBoolean false))
          ∧ (literal = "null".toList ∨ literal = "Null".toList ∨ literal = "NULL".toList →
            parse_plain literal = .ok JsonNode.PlainNull)
          ∧ ((¬ (literal = "true".toList ∨ literal = "True".toList ∨ literal = "TRUE".toList)) →
            (¬ (literal = "false".toList ∨ literal = "False".toList ∨ literal = "FALSE".toList)) →
            (¬ (literal = "null".toList ∨ literal = "Null".toList ∨ literal = "NULL".toList)) →
            ¬ (((literal.head? = some '\'' ∧ literal.getLast? = some '\'')
                ∨ (literal.head? = some '"' ∧ literal.getLast? = some '"'))
              ∧ 1 < literal.length) →
            parse_plain literal = .ok (JsonNode.PlainString literal)))) := by
  refine ⟨?_, ?_, ?_⟩
  · -- a quote-wrapped literal of length ≥ 2: the numeric and keyword arms
    -- cannot fire, so the quote-stripping arm does
    intro hq hlen
    have hhead : literal.head? = some '\'' ∨ literal.head? = some '"' := by
      rcases hq with ⟨h1, -⟩ | ⟨h1, -⟩
      · exact Or.inl h1
      · exact Or.inr h1
    obtain ⟨c0, rest, hcons⟩ : ∃ c0 rest, literal = c0 :: rest := by
      cases literal with
      | nil => rcases hhead with h1 | h1 <;> exact Option.noConfusion h1
      | cons a l => exact ⟨a, l, rfl⟩
    have hc0 : c0 = '\'' ∨ c0 = '"' := by
      rcases hhead with h1 | h1
      · left; rw [hcons] at h1; exact Option.some.inj h1
      · right; rw [hcons] at h1; exact Option.some.inj h1
    have hnum : ¬ ((literal.all fun c => char_is_numeric c || c = '.')
        ∧ (literal.filter (· = '.')).length ≤ 1) := by
      rintro ⟨hall, -⟩
      rw [hcons, List.all_cons, Bool.and_eq_true] at hall
      rcases hc0 with h1 | h1 <;> (subst h1; exact absurd hall.1 (by decide))
    have hkw : ∀ (s : String), s.toList.head? = some 't' ∨ s.toList.head? = some 'f'
        ∨ s.toList.head? = some 'n' ∨ s.toList.head? = some 'T'
        ∨ s.toList.head? = some 'F' ∨ s.toList.head? = some 'N' →
        literal ≠ s.toList := by
      intro s hs he
      have hsh : s.toList.head? = some c0 := by rw [← he, hcons]; rfl
      rcases hc0 with h1 | h1 <;> subst h1 <;>
        rcases hs with h2 | h2 | h2 | h2 | h2 | h2 <;> rw [hsh] at h2 <;>
          exact absurd (Option.some.inj h2) (by decide)
    unfold parse_plain
    rw [if_neg hnum, if_neg, if_neg, if_neg, if_pos ⟨hq, hlen⟩]
    · rintro (h1 | h1 | h1)
      exacts [hkw "null" (by decide) h1, hkw "Null" (by decide) h1,
        hkw "NULL" (by decide) h1]
    · rintro (h1 | h1 | h1)
      exacts [hkw "false" (by decide) h1, hkw "False" (by decide) h1,
        hkw "FALSE" (by decide) h1]
    · rintro (h1 | h1 | h1)
      exacts [hkw "true" (by decide) h1, hkw "True" (by decide) h1,
        hkw "TRUE" (by decide) h1]
  · -- the numeric arm fires; conversion succeeds exactly when a digit exists
    intro hall hdots
    constructor
    · intro hdig
      unfold parse_plain
      rw [if_pos ⟨hall, hdots⟩]
      unfold rust_f64_from_str
      rw [if_pos ⟨by simpa [char_is_numeric] using hall, hdots, hdig⟩]
      exact ⟨_, rfl⟩
    · intro hdig
      unfold parse_plain
      rw [if_pos ⟨hall, hdots⟩]
      unfold rust_f64_from_str
      rw [if_neg]
      · rfl
      · rintro ⟨-, -, h⟩
        exact hdig h
  · -- the keyword and default arms, in source order
    intro hnum
    refine ⟨?_, ?_, ?_, ?_⟩
    · intro hkw
      unfold parse_plain
      rw [if_neg hnum, if_pos hkw]
    · intro hkw
      unfold parse_plain
      rw [if_neg hnum, if_neg, if_pos hkw]
      rintro (h1 | h1 | h1) <;> (subst h1; revert hkw; decide)
    · intro hkw
      unfold parse_plain
      rw [if_neg hnum, if_neg, if_neg, if_pos hkw]
      · rintro (h1 | h1 | h1) <;> (subst h1; revert hkw; decide)
      · rintro (h1 | h1 | h1) <;> (subst h1; revert hkw; decide)
    · intro hkt hkf hkn hqp
      unfold parse_plain
      rw [if_neg hnum, if_neg hkt, if_neg hkf, if_neg hkn, if_neg hqp]

/-- Witness for C7's amended classification at concrete literals. -/
theorem parse_plain_classification_witness :
    (∃ q, parse_plain "12".toList = .ok (JsonNode.PlainNumber q))
    ∧ parse_plain "'hi'".toList = .ok (JsonNode.PlainString "hi".toList)
    ∧ parse_plain "TRUE".toList = .ok (JsonNode.PlainBoolean true)
    ∧ parse_plain "x1".toList = .ok (JsonNode.PlainString "x1".toList) := by
  refine ⟨?_, ?_, ?_, ?_⟩
  · exact ((parse_plain_classification "12".toList (by decide)).2.1
      (by decide) (by decide)).1 (by decide)
  · exact (parse_plain_classification "'hi'".toList (by decide)).1
      (by decide) (by decide)
  · exact ((parse_plain_classification "TRUE".toList (by decide)).2.2
      (by decide)).1 (by decide)
  · exact ((parse_plain_classification "x1".toList (by decide)).2.2
      (by decide)).2.2.2 (by decide) (by decide) (by decide) (by decide)

/-! ## Claim C6 -/

theorem get_mut_by_indexes_go_spec {α : Type} (l : List α) (idxs : List Nat)
    (i : Nat) :
    get_mut_by_indexes_go l idxs i
      = (List.range l.length).filterMap
          (fun k => if idxs.contains (i + k) then l.get? k else Option.none) := by
  induction l generalizing i with
  | nil => rfl
  | cons x xs ih =>
    have hcg : List.filterMap
          ((fun k => if idxs.contains (i + k) then (x :: xs).get? k else Option.none)
            ∘ Nat.succ) (List.range xs.length)
        = List.filterMap
            (fun k => if idxs.contains ((i + 1) + k) then xs.get? k else Option.none)
            (List.range xs.length) := by
      apply List.filterMap_congr
      intro k _
      simp only [Function.comp]
      rw [show i + Nat.succ k = (i + 1) + k by omega]
      rfl
    rw [get_mut_by_indexes_go]
    simp only [List.length_cons]
    rw [List.range_succ_eq_map, List.filterMap_cons, List.filterMap_map, hcg,
      ← ih (i + 1)]
    simp only [Nat.add_zero]
    by_cases hc : idxs.contains i
    · rw [if_pos hc, if_pos hc]
      all_goals rfl
    · rw [if_neg hc, if_neg hc]
      all_goals rfl

theorem filterMap_if_eq_filter_map {α : Type} (l : List Nat) (p : Nat → Bool)
    (f : Nat → α) :
    l.filterMap (fun k => if p k then some (f k) else Option.none)
      = (l.filter p).map f := by
  induction l with
  | nil => rfl
  | cons x xs ih =>
    by_cases hp : p x
    · simp only [List.filterMap_cons, List.filter_cons, hp, if_pos, List.map_cons, ih]
    · simp only [List.filterMap_cons, List.filter_cons, hp, Bool.false_eq_true,
        if_neg, not_false_iff, ih]

theorem elem_locs_get {c : Loc} {len k : Nat} :
    (elem_locs c len).get? k = if k < len then some (c ++ [k]) else Option.none := by
  unfold elem_locs
  rw [List.get?_map]
  by_cases hk : k < len
  · rw [List.get?_eq_getElem?, List.getElem?_range hk]
    simp [hk]
  · rw [List.get?_eq_getElem?, List.getElem?_eq_none (by simpa using hk)]
    simp [hk]

/-- C6: a `Multiple(idxs)` selector selects exactly the elements whose
position appears in `idxs`, in ascending array order regardless of the order
the indices were listed, each qualifying position contributing exactly one
location; in particular `Multiple [3,0,1]` applied to a 4-element list keeps
elements 0, 1 and 3 in that order. -/
theorem multiple_selector_spec :
    (∀ {α : Type} (l : List α) (idxs : List Nat),
      get_mut_by_indexes l idxs
        = (List.range l.length).filterMap
            (fun k => if idxs.contains k then l.get? k else Option.none))
    ∧ (∀ (len : Nat) (c : Loc) (il : List Nat),
        apply_selector (ArrayElementSelector.Multiple il) len c
          = .ok (((List.range len).filter (fun k => il.contains k)).map
              (fun k => c ++ [k])))
    ∧ (∀ {α : Type} (l : List α) (idxs idxs' : List Nat),
        (∀ k : Nat, k ∈ idxs ↔ k ∈ idxs') →
        get_mut_by_indexes l idxs = get_mut_by_indexes l idxs')
    ∧ get_mut_by_indexes ['a', 'b', 'c', 'd'] [3, 0, 1] = ['a', 'b', 'd'] := by
  have hmain : ∀ {α : Type} (l : List α) (idxs : List Nat),
      get_mut_by_indexes l idxs
        = (List.range l.length).filterMap
            (fun k => if idxs.contains k then l.get? k else Option.none) := by
    intro α l idxs
    unfold get_mut_by_indexes
    rw [get_mut_by_indexes_go_spec]
    apply List.filterMap_congr
    intro k _
    rw [Nat.zero_add]
  refine ⟨hmain, ?_, ?_, by decide⟩
  · intro len c il
    show Except.ok (get_mut_by_indexes (elem_locs c len) il) = _
    rw [hmain]
    congr 1
    rw [show (elem_locs c len).length = len from by simp [elem_locs],
      ← filterMap_if_eq_filter_map]
    apply List.filterMap_congr
    intro k hk
    have hklt : k < len := List.mem_range.mp hk
    rw [elem_locs_get, if_pos hklt]
  · intro α l idxs idxs' hiff
    rw [hmain, hmain]
    apply List.filterMap_congr
    intro k _
    have heq : idxs.contains k = idxs'.contains k := by
      show idxs.elem k = idxs'.elem k
      rw [List.elem_eq_mem, List.elem_eq_mem]
      exact decide_eq_decide.mpr (hiff k)
    rw [heq]

/-- Witness for C6: the index list `[3,0,1]` and its duplicated permutation
`[1,0,3,3]` select the same elements, in array order. -/
theorem multiple_selector_spec_witness :
    get_mut_by_indexes ['a', 'b', 'c', 'd'] [3, 0, 1]
      = get_mut_by_indexes ['a', 'b', 'c', 'd'] [1, 0, 3, 3] :=
  multiple_selector_spec.2.2.1 ['a', 'b', 'c', 'd'] [3, 0, 1] [1, 0, 3, 3]
    (by intro k; simp [List.mem_cons]; omega)

/-! ## Claims C4, C5, C9 -/

theorem get_mut_by_index_range_go_spec {α : Type} (l : List α)
    (start e : Nat) : ∀ i : Nat,
    get_mut_by_index_range_go l start e i = (l.take (e - i)).drop (start - i) := by
  induction l with
  | nil => intro i; simp [get_mut_by_index_range_go]
  | cons x xs ih =>
    intro i
    rw [get_mut_by_index_range_go]
    by_cases h1 : i < start
    · rw [if_pos h1, ih (i + 1)]
      by_cases h2 : e ≤ i
      · rw [show e - i = 0 from by omega, show e - (i + 1) = 0 from by omega]
        simp
      · rw [show e - i = (e - (i + 1)) + 1 from by omega, List.take_succ_cons,
          show start - i = (start - (i + 1)) + 1 from by omega, List.drop_succ_cons]
    · rw [if_neg h1]
      by_cases h2 : e ≤ i
      · rw [if_pos h2, show e - i = 0 from by omega]
        simp
      · rw [if_neg h2, ih (i + 1),
          show e - i = (e - (i + 1)) + 1 from by omega, List.take_succ_cons,
          show start - i = 0 from by omega, List.drop_zero,
          show start - (i + 1) = 0 from by omega, List.drop_zero]

/-- `get_mut_by_index_range` keeps exactly the half-open position window
`[start, e)`. -/
theorem get_mut_by_index_range_spec {α : Type} (l : List α) (start e : Nat) :
    get_mut_by_index_range l start e = (l.take e).drop start := by
  unfold get_mut_by_index_range
  rw [get_mut_by_index_range_go_spec]
  simp

theorem elem_locs_length {c : Loc} {len : Nat} : (elem_locs c len).length = len := by
  simp [elem_locs]

theorem int_as_usize_of_nonneg {x : Int} (h0 : 0 ≤ x) (h1 : x < 2 ^ 64) :
    int_as_usize x = x.toNat := by
  unfold int_as_usize
  omega

theorem usize_as_i32_of_small {n : Nat} (h : n < 2 ^ 31) :
    usize_as_i32 n = (n : Int) := by
  unfold usize_as_i32
  omega

unseal selector_scan dot_name_scan bracket_name_scan json_path_parse_loop node_at set_at in
theorem range_example_concrete :
    (JsonPath.parse "$[-4:]".toList).bind (fun jp =>
        jp.json_path_get_raw (JsonNode.Array [JsonNode.PlainBoolean true,
          JsonNode.PlainBoolean false, JsonNode.PlainNumber 3,
          JsonNode.PlainString "yes".toList, JsonNode.PlainString "no".toList]))
      = .ok [JsonNode.PlainBoolean false, JsonNode.PlainNumber 3,
          JsonNode.PlainString "yes".toList, JsonNode.PlainString "no".toList] := rfl

/-- C4: resolution of a `Range(start, end)` selector against an array of
length `len` (the `i32` bounds are in `[-2^31, 2^31)`, as produced by the
path compiler): both bounds absent selects the whole array; only `end ≥ 0`
the window `[0, end)`; only `start < 0` (not reaching before the array) the
window `[len+start, len)`; only `start ≥ 0` the window `[start, len)`; both
nonnegative the window `[start, end)`.  In particular `Range(Some(-4), None)`
on the 5-element array `[true,false,3,"yes","no"]` selects
`[false, 3, "yes", "no"]` in order. -/
theorem range_selector_windows :
    (∀ (len : Nat) (c : Loc),
      apply_selector (ArrayElementSelector.Range Option.none Option.none) len c
        = .ok (elem_locs c len))
    ∧ (∀ (len : Nat) (c : Loc) (e : Int), 0 ≤ e → e < 2 ^ 31 →
        apply_selector (ArrayElementSelector.Range Option.none (some e)) len c
          = .ok ((elem_locs c len).take e.toNat))
    ∧ (∀ (len : Nat) (c : Loc) (s : Int), s < 0 → -2 ^ 31 ≤ s → len < 2 ^ 31 →
        0 ≤ (len : Int) + s →
        apply_selector (ArrayElementSelector.Range (some s) Option.none) len c
          = .ok ((elem_locs c len).drop ((len : Int) + s).toNat))
    ∧ (∀ (len : Nat) (c : Loc) (s : Int), 0 ≤ s → s < 2 ^ 31 →
        apply_selector (ArrayElementSelector.Range (some s) Option.none) len c
          = .ok ((elem_locs c len).drop s.toNat))
    ∧ (∀ (len : Nat) (c : Loc) (s e : Int), 0 ≤ s → s < 2 ^ 31 → 0 ≤ e → e < 2 ^ 31 →
        apply_selector (ArrayElementSelector.Range (some s) (some e)) len c
          = .ok (((elem_locs c len).take e.toNat).drop s.toNat))
    ∧ (JsonPath.parse "$[-4:]".toList).bind (fun jp =>
        jp.json_path_get_raw (JsonNode.Array [JsonNode.PlainBoolean true,
          JsonNode.PlainBoolean false, JsonNode.PlainNumber 3,
          JsonNode.PlainString "yes".toList, JsonNode.PlainString "no".toList]))
      = .ok [JsonNode.PlainBoolean false, JsonNode.PlainNumber 3,
          JsonNode.PlainString "yes".toList, JsonNode.PlainString "no".toList] := by
  refine ⟨fun len c => rfl, ?_, ?_, ?_, ?_, range_example_concrete⟩
  · intro len c e he0 he31
    show (if e < 0 then _ else _) = _
    rw [if_neg (not_lt.mpr he0), int_as_usize_of_nonneg he0 (by omega),
      get_mut_by_index_range_spec, List.drop_zero]
  · intro len c s hs0 hs31 hlen hls
    show (if s < 0 then _ else _) = _
    have htl : (elem_locs c len).take len = elem_locs c len :=
      List.take_of_length_le (le_of_eq elem_locs_length)
    rw [if_pos hs0, usize_as_i32_of_small hlen,
      int_as_usize_of_nonneg hls (by omega), get_mut_by_index_range_spec, htl]
  · intro len c s hs0 hs31
    show (if s < 0 then _ else _) = _
    have htl : (elem_locs c len).take len = elem_locs c len :=
      List.take_of_length_le (le_of_eq elem_locs_length)
    rw [if_neg (not_lt.mpr hs0), int_as_usize_of_nonneg hs0 (by omega),
      get_mut_by_index_range_spec, htl]
  · intro len c s e hs0 hs31 he0 he31
    show (if s < 0 then _ else _) = _
    rw [if_neg (not_lt.mpr hs0), if_neg (not_lt.mpr he0),
      int_as_usize_of_nonneg hs0 (by omega), int_as_usize_of_nonneg he0 (by omega),
      get_mut_by_index_range_spec]

/-- Witness for C4: a negative-start window and a two-sided window at
concrete bounds. -/
theorem range_selector_windows_witness :
    apply_selector (ArrayElementSelector.Range (some (-4)) Option.none) 5 []
      = .ok ((elem_locs [] 5).drop ((5 : Int) + (-4)).toNat)
    ∧ apply_selector (ArrayElementSelector.Range (some 1) (some 3)) 4 []
      = .ok (((elem_locs [] 4).take (3 : Int).toNat).drop (1 : Int).toNat) :=
  ⟨range_selector_windows.2.2.1 5 [] (-4) (by decide) (by decide) (by decide)
      (by decide),
    range_selector_windows.2.2.2.2.1 4 [] 1 3 (by decide) (by decide) (by decide)
      (by decide)⟩

set_option maxRecDepth 4000 in
unseal selector_scan dot_name_scan bracket_name_scan json_path_parse_loop node_at in
theorem range_bad_sign_concrete :
    (JsonPath.parse "$[-1:2]".toList).bind (fun jp =>
        jp.evaluate_json_path (JsonNode.Array [JsonNode.PlainNull]))
      = .error "array element selector start index must not be negative when end index specified" := rfl

/-- C5: a `Range` selector with a disallowed sign combination — a negative
start together with an explicit end, or a negative end — applied to a
working set of array members makes the evaluation fail with the fatal range
error (no partial result set is produced: an error propagates through the
remaining segments), as in the concrete evaluation of `$[-1:2]`. -/
theorem range_bad_sign_fatal :
    (∀ (t : JsonNode) (ws : List Loc) (s : Int) (e : Option Int),
      (∀ c ∈ ws, ∃ arr, node_at t c = some (JsonNode.Array arr)) → ws ≠ [] →
      s < 0 → e ≠ Option.none →
      selector_step t (ArrayElementSelector.Range (some s) e) ws
        = .error "array element selector start index must not be negative when end index specified")
    ∧ (∀ (t : JsonNode) (ws : List Loc) (s : Option Int) (e : Int),
        (∀ c ∈ ws, ∃ arr, node_at t c = some (JsonNode.Array arr)) → ws ≠ [] →
        (∀ sv, s = some sv → 0 ≤ sv) → e < 0 →
        selector_step t (ArrayElementSelector.Range s (some e)) ws
          = .error "array element selector end index must not be negative")
    ∧ (∀ (t : JsonNode) (p : JsonPathPart) (ps : List JsonPathPart)
        (ws : List Loc) (msg : String),
        eval_step t p ws = .error msg →
        evaluate_json_path_aux t (p :: ps) ws = .error msg)
    ∧ (JsonPath.parse "$[-1:2]".toList).bind (fun jp =>
        jp.evaluate_json_path (JsonNode.Array [JsonNode.PlainNull]))
      = .error "array element selector start index must not be negative when end index specified" := by
  refine ⟨?_, ?_, ?_, range_bad_sign_concrete⟩
  · intro t ws s e hmem hne hs he
    match ws with
    | [] => exact absurd rfl hne
    | c :: rest =>
      obtain ⟨arr, harr⟩ := hmem c (List.mem_cons_self c rest)
      have hsel : apply_selector (ArrayElementSelector.Range (some s) e) arr.length c
          = .error "array element selector start index must not be negative when end index specified" := by
        show (if s < 0 then _ else _) = _
        rw [if_pos hs]
        match e with
        | Option.none => exact absurd rfl he
        | some ev => rfl
      simp only [selector_step, harr, hsel]
  · intro t ws s e hmem hne hs he
    match ws with
    | [] => exact absurd rfl hne
    | c :: rest =>
      obtain ⟨arr, harr⟩ := hmem c (List.mem_cons_self c rest)
      have hsel : apply_selector (ArrayElementSelector.Range s (some e)) arr.length c
          = .error "array element selector end index must not be negative" := by
        match s with
        | Option.none =>
          show (if e < 0 then _ else _) = _
          rw [if_pos he]
        | some sv =>
          show (if sv < 0 then _ else _) = _
          rw [if_neg (not_lt.mpr (hs sv rfl)), if_pos he]
      simp only [selector_step, harr, hsel]
  · intro t p ps ws msg h
    rw [evaluate_json_path_aux, h]

/-- Witness for C5: `Range(Some(-1), Some(2))` on a singleton array working
set is the fatal start-sign error, and a negative end is the fatal end-sign
error. -/
theorem range_bad_sign_fatal_witness :
    selector_step (JsonNode.Array [JsonNode.PlainNull])
        (ArrayElementSelector.Range (some (-1)) (some 2)) [[]]
      = .error "array element selector start index must not be negative when end index specified"
    ∧ selector_step (JsonNode.Array [JsonNode.PlainNull])
        (ArrayElementSelector.Range Option.none (some (-2))) [[]]
      = .error "array element selector end index must not be negative" :=
  ⟨range_bad_sign_fatal.1 (JsonNode.Array [JsonNode.PlainNull]) [[]] (-1) (some 2)
      (by intro c hc; rw [List.mem_singleton] at hc; subst hc
          exact ⟨[JsonNode.PlainNull], by simp [node_at]⟩)
      (by simp) (by decide) (by simp),
    range_bad_sign_fatal.2.1 (JsonNode.Array [JsonNode.PlainNull]) [[]]
      Option.none (-2)
      (by intro c hc; rw [List.mem_singleton] at hc; subst hc
          exact ⟨[JsonNode.PlainNull], by simp [node_at]⟩)
      (by simp) (by intro sv h; exact Option.noConfusion h) (by decide)⟩

/-- C9: with only a negative start `s` whose offset reaches before the
array (`len + s < 0`), the `as usize` cast wraps the computed start to a
value at least `len`, so the range selection succeeds with an empty
contribution — no panic, no error, and no clamping to the whole array. -/
theorem negative_start_underflow_empty :
    (∀ (len : Nat) (s : Int), len < 2 ^ 31 → -2 ^ 31 ≤ s → s < 0 →
      (len : Int) + s < 0 → len ≤ int_as_usize (usize_as_i32 len + s))
    ∧ (∀ (len : Nat) (c : Loc) (s : Int), len < 2 ^ 31 → -2 ^ 31 ≤ s → s < 0 →
        (len : Int) + s < 0 →
        apply_selector (ArrayElementSelector.Range (some s) Option.none) len c
          = .ok [])
    ∧ (∀ (t : JsonNode) (c : Loc) (rest : List Loc) (arr : List JsonNode)
        (s : Int) (res : List Loc),
        node_at t c = some (JsonNode.Array arr) → arr.length < 2 ^ 31 →
        -2 ^ 31 ≤ s → s < 0 → (arr.length : Int) + s < 0 →
        selector_step t (ArrayElementSelector.Range (some s) Option.none) rest
          = .ok res →
        selector_step t (ArrayElementSelector.Range (some s) Option.none)
          (c :: rest) = .ok res) := by
  have hwrap : ∀ (len : Nat) (s : Int), len < 2 ^ 31 → -2 ^ 31 ≤ s → s < 0 →
      (len : Int) + s < 0 → len ≤ int_as_usize (usize_as_i32 len + s) := by
    intro len s h1 h2 h3 h4
    unfold int_as_usize usize_as_i32
    omega
  have hempty : ∀ (len : Nat) (c : Loc) (s : Int), len < 2 ^ 31 → -2 ^ 31 ≤ s →
      s < 0 → (len : Int) + s < 0 →
      apply_selector (ArrayElementSelector.Range (some s) Option.none) len c
        = .ok [] := by
    intro len c s h1 h2 h3 h4
    show (if s < 0 then _ else _) = _
    rw [if_pos h3, get_mut_by_index_range_spec]
    have hnil : ((elem_locs c len).take len).drop
        (int_as_usize (usize_as_i32 len + s)) = [] := by
      apply List.drop_eq_nil_of_le
      calc ((elem_locs c len).take len).length ≤ len := by
            simp [List.length_take]
        _ ≤ _ := hwrap len s h1 h2 h3 h4
    rw [hnil]
  refine ⟨hwrap, hempty, ?_⟩
  intro t c rest arr s res harr hlen h2 h3 h4 hrest
  simp only [selector_step, harr, hempty arr.length c s hlen h2 h3 h4, hrest,
    List.nil_append]

/-! ## Claim C3 -/

theorem findIdx?_spec {α : Type} (q : α → Bool) :
    ∀ (pl : List α) (i k : Nat), List.findIdx? q pl i = some k →
      i ≤ k ∧ ∃ p, pl.get? (k - i) = some p ∧ q p = true ∧
        pl.find? q = some p ∧
        ∀ j pj, j < k - i → pl.get? j = some pj → q pj = false := by
  intro pl
  induction pl with
  | nil => intro i k h; exact absurd h (by simp [List.findIdx?_nil])
  | cons x xs ih =>
    intro i k h
    rw [List.findIdx?_cons] at h
    by_cases hq : q x = true
    · rw [if_pos hq] at h
      have hk : k = i := (Option.some.inj h).symm
      subst hk
      refine ⟨le_refl k, x, by simp, hq, List.find?_cons_of_pos xs hq, ?_⟩
      intro j pj hj _
      omega
    · rw [if_neg hq] at h
      obtain ⟨hle, p, hget, hqp, hfd, hmin⟩ := ih (i + 1) k h
      refine ⟨by omega, p, ?_, hqp, ?_, ?_⟩
      · have : k - i = (k - (i + 1)) + 1 := by omega
        rw [this]
        simpa using hget
      · rw [List.find?_cons_of_neg xs hq]
        exact hfd
      · intro j pj hj hg
        match j with
        | 0 =>
          have hx : pj = x := by
            have h0 := hg
            simp at h0
            exact h0.symm
          rw [hx]
          exact Bool.not_eq_true _ ▸ (by simpa using hq)
        | j' + 1 =>
          exact hmin j' pj (by omega) (by simpa using hg)

theorem findIdx?_none_find?_none {α : Type} (q : α → Bool) :
    ∀ (pl : List α) (i : Nat), List.findIdx? q pl i = Option.none →
      pl.find? q = Option.none := by
  intro pl
  induction pl with
  | nil => intro i _; rfl
  | cons x xs ih =>
    intro i h
    rw [List.findIdx?_cons] at h
    by_cases hq : q x = true
    · rw [if_pos hq] at h
      exact Option.noConfusion h
    · rw [if_neg hq] at h
      rw [List.find?_cons_of_neg xs hq]
      exact ih (i + 1) h

theorem node_at_object_append (c : Loc) :
    ∀ (t : JsonNode) (pl : List (List Char × JsonNode)) (k : Nat)
      (p : List Char × JsonNode),
      node_at t c = some (JsonNode.Object pl) → pl.get? k = some p →
      node_at t (c ++ [k]) = some p.2 := by
  induction c with
  | nil =>
    intro t pl k p h hget
    have ht : t = JsonNode.Object pl := by
      have h0 : node_at t [] = some t := by simp [node_at]
      rw [h0] at h
      exact Option.some.inj h
    subst ht
    rw [List.get?_eq_getElem?] at hget
    show node_at (JsonNode.Object pl) ([] ++ [k]) = some p.2
    rw [List.nil_append]
    simp [node_at, hget]
  | cons i r ih =>
    intro t pl k p h hget
    cases t with
    | Array es =>
      cases he : es.get? i with
      | none =>
        rw [List.get?_eq_getElem?] at he
        simp [node_at, he] at h
      | some e =>
        simp only [node_at] at h
        rw [he] at h
        show node_at (JsonNode.Array es) (i :: (r ++ [k])) = some p.2
        simp only [node_at]
        rw [he]
        exact ih e pl k p h hget
    | Object pl' =>
      cases he : pl'.get? i with
      | none =>
        rw [List.get?_eq_getElem?] at he
        simp [node_at, he] at h
      | some e =>
        simp only [node_at] at h
        rw [he] at h
        show node_at (JsonNode.Object pl') (i :: (r ++ [k])) = some p.2
        simp only [node_at]
        rw [he]
        exact ih e.2 pl k p h hget
    | PlainNull => simp [node_at] at h
    | PlainString s => simp [node_at] at h
    | PlainNumber q => simp [node_at] at h
    | PlainBoolean b => simp [node_at] at h

theorem name_step_values (t : JsonNode) (pn : List Char) :
    ∀ ws : List Loc, (name_step t pn ws).map (node_at t)
      = ws.filterMap (fun c =>
          match node_at t c with
          | some (JsonNode.Object pl) =>
            (pl.find? (fun x => x.1 == pn)).map (fun p => some p.2)
          | _ => Option.none) := by
  intro ws
  induction ws with
  | nil => rfl
  | cons c rest ih =>
    simp only [name_step, List.filterMap_cons]
    cases hn : node_at t c with
    | none => simpa only [hn] using ih
    | some n =>
      cases n with
      | Object pl =>
        simp only [hn]
        cases hf : pl.findIdx? (fun x => x.1 == pn) with
        | none =>
          have hfind : pl.find? (fun x => x.1 == pn) = Option.none :=
            findIdx?_none_find?_none (fun x => x.1 == pn) pl 0 hf
          simp only [hfind, Option.map_none']
          exact ih
        | some k =>
          obtain ⟨-, p, hget, -, hfd, -⟩ :=
            findIdx?_spec (fun x => x.1 == pn) pl 0 k hf
          rw [Nat.sub_zero] at hget
          have hnode := node_at_object_append c t pl k p hn hget
          rw [hfd]
          simp only [List.map_cons, hnode, Option.map_some']
          rw [ih]
      | PlainNull => simpa only [hn] using ih
      | PlainString s => simpa only [hn] using ih
      | PlainNumber q => simpa only [hn] using ih
      | PlainBoolean b => simpa only [hn] using ih
      | Array es => simpa only [hn] using ih

/-- C3: a named step (a path name other than `$` and `@`, with no element
selector attached) never fails: the next working set is exactly, in order,
the first matching property of each `Object` member, members that are not
objects or have no matching property being dropped silently; the value
reached through each produced location is the value of the member's FIRST
property named `pn` — any earlier property has a different name, so later
duplicates are never selected. -/
theorem named_step_first_match (t : JsonNode) (pn : List Char) (ws : List Loc)
    (h1 : pn ≠ ['$']) (h2 : pn ≠ ['@']) :
    eval_step t ⟨pn, Option.none⟩ ws = .ok (name_step t pn ws)
    ∧ (name_step t pn ws).map (node_at t)
        = ws.filterMap (fun c =>
            match node_at t c with
            | some (JsonNode.Object pl) =>
              (pl.find? (fun x => x.1 == pn)).map (fun p => some p.2)
            | _ => Option.none)
    ∧ (∀ (c : Loc) (pl : List (List Char × JsonNode)) (k : Nat),
        node_at t c = some (JsonNode.Object pl) →
        pl.findIdx? (fun x => x.1 == pn) = some k →
        ∃ v, pl.get? k = some (pn, v) ∧ node_at t (c ++ [k]) = some v ∧
          ∀ j pj, j < k → pl.get? j = some pj → pj.1 ≠ pn) := by
  refine ⟨?_, name_step_values t pn ws, ?_⟩
  · simp only [eval_step]
    rw [if_neg h1, if_neg h2]
  · intro c pl k hn hf
    obtain ⟨-, p, hget, hqp, -, hmin⟩ :=
      findIdx?_spec (fun x => x.1 == pn) pl 0 k hf
    rw [Nat.sub_zero] at hget hmin
    have hp1 : p.1 = pn := eq_of_beq hqp
    refine ⟨p.2, ?_, node_at_object_append c t pl k p hn hget, ?_⟩
    · rw [← hp1]
      exact hget
    · intro j pj hj hg he
      have hqf := hmin j pj hj hg
      rw [he] at hqf
      simp at hqf

/-! ## Claim C8 -/

/-- A character that keeps the literal scanner marching: not a backslash,
not a quote, not whitespace and not structural. -/
def plain_char (c : Char) : Bool :=
  !(c = '\\') && !(c = '\'') && !(c = '"') && !c.isWhitespace
    && !(is_structural c)

theorem plain_char_props {c : Char} (h : plain_char c = true) :
    c ≠ '\\' ∧ c ≠ '\'' ∧ c ≠ '"' ∧ c.isWhitespace = false
      ∧ is_structural c = false := by
  simp only [plain_char, Bool.and_eq_true, Bool.not_eq_true',
    decide_eq_false_iff_not] at h
  obtain ⟨⟨⟨⟨h1, h2⟩, h3⟩, h4⟩, h5⟩ := h
  exact ⟨h1, h2, h3, h4, h5⟩

/-- Over a run of plain characters the scanner only advances the position:
the quote and recovery state are untouched and the escape flag stays clear. -/
theorem scan_march (l : List Char) :
    ∀ (n e : Nat) (quote : Option Char) (qal : Bool)
      (hq : qal = true → quote = Option.none),
      (∀ k, k < n → ∃ c, l.get? (e + k) = some c ∧ plain_char c = true) →
      scan_literal l e quote false qal hq
        = scan_literal l (e + n) quote false qal hq := by
  intro n
  induction n with
  | zero => intro e quote qal hq _; rw [Nat.add_zero]
  | succ m ih =>
    intro e quote qal hq hp
    obtain ⟨c, hc, hpc⟩ := hp 0 (Nat.succ_pos m)
    rw [Nat.add_zero] at hc
    obtain ⟨hb1, hb2, hb3, hb4, hb5⟩ := plain_char_props hpc
    have hng : ¬ ((c = '\'' ∨ c = '"') ∧ false = false ∧ qal = false) := by
      rintro ⟨h1 | h1, -, -⟩
      · exact hb2 h1
      · exact hb3 h1
    have hnl : ¬ ((c = '\r' ∨ c = '\n') ∧ quote ≠ Option.none) := by
      rintro ⟨h1 | h1, -⟩ <;> (subst h1; exact absurd hb4 (by decide))
    have hnw : ¬ (c.isWhitespace = true ∧ quote = Option.none) := by
      rintro ⟨h1, -⟩; rw [hb4] at h1; exact Bool.noConfusion h1
    have hns : ¬ (is_structural c = true ∧ false = false ∧ quote = Option.none) := by
      rintro ⟨h1, -, -⟩; rw [hb5] at h1; exact Bool.noConfusion h1
    rw [scan_literal_other _ _ _ _ hc hb1 hng hnl hnw hns]
    have hshift : ∀ k, k < m →
        ∃ c, l.get? ((e + 1) + k) = some c ∧ plain_char c = true := by
      intro k hk
      obtain ⟨c', hc', hp'⟩ := hp (k + 1) (by omega)
      exact ⟨c', by rwa [show e + (k + 1) = (e + 1) + k by omega] at hc', hp'⟩
    rw [ih (e + 1) quote qal hq hshift, show e + 1 + m = e + (m + 1) by omega]

/-- The full scan of the malformed quoted run `q body1 nl …`: the opening
quote is consumed, the scanner marches to the line break, fires the
recovery rule, rescans with quotes-as-literals and stops at the line break
(now plain whitespace), yielding a token of the text before the break. -/
theorem scan_quoted_newline (q nl : Char) (body1 suf : List Char)
    (hqc : q = '\'' ∨ q = '"') (hnlc : nl = '\r' ∨ nl = '\n')
    (h1 : ∀ c ∈ body1, plain_char c = true) :
    scan_literal (q :: (body1 ++ nl :: suf)) 0 Option.none false false (by simp)
      = 1 + body1.length := by
  have hqbs : q ≠ '\\' := by rcases hqc with h | h <;> simp [h]
  have hget0 : (q :: (body1 ++ nl :: suf)).get? 0 = some q := rfl
  have hmarch : ∀ k, k < body1.length →
      ∃ c, (q :: (body1 ++ nl :: suf)).get? (1 + k) = some c
        ∧ plain_char c = true := by
    intro k hk
    have hg : (q :: (body1 ++ nl :: suf)).get? (1 + k) = body1.get? k := by
      rw [show 1 + k = k + 1 by omega, List.get?_cons_succ]
      exact List.get?_append hk
    cases hb : body1.get? k with
    | none => exact absurd (List.get?_eq_none.mp hb) (by omega)
    | some c => exact ⟨c, by rw [hg, hb], h1 c (List.get?_mem hb)⟩
  have hgetnl : (q :: (body1 ++ nl :: suf)).get? (1 + body1.length) = some nl := by
    rw [show 1 + body1.length = body1.length + 1 by omega, List.get?_cons_succ,
      List.get?_append_right (le_refl body1.length), Nat.sub_self]
    rfl
  have hnlws : nl.isWhitespace = true := by rcases hnlc with h | h <;> simp [h]
  rw [scan_literal_quote Option.none false false _ hget0 hqbs ⟨hqc, rfl, rfl⟩]
  show scan_literal (q :: (body1 ++ nl :: suf)) (0 + 1) (some q) false false _ = _
  rw [show (0 : Nat) + 1 = 1 from rfl]
  rw [scan_march (q :: (body1 ++ nl :: suf)) body1.length 1 (some q) false _
    hmarch]
  rw [scan_literal_newline (some q) false false _ hgetnl hnlc (by simp)]
  have hqng : ¬ ((q = '\'' ∨ q = '"') ∧ false = false ∧ true = false) := by
    rintro ⟨-, -, hcon⟩; exact Bool.noConfusion hcon
  have hqnl : ¬ ((q = '\r' ∨ q = '\n') ∧ (Option.none : Option Char) ≠ Option.none) := by
    rintro ⟨-, hcon⟩; exact hcon rfl
  have hqnw : ¬ (q.isWhitespace = true ∧ (Option.none : Option Char) = Option.none) := by
    rintro ⟨hcon, -⟩
    rcases hqc with h | h <;> (subst h; exact absurd hcon (by decide))
  have hqns : ¬ (is_structural q = true ∧ false = false
      ∧ (Option.none : Option Char) = Option.none) := by
    rintro ⟨hcon, -, -⟩
    rcases hqc with h | h <;> (subst h; exact absurd hcon (by decide))
  rw [scan_literal_other _ _ _ _ hget0 hqbs hqng hqnl hqnw hqns]
  show scan_literal (q :: (body1 ++ nl :: suf)) (0 + 1) Option.none false true _ = _
  rw [show (0 : Nat) + 1 = 1 from rfl]
  rw [scan_march (q :: (body1 ++ nl :: suf)) body1.length 1 Option.none true _
    hmarch]
  exact scan_literal_ws Option.none false true _ hgetnl hnlws rfl

/-- One full scan of a run of plain characters followed by the end of the
input or a stopper (whitespace or a structural character). -/
theorem scan_plain_run (body : List Char) (suf : List Char)
    (h : ∀ c ∈ body, plain_char c = true)
    (hstop : (body ++ suf).get? body.length = Option.none
      ∨ ∃ d, (body ++ suf).get? body.length = some d
          ∧ (d.isWhitespace = true ∨ is_structural d = true)) :
    scan_literal (body ++ suf) 0 Option.none false false (by simp)
      = body.length := by
  have hmarch : ∀ k, k < body.length →
      ∃ c, (body ++ suf).get? (0 + k) = some c ∧ plain_char c = true := by
    intro k hk
    rw [Nat.zero_add]
    cases hb : body.get? k with
    | none => exact absurd (List.get?_eq_none.mp hb) (by omega)
    | some c => exact ⟨c, by rw [List.get?_append hk, hb], h c (List.get?_mem hb)⟩
  rw [scan_march (body ++ suf) body.length 0 Option.none false _ hmarch,
    Nat.zero_add]
  rcases hstop with hnone | ⟨d, hd, hws | hst⟩
  · exact scan_literal_none Option.none false false _ hnone
  · exact scan_literal_ws Option.none false false _ hd hws rfl
  · exact scan_literal_structural Option.none false false _ hd hst rfl rfl

theorem plain_not_structural_chars {c : Char} (h : plain_char c = true) :
    ¬ c.isWhitespace = true ∧ ¬ c = '{' ∧ ¬ c = '}' ∧ ¬ c = '['
      ∧ ¬ c = ']' ∧ ¬ c = ',' ∧ ¬ c = ':' := by
  obtain ⟨-, -, -, hb4, hb5⟩ := plain_char_props h
  simp only [is_structural, Bool.or_eq_false_iff, decide_eq_false_iff_not] at hb5
  refine ⟨?_, ?_, ?_, ?_, ?_, ?_, ?_⟩
  · rw [hb4]; exact Bool.noConfusion
  · exact hb5.1.1.1.1.1
  · exact hb5.1.1.1.1.2
  · exact hb5.1.1.1.2
  · exact hb5.1.1.2
  · exact hb5.1.2
  · exact hb5.2

/-- Reading the first token of the malformed quoted run: the literal of the
text before the line break, the line break left unconsumed. -/
theorem read_tag_quoted_newline (q nl : Char) (body1 suf : List Char)
    (hqc : q = '\'' ∨ q = '"') (hnlc : nl = '\r' ∨ nl = '\n')
    (h1 : ∀ c ∈ body1, plain_char c = true) :
    read_json_tag (q :: body1 ++ nl :: suf)
      = (some (JsonTag.Literal (q :: body1)), nl :: suf) := by
  have hqw : ¬ q.isWhitespace = true := by
    rcases hqc with h | h <;> (subst h; decide)
  have hqchars : ¬ q = '{' ∧ ¬ q = '}' ∧ ¬ q = '[' ∧ ¬ q = ']' ∧ ¬ q = ','
      ∧ ¬ q = ':' := by
    rcases hqc with h | h <;> (subst h; exact ⟨by decide, by decide, by decide,
      by decide, by decide, by decide⟩)
  show read_json_tag (q :: (body1 ++ nl :: suf)) = _
  rw [read_json_tag, if_neg hqw, if_neg hqchars.1, if_neg hqchars.2.1,
    if_neg hqchars.2.2.1, if_neg hqchars.2.2.2.1, if_neg hqchars.2.2.2.2.1,
    if_neg hqchars.2.2.2.2.2]
  show (some (JsonTag.Literal ((q :: (body1 ++ nl :: suf)).take
      (scan_literal (q :: (body1 ++ nl :: suf)) 0 Option.none false false _))),
    (q :: (body1 ++ nl :: suf)).drop
      (scan_literal (q :: (body1 ++ nl :: suf)) 0 Option.none false false _)) = _
  rw [scan_quoted_newline q nl body1 suf hqc hnlc h1]
  rw [show 1 + body1.length = body1.length + 1 by omega]
  rw [List.take_succ_cons, List.drop_succ_cons, List.take_left, List.drop_left]

/-- Reading the token after the line break when the input ends there:
whitespace is skipped and the plain run is scanned as a fresh unquoted
literal to the end of the input. -/
theorem read_tag_after_newline (nl : Char) (body2 : List Char)
    (hnlc : nl = '\r' ∨ nl = '\n')
    (h2 : ∀ c ∈ body2, plain_char c = true) (hb2 : body2 ≠ []) :
    read_json_tag (nl :: body2) = (some (JsonTag.Literal body2), []) := by
  have hnlws : nl.isWhitespace = true := by rcases hnlc with h | h <;> simp [h]
  rw [read_json_tag, if_pos hnlws]
  match body2, hb2, h2 with
  | b :: bs, _, h2 =>
    obtain ⟨hbw, hc1, hc2, hc3, hc4, hc5, hc6⟩ :=
      plain_not_structural_chars (h2 b (List.mem_cons_self b bs))
    rw [read_json_tag, if_neg hbw, if_neg hc1, if_neg hc2, if_neg hc3,
      if_neg hc4, if_neg hc5, if_neg hc6]
    show (some (JsonTag.Literal ((b :: bs).take
        (scan_literal (b :: bs) 0 Option.none false false _))),
      (b :: bs).drop (scan_literal (b :: bs) 0 Option.none false false _)) = _
    have hscan : scan_literal (b :: bs) 0 Option.none false false (by simp)
        = (b :: bs).length := by
      have h0 := scan_plain_run (b :: bs) [] h2
        (Or.inl (by rw [List.append_nil]; exact List.get?_eq_none.mpr (le_refl _)))
      rw [List.append_nil] at h0
      exact h0
    rw [hscan, List.take_length, List.drop_length]

/-- C8: a line break inside an open quote does not fail the tokenizer: the
quoted run is emitted as two separate `Literal` tokens — the text before
the break (the discarded opening quote remains as raw text) and the text
after it — each scanned as an unquoted literal up to the next unquoted
structural or whitespace character (or the end of the input). -/
theorem quoted_newline_two_literals (q nl d : Char) (body1 body2 suf : List Char)
    (hqc : q = '\'' ∨ q = '"') (hnlc : nl = '\r' ∨ nl = '\n')
    (h1 : ∀ c ∈ body1, plain_char c = true)
    (h2 : ∀ c ∈ body2, plain_char c = true) (hb2 : body2 ≠ [])
    (hd : is_structural d = true) :
    read_json_tag (q :: body1 ++ nl :: suf)
      = (some (JsonTag.Literal (q :: body1)), nl :: suf)
    ∧ read_json_tag (nl :: (body2 ++ d :: suf))
        = (some (JsonTag.Literal body2), d :: suf)
    ∧ JsonTag.parse (q :: body1 ++ nl :: body2)
        = [JsonTag.Literal (q :: body1), JsonTag.Literal body2] := by
  refine ⟨read_tag_quoted_newline q nl body1 suf hqc hnlc h1, ?_, ?_⟩
  · have hnlws : nl.isWhitespace = true := by rcases hnlc with h | h <;> simp [h]
    rw [read_json_tag, if_pos hnlws]
    match body2, hb2, h2 with
    | b :: bs, _, h2 =>
      obtain ⟨hbw, hc1, hc2, hc3, hc4, hc5, hc6⟩ :=
        plain_not_structural_chars (h2 b (List.mem_cons_self b bs))
      show read_json_tag (b :: (bs ++ d :: suf)) = _
      rw [read_json_tag, if_neg hbw, if_neg hc1, if_neg hc2, if_neg hc3,
        if_neg hc4, if_neg hc5, if_neg hc6]
      have hscan : scan_literal (b :: (bs ++ d :: suf)) 0 Option.none false false
          (by simp) = (b :: bs).length := by
        have h0 : scan_literal ((b :: bs) ++ d :: suf) 0 Option.none false false
            (by simp) = (b :: bs).length := by
          apply scan_plain_run (b :: bs) (d :: suf) h2
          refine Or.inr ⟨d, ?_, Or.inr hd⟩
          rw [List.get?_append_right (le_refl _), Nat.sub_self]
          rfl
        exact h0
      show (some (JsonTag.Literal ((b :: (bs ++ d :: suf)).take
          (scan_literal (b :: (bs ++ d :: suf)) 0 Option.none false false _))),
        (b :: (bs ++ d :: suf)).drop
          (scan_literal (b :: (bs ++ d :: suf)) 0 Option.none false false _)) = _
      rw [hscan]
      show (some (JsonTag.Literal (((b :: bs) ++ d :: suf).take (b :: bs).length)),
        ((b :: bs) ++ d :: suf).drop (b :: bs).length)
        = (some (JsonTag.Literal (b :: bs)), d :: suf)
      rw [List.take_left, List.drop_left]
  · have hfirst := read_tag_quoted_newline q nl body1 body2 hqc hnlc h1
    rw [tokenize_of_some hfirst,
      tokenize_of_some (read_tag_after_newline nl body2 hnlc h2 hb2),
      tokenize_of_none (rfl : read_json_tag [] = (Option.none, []))]

/-- Witness for C8: the input `"obj` + newline + `ect` tokenizes into the
two literals `"obj` and `ect`. -/
theorem quoted_newline_two_literals_witness :
    read_json_tag ('"' :: ['o', 'b', 'j'] ++ '\n' :: ['e', 'c', 't'])
      = (some (JsonTag.Literal ('"' :: ['o', 'b', 'j'])), '\n' :: ['e', 'c', 't'])
    ∧ read_json_tag ('\n' :: (['e', 'c', 't'] ++ ':' :: ['e', 'c', 't']))
        = (some (JsonTag.Literal ['e', 'c', 't']), ':' :: ['e', 'c', 't'])
    ∧ JsonTag.parse ('"' :: ['o', 'b', 'j'] ++ '\n' :: ['e', 'c', 't'])
        = [JsonTag.Literal ('"' :: ['o', 'b', 'j']), JsonTag.Literal ['e', 'c', 't']] :=
  quoted_newline_two_literals '"' '\n' ':' ['o', 'b', 'j'] ['e', 'c', 't']
    ['e', 'c', 't'] (by decide) (by decide) (by decide) (by decide)
    (by decide) (by decide)

unseal node_at in
/-- Witness for C3: a named step on an object with a duplicate property
name selects the first `a` property (value `null`), not the later one. -/
theorem named_step_first_match_witness :
    eval_step (JsonNode.Object [(['a'], JsonNode.PlainNull),
        (['a'], JsonNode.PlainBoolean true)]) ⟨['a'], Option.none⟩ [[]]
      = .ok [[0]]
    ∧ node_at (JsonNode.Object [(['a'], JsonNode.PlainNull),
        (['a'], JsonNode.PlainBoolean true)]) [0] = some JsonNode.PlainNull := by
  have h := named_step_first_match
    (JsonNode.Object [(['a'], JsonNode.PlainNull),
      (['a'], JsonNode.PlainBoolean true)]) ['a'] [[]]
    (by decide) (by decide)
  exact ⟨h.1.trans rfl, rfl⟩

/-- Witness for C9: `Range(Some(-4), None)` on a 1-element array member
contributes nothing and raises no error. -/
theorem negative_start_underflow_empty_witness :
    apply_selector (ArrayElementSelector.Range (some (-4)) Option.none) 1 []
      = .ok []
    ∧ selector_step (JsonNode.Array [JsonNode.PlainNull])
        (ArrayElementSelector.Range (some (-4)) Option.none) [[]] = .ok [] :=
  ⟨negative_start_underflow_empty.2.1 1 [] (-4) (by decide) (by decide)
      (by decide) (by decide),
    negative_start_underflow_empty.2.2 (JsonNode.Array [JsonNode.PlainNull])
      [] [] [JsonNode.PlainNull] (-4) [] (by simp [node_at]) (by decide)
      (by decide) (by decide) (by decide) (by rw [selector_step])⟩

/-! ## Claim C1 -/

theorem modify_idx_length {α : Type} (l : List α) (i : Nat) (f : α → α) :
    (modify_idx l i f).length = l.length := by
  induction l generalizing i with
  | nil => rfl
  | cons x xs ih =>
    cases i with
    | zero => rfl
    | succ n =>
      show (x :: modify_idx xs n f).length = (x :: xs).length
      simp [ih]

theorem modify_idx_get?_eq {α : Type} (l : List α) (i : Nat) (f : α → α) :
    (modify_idx l i f).get? i = (l.get? i).map f := by
  induction l generalizing i with
  | nil => rfl
  | cons x xs ih =>
    cases i with
    | zero => rfl
    | succ n =>
      show (x :: modify_idx xs n f).get? (n + 1) = ((x :: xs).get? (n + 1)).map f
      rw [List.get?_cons_succ, List.get?_cons_succ]
      exact ih n

theorem modify_idx_get?_ne {α : Type} (l : List α) (i j : Nat) (f : α → α)
    (h : j ≠ i) : (modify_idx l i f).get? j = l.get? j := by
  induction l generalizing i j with
  | nil => rfl
  | cons x xs ih =>
    cases i with
    | zero =>
      match j, h with
      | 0, h => exact absurd rfl h
      | j' + 1, _ =>
        show (f x :: xs).get? (j' + 1) = (x :: xs).get? (j' + 1)
        rw [List.get?_cons_succ, List.get?_cons_succ]
    | succ n =>
      match j with
      | 0 => rfl
      | j' + 1 =>
        show (x :: modify_idx xs n f).get? (j' + 1) = (x :: xs).get? (j' + 1)
        rw [List.get?_cons_succ, List.get?_cons_succ]
        exact ih n j' (by omega)

theorem modify_idx_map_fst {α β : Type} (l : List (α × β)) (i : Nat)
    (f : α × β → α × β) (hf : ∀ p, (f p).1 = p.1) :
    (modify_idx l i f).map Prod.fst = l.map Prod.fst := by
  induction l generalizing i with
  | nil => rfl
  | cons x xs ih =>
    cases i with
    | zero =>
      show (f x :: xs).map Prod.fst = (x :: xs).map Prod.fst
      simp [hf]
    | succ n =>
      show (x :: modify_idx xs n f).map Prod.fst = (x :: xs).map Prod.fst
      simp only [List.map_cons]
      rw [ih]

/-- Dereferencing composes along concatenated locations. -/
theorem node_at_append_bind (a : Loc) :
    ∀ (t : JsonNode) (b : Loc),
      node_at t (a ++ b) = (node_at t a).bind (fun n => node_at n b) := by
  induction a with
  | nil => intro t b; simp [node_at]
  | cons i r ih =>
    intro t b
    cases t with
    | Array es =>
      show node_at (JsonNode.Array es) (i :: (r ++ b)) = _
      cases he : es.get? i with
      | none =>
        rw [List.get?_eq_getElem?] at he
        simp [node_at, he]
      | some e =>
        simp only [node_at]
        rw [he]
        exact ih e b
    | Object pl =>
      show node_at (JsonNode.Object pl) (i :: (r ++ b)) = _
      cases he : pl.get? i with
      | none =>
        rw [List.get?_eq_getElem?] at he
        simp [node_at, he]
      | some e =>
        simp only [node_at]
        rw [he]
        exact ih e.2 b
    | PlainNull => simp [node_at]
    | PlainString s => simp [node_at]
    | PlainNumber q => simp [node_at]
    | PlainBoolean b' => simp [node_at]

/-- A write through `c ++ rest` looks, from `c`, like a write through
`rest` in the subtree at `c` (no matter whether the location denotes a
node). -/
theorem node_at_set_at_prefix_eq (c : Loc) :
    ∀ (t v : JsonNode) (rest : Loc),
      node_at (set_at t (c ++ rest) v) c
        = (node_at t c).map (fun n => set_at n rest v) := by
  induction c with
  | nil =>
    intro t v rest
    simp [node_at]
  | cons i r ih =>
    intro t v rest
    cases t with
    | Array es =>
      show node_at (set_at (JsonNode.Array es) (i :: (r ++ rest)) v) (i :: r) = _
      rw [set_at]
      cases he : es.get? i with
      | none =>
        have h1 : (modify_idx es i (fun e => set_at e (r ++ rest) v)).get? i
            = Option.none := by
          rw [modify_idx_get?_eq, he]
          rfl
        rw [List.get?_eq_getElem?] at h1 he
        simp [node_at, h1, he]
      | some e =>
        have h1 : (modify_idx es i (fun e => set_at e (r ++ rest) v)).get? i
            = some (set_at e (r ++ rest) v) := by
          rw [modify_idx_get?_eq, he]
          rfl
        simp only [node_at]
        rw [h1, he]
        exact ih e v rest
    | Object pl =>
      show node_at (set_at (JsonNode.Object pl) (i :: (r ++ rest)) v) (i :: r) = _
      rw [set_at]
      cases he : pl.get? i with
      | none =>
        have h1 : (modify_idx pl i (fun p => (p.1, set_at p.2 (r ++ rest) v))).get? i
            = Option.none := by
          rw [modify_idx_get?_eq, he]
          rfl
        rw [List.get?_eq_getElem?] at h1 he
        simp [node_at, h1, he]
      | some e =>
        have h1 : (modify_idx pl i (fun p => (p.1, set_at p.2 (r ++ rest) v))).get? i
            = some (e.1, set_at e.2 (r ++ rest) v) := by
          rw [modify_idx_get?_eq, he]
          rfl
        simp only [node_at]
        rw [h1, he]
        exact ih e.2 v rest
    | PlainNull =>
      show node_at (set_at JsonNode.PlainNull (i :: (r ++ rest)) v) (i :: r) = _
      rw [set_at]
      all_goals try (intro x hcon; exact JsonNode.noConfusion hcon)
      simp [node_at]
    | PlainString s =>
      show node_at (set_at (JsonNode.PlainString s) (i :: (r ++ rest)) v) (i :: r) = _
      rw [set_at]
      all_goals try (intro x hcon; exact JsonNode.noConfusion hcon)
      simp [node_at]
    | PlainNumber q =>
      show node_at (set_at (JsonNode.PlainNumber q) (i :: (r ++ rest)) v) (i :: r) = _
      rw [set_at]
      all_goals try (intro x hcon; exact JsonNode.noConfusion hcon)
      simp [node_at]
    | PlainBoolean b =>
      show node_at (set_at (JsonNode.PlainBoolean b) (i :: (r ++ rest)) v) (i :: r) = _
      rw [set_at]
      all_goals try (intro x hcon; exact JsonNode.noConfusion hcon)
      simp [node_at]

/-- A write below index `i` is invisible below a different index `j`. -/
theorem node_at_set_at_ne (n v : JsonNode) (i j : Nat) (li cj : Loc)
    (h : i ≠ j) :
    node_at (set_at n (i :: li) v) (j :: cj) = node_at n (j :: cj) := by
  cases n with
  | Array es =>
    have h1 : (modify_idx es i (fun e => set_at e li v)).get? j = es.get? j :=
      modify_idx_get?_ne es i j _ (fun he => h he.symm)
    rw [set_at]
    simp only [node_at]
    rw [h1]
  | Object pl =>
    have h1 : (modify_idx pl i (fun p => (p.1, set_at p.2 li v))).get? j
        = pl.get? j :=
      modify_idx_get?_ne pl i j _ (fun he => h he.symm)
    rw [set_at]
    simp only [node_at]
    rw [h1]
  | PlainNull => rw [set_at] <;> (intro x hcon; exact JsonNode.noConfusion hcon)
  | PlainString s => rw [set_at] <;> (intro x hcon; exact JsonNode.noConfusion hcon)
  | PlainNumber q => rw [set_at] <;> (intro x hcon; exact JsonNode.noConfusion hcon)
  | PlainBoolean b => rw [set_at] <;> (intro x hcon; exact JsonNode.noConfusion hcon)

/-- Any two locations either extend one another or split at a common
prefix. -/
theorem loc_trichotomy (loc : Loc) : ∀ (c : Loc),
    (∃ ds, c = loc ++ ds)
    ∨ (∃ rest, rest ≠ ([] : Loc) ∧ loc = c ++ rest)
    ∨ (∃ pre i j li cj, i ≠ j ∧ loc = pre ++ i :: li ∧ c = pre ++ j :: cj) := by
  induction loc with
  | nil => intro c; exact Or.inl ⟨c, rfl⟩
  | cons a la ih =>
    intro c
    match c with
    | [] => exact Or.inr (Or.inl ⟨a :: la, by simp, rfl⟩)
    | b :: cb =>
      by_cases hab : a = b
      · subst hab
        rcases ih cb with ⟨ds, hds⟩ | ⟨rest, hne, hrest⟩
          | ⟨pre, i, j, li, cj, hij, hl, hc⟩
        · exact Or.inl ⟨ds, by rw [hds]; rfl⟩
        · exact Or.inr (Or.inl ⟨rest, hne, by rw [hrest]; rfl⟩)
        · exact Or.inr (Or.inr ⟨a :: pre, i, j, li, cj, hij,
            by rw [hl]; rfl, by rw [hc]; rfl⟩)
      · exact Or.inr (Or.inr ⟨[], a, b, la, cb, hab, rfl, rfl⟩)

/-- What one evaluation step can observe of a dereferenced location: the
property names of an object, the length of an array, a scalar, or nothing. -/
inductive NodeObs where
  | missing
  | obj (names : List (List Char))
  | arr (len : Nat)
  | leaf
deriving DecidableEq

def node_obs : Option JsonNode → NodeObs
  | Option.none => NodeObs.missing
  | some (JsonNode.Object pl) => NodeObs.obj (pl.map Prod.fst)
  | some (JsonNode.Array es) => NodeObs.arr es.length
  | some _ => NodeObs.leaf

theorem node_obs_missing_inv {x : Option JsonNode}
    (h : node_obs x = NodeObs.missing) : x = Option.none := by
  match x with
  | Option.none => rfl
  | some (JsonNode.Object pl) => exact absurd h (by simp [node_obs])
  | some (JsonNode.Array es) => exact absurd h (by simp [node_obs])
  | some JsonNode.PlainNull => exact absurd h (by simp [node_obs])
  | some (JsonNode.PlainString s) => exact absurd h (by simp [node_obs])
  | some (JsonNode.PlainNumber q) => exact absurd h (by simp [node_obs])
  | some (JsonNode.PlainBoolean b) => exact absurd h (by simp [node_obs])

theorem node_obs_obj_inv {x : Option JsonNode} {names : List (List Char)}
    (h : node_obs x = NodeObs.obj names) :
    ∃ pl, x = some (JsonNode.Object pl) ∧ pl.map Prod.fst = names := by
  match x with
  | Option.none => exact absurd h (by simp [node_obs])
  | some (JsonNode.Object pl) =>
    exact ⟨pl, rfl, by have := NodeObs.obj.inj h; exact this⟩
  | some (JsonNode.Array es) => exact absurd h (by simp [node_obs])
  | some JsonNode.PlainNull => exact absurd h (by simp [node_obs])
  | some (JsonNode.PlainString s) => exact absurd h (by simp [node_obs])
  | some (JsonNode.PlainNumber q) => exact absurd h (by simp [node_obs])
  | some (JsonNode.PlainBoolean b) => exact absurd h (by simp [node_obs])

theorem node_obs_arr_inv {x : Option JsonNode} {len : Nat}
    (h : node_obs x = NodeObs.arr len) :
    ∃ es, x = some (JsonNode.Array es) ∧ es.length = len := by
  match x with
  | Option.none => exact absurd h (by simp [node_obs])
  | some (JsonNode.Object pl) => exact absurd h (by simp [node_obs])
  | some (JsonNode.Array es) =>
    exact ⟨es, rfl, by have := NodeObs.arr.inj h; exact this⟩
  | some JsonNode.PlainNull => exact absurd h (by simp [node_obs])
  | some (JsonNode.PlainString s) => exact absurd h (by simp [node_obs])
  | some (JsonNode.PlainNumber q) => exact absurd h (by simp [node_obs])
  | some (JsonNode.PlainBoolean b) => exact absurd h (by simp [node_obs])

theorem node_obs_leaf_inv {x : Option JsonNode}
    (h : node_obs x = NodeObs.leaf) :
    ∃ n, x = some n ∧ (∀ pl, n ≠ JsonNode.Object pl)
      ∧ (∀ es, n ≠ JsonNode.Array es) := by
  match x with
  | Option.none => exact absurd h (by simp [node_obs])
  | some (JsonNode.Object pl) => exact absurd h (by simp [node_obs])
  | some (JsonNode.Array es) => exact absurd h (by simp [node_obs])
  | some JsonNode.PlainNull =>
    exact ⟨_, rfl, fun pl hcon => JsonNode.noConfusion hcon,
      fun es hcon => JsonNode.noConfusion hcon⟩
  | some (JsonNode.PlainString s) =>
    exact ⟨_, rfl, fun pl hcon => JsonNode.noConfusion hcon,
      fun es hcon => JsonNode.noConfusion hcon⟩
  | some (JsonNode.PlainNumber q) =>
    exact ⟨_, rfl, fun pl hcon => JsonNode.noConfusion hcon,
      fun es hcon => JsonNode.noConfusion hcon⟩
  | some (JsonNode.PlainBoolean b) =>
    exact ⟨_, rfl, fun pl hcon => JsonNode.noConfusion hcon,
      fun es hcon => JsonNode.noConfusion hcon⟩

theorem leaf_node_at_cons {n : JsonNode} (h : node_obs (some n) = NodeObs.leaf)
    (d : Nat) (ds : Loc) : node_at n (d :: ds) = Option.none := by
  obtain ⟨n', hn', hobj, harr⟩ := node_obs_leaf_inv h
  cases Option.some.inj hn'
  match n, hobj, harr with
  | JsonNode.PlainNull, _, _ => simp [node_at]
  | JsonNode.PlainString s, _, _ => simp [node_at]
  | JsonNode.PlainNumber q, _, _ => simp [node_at]
  | JsonNode.PlainBoolean b, _, _ => simp [node_at]
  | JsonNode.Object pl, hobj, _ => exact absurd rfl (hobj pl)
  | JsonNode.Array es, _, harr => exact absurd rfl (harr es)

/-- Writing over the node at `loc` never changes the subtree at `loc`'s
location itself when read back whole. -/
theorem node_at_set_at_self (t v : JsonNode) (loc : Loc) {s : JsonNode}
    (hloc : node_at t loc = some s) :
    node_at (set_at t loc v) loc = some v := by
  have h := node_at_set_at_prefix_eq loc t v []
  rw [List.append_nil] at h
  rw [h, hloc]
  show some (set_at s [] v) = some v
  rw [set_at]

/-- Replacing the scalar at `loc` by another scalar leaves every
observation the evaluator can make unchanged. -/
theorem node_obs_set_at (t v s : JsonNode) (loc : Loc)
    (hloc : node_at t loc = some s)
    (hs : node_obs (some s) = NodeObs.leaf)
    (hv : node_obs (some v) = NodeObs.leaf) :
    ∀ c, node_obs (node_at (set_at t loc v) c) = node_obs (node_at t c) := by
  intro c
  rcases loc_trichotomy loc c with ⟨ds, rfl⟩ | ⟨rest, hne, hrest⟩
    | ⟨pre, i, j, li, cj, hij, hl, hc⟩
  · rw [node_at_append_bind loc (set_at t loc v) ds, node_at_append_bind loc t ds,
      node_at_set_at_self t v loc hloc, hloc]
    show node_obs (node_at v ds) = node_obs (node_at s ds)
    cases ds with
    | nil =>
      have h0 : ∀ m : JsonNode, node_at m [] = some m := fun m => by simp [node_at]
      rw [h0, h0, hv, hs]
    | cons d ds' =>
      rw [leaf_node_at_cons hv d ds', leaf_node_at_cons hs d ds']
  · subst hrest
    rw [node_at_set_at_prefix_eq c t v rest]
    cases hn : node_at t c with
    | none => rfl
    | some n =>
      show node_obs (some (set_at n rest v)) = node_obs (some n)
      match rest, hne with
      | d :: ds, _ =>
        cases n with
        | Array es =>
          rw [set_at]
          show NodeObs.arr (modify_idx es d (fun e => set_at e ds v)).length
            = NodeObs.arr es.length
          rw [modify_idx_length]
        | Object pl =>
          rw [set_at]
          show NodeObs.obj ((modify_idx pl d
              (fun p => (p.1, set_at p.2 ds v))).map Prod.fst)
            = NodeObs.obj (pl.map Prod.fst)
          rw [modify_idx_map_fst pl d (fun p => (p.1, set_at p.2 ds v))
            (fun p => rfl)]
        | PlainNull =>
          rw [set_at] <;> (intro x hcon; exact JsonNode.noConfusion hcon)
        | PlainString str =>
          rw [set_at] <;> (intro x hcon; exact JsonNode.noConfusion hcon)
        | PlainNumber q =>
          rw [set_at] <;> (intro x hcon; exact JsonNode.noConfusion hcon)
        | PlainBoolean b =>
          rw [set_at] <;> (intro x hcon; exact JsonNode.noConfusion hcon)
  · subst hl; subst hc
    rw [node_at_append_bind pre _ (j :: cj), node_at_append_bind pre t (j :: cj),
      node_at_set_at_prefix_eq pre t v (i :: li)]
    cases hn : node_at t pre with
    | none => rfl
    | some n =>
      show node_obs (node_at (set_at n (i :: li) v) (j :: cj))
        = node_obs (node_at n (j :: cj))
      rw [node_at_set_at_ne n v i j li cj hij]

theorem findIdx?_fst_congr (pn : List Char) :
    ∀ (pl pl' : List (List Char × JsonNode)) (i : Nat),
      pl.map Prod.fst = pl'.map Prod.fst →
      List.findIdx? (fun x => x.1 == pn) pl i
        = List.findIdx? (fun x => x.1 == pn) pl' i := by
  intro pl
  induction pl with
  | nil =>
    intro pl' i h
    have hnil : pl' = [] := by
      cases pl' with
      | nil => rfl
      | cons y ys => exact absurd h (by simp)
    subst hnil
    rfl
  | cons x xs ih =>
    intro pl' i h
    cases pl' with
    | nil => exact absurd h (by simp)
    | cons y ys =>
      simp only [List.map_cons, List.cons.injEq] at h
      simp only [List.findIdx?_cons]
      rw [h.1]
      by_cases hq : (y.1 == pn) = true
      · rw [if_pos hq, if_pos hq]
      · rw [if_neg hq, if_neg hq, ih ys (i + 1) h.2]

theorem not_obj_of_obs {x : Option JsonNode} {o : NodeObs}
    (hx : node_obs x = o) (ho : ∀ names, o ≠ NodeObs.obj names) :
    ∀ pl, x ≠ some (JsonNode.Object pl) := by
  intro pl hcon
  rw [hcon] at hx
  exact ho (pl.map Prod.fst) (by rw [← hx]; rfl)

theorem not_arr_of_obs {x : Option JsonNode} {o : NodeObs}
    (hx : node_obs x = o) (ho : ∀ len, o ≠ NodeObs.arr len) :
    ∀ es, x ≠ some (JsonNode.Array es) := by
  intro es hcon
  rw [hcon] at hx
  exact ho es.length (by rw [← hx]; rfl)

theorem name_step_drop (t : JsonNode) (pn : List Char) (c : Loc)
    (rest : List Loc) (h : ∀ pl, node_at t c ≠ some (JsonNode.Object pl)) :
    name_step t pn (c :: rest) = name_step t pn rest := by
  cases hn : node_at t c with
  | none => simp only [name_step, hn]
  | some n =>
    cases n with
    | Object pl => exact absurd hn (h pl)
    | Array es => simp only [name_step, hn]
    | PlainNull => simp only [name_step, hn]
    | PlainString s => simp only [name_step, hn]
    | PlainNumber q => simp only [name_step, hn]
    | PlainBoolean b => simp only [name_step, hn]

theorem selector_step_not_array (t : JsonNode) (es : ArrayElementSelector)
    (c : Loc) (rest : List Loc)
    (h : ∀ a, node_at t c ≠ some (JsonNode.Array a)) :
    selector_step t es (c :: rest)
      = .error "element selector must be applied on array notation" := by
  cases hn : node_at t c with
  | none => simp only [selector_step, hn]
  | some n =>
    cases n with
    | Array a => exact absurd hn (h a)
    | Object pl => simp only [selector_step, hn]
    | PlainNull => simp only [selector_step, hn]
    | PlainString s => simp only [selector_step, hn]
    | PlainNumber q => simp only [selector_step, hn]
    | PlainBoolean b => simp only [selector_step, hn]

theorem name_step_congr (t t' : JsonNode) (pn : List Char)
    (hobs : ∀ c, node_obs (node_at t' c) = node_obs (node_at t c)) :
    ∀ ws, name_step t' pn ws = name_step t pn ws := by
  intro ws
  induction ws with
  | nil => rfl
  | cons c rest ih =>
    have h := hobs c
    cases hobsc : node_obs (node_at t c) with
    | obj names =>
      obtain ⟨pl, hx, hnames⟩ := node_obs_obj_inv hobsc
      obtain ⟨pl', hx', hnames'⟩ := node_obs_obj_inv (h.trans hobsc)
      simp only [name_step, hx, hx']
      rw [findIdx?_fst_congr pn pl' pl 0 (by rw [hnames', hnames])]
      cases List.findIdx? (fun x => x.1 == pn) pl 0 with
      | none => exact ih
      | some k => rw [ih]
    | missing =>
      rw [name_step_drop t pn c rest
          (not_obj_of_obs hobsc (fun _ hcon => NodeObs.noConfusion hcon)),
        name_step_drop t' pn c rest
          (not_obj_of_obs (h.trans hobsc) (fun _ hcon => NodeObs.noConfusion hcon))]
      exact ih
    | arr len =>
      rw [name_step_drop t pn c rest
          (not_obj_of_obs hobsc (fun _ hcon => NodeObs.noConfusion hcon)),
        name_step_drop t' pn c rest
          (not_obj_of_obs (h.trans hobsc) (fun _ hcon => NodeObs.noConfusion hcon))]
      exact ih
    | leaf =>
      rw [name_step_drop t pn c rest
          (not_obj_of_obs hobsc (fun _ hcon => NodeObs.noConfusion hcon)),
        name_step_drop t' pn c rest
          (not_obj_of_obs (h.trans hobsc) (fun _ hcon => NodeObs.noConfusion hcon))]
      exact ih

theorem selector_step_congr (t t' : JsonNode) (es : ArrayElementSelector)
    (hobs : ∀ c, node_obs (node_at t' c) = node_obs (node_at t c)) :
    ∀ ws, selector_step t' es ws = selector_step t es ws := by
  intro ws
  induction ws with
  | nil => rfl
  | cons c rest ih =>
    have h := hobs c
    cases hobsc : node_obs (node_at t c) with
    | arr len =>
      obtain ⟨a, hx, hlen⟩ := node_obs_arr_inv hobsc
      obtain ⟨a', hx', hlen'⟩ := node_obs_arr_inv (h.trans hobsc)
      simp only [selector_step, hx, hx']
      rw [show a'.length = a.length by rw [hlen', hlen], ih]
    | missing =>
      rw [selector_step_not_array t es c rest
          (not_arr_of_obs hobsc (fun _ hcon => NodeObs.noConfusion hcon)),
        selector_step_not_array t' es c rest
          (not_arr_of_obs (h.trans hobsc) (fun _ hcon => NodeObs.noConfusion hcon))]
    | obj names =>
      rw [selector_step_not_array t es c rest
          (not_arr_of_obs hobsc (fun _ hcon => NodeObs.noConfusion hcon)),
        selector_step_not_array t' es c rest
          (not_arr_of_obs (h.trans hobsc) (fun _ hcon => NodeObs.noConfusion hcon))]
    | leaf =>
      rw [selector_step_not_array t es c rest
          (not_arr_of_obs hobsc (fun _ hcon => NodeObs.noConfusion hcon)),
        selector_step_not_array t' es c rest
          (not_arr_of_obs (h.trans hobsc) (fun _ hcon => NodeObs.noConfusion hcon))]

theorem eval_step_congr (t t' : JsonNode) (part : JsonPathPart)
    (hobs : ∀ c, node_obs (node_at t' c) = node_obs (node_at t c))
    (ws : List Loc) : eval_step t' part ws = eval_step t part ws := by
  simp only [eval_step]
  rw [name_step_congr t t' part.path_name hobs ws]
  cases part.elem_selector with
  | none => rfl
  | some es => exact selector_step_congr t t' es hobs _

theorem evaluate_aux_congr (t t' : JsonNode)
    (hobs : ∀ c, node_obs (node_at t' c) = node_obs (node_at t c)) :
    ∀ (parts : List JsonPathPart) (ws : List Loc),
      evaluate_json_path_aux t' parts ws = evaluate_json_path_aux t parts ws := by
  intro parts
  induction parts with
  | nil => intro ws; rfl
  | cons p ps ih =>
    intro ws
    rw [evaluate_json_path_aux, evaluate_json_path_aux,
      eval_step_congr t t' p hobs ws]
    cases h : eval_step t p ws with
    | error e => rfl
    | ok ws1 => exact ih ws1

/-- C1: for a path expression that matches exactly one node holding a
scalar, a typed set of a value `v` of scalar type followed by the typed get
of the same path returns `Some v` — for numbers, booleans and strings
alike.  The set succeeds and produces exactly the tree with the selected
scalar replaced. -/
theorem typed_set_get_roundtrip (t : JsonNode) (p : List Char) (jp : JsonPath)
    (loc : Loc) (s : JsonNode)
    (hparse : JsonPath.parse p = .ok jp)
    (heval : jp.evaluate_json_path t = .ok [loc])
    (hnode : node_at t loc = some s)
    (hs : node_obs (some s) = NodeObs.leaf) :
    (∀ qv : Rat,
      JsonNode.set_number t p qv = .ok (set_at t loc (JsonNode.PlainNumber qv))
      ∧ JsonNode.get_number (set_at t loc (JsonNode.PlainNumber qv)) p
          = .ok (some qv))
    ∧ (∀ bv : Bool,
      JsonNode.set_bool t p bv = .ok (set_at t loc (JsonNode.PlainBoolean bv))
      ∧ JsonNode.get_bool (set_at t loc (JsonNode.PlainBoolean bv)) p
          = .ok (some bv))
    ∧ (∀ sv : List Char,
      JsonNode.set_str t p sv = .ok (set_at t loc (JsonNode.PlainString sv))
      ∧ JsonNode.get_str (set_at t loc (JsonNode.PlainString sv)) p
          = .ok (some sv)) := by
  have hset : ∀ v : JsonNode,
      jp.json_path_set_raw t v = .ok (set_at t loc v) := by
    intro v
    unfold JsonPath.json_path_set_raw
    rw [heval]
    rfl
  have hget : ∀ v : JsonNode, node_obs (some v) = NodeObs.leaf →
      jp.json_path_get_raw (set_at t loc v) = .ok [v] := by
    intro v hv
    have hobs := node_obs_set_at t v s loc hnode hs hv
    have heval' : jp.evaluate_json_path (set_at t loc v) = .ok [loc] := by
      unfold JsonPath.evaluate_json_path at heval ⊢
      rw [evaluate_aux_congr t (set_at t loc v) hobs jp.parts [[]], heval]
    unfold JsonPath.json_path_get_raw
    rw [heval']
    have h3 := node_at_set_at_self t v loc hnode
    simp only [read_locs, h3]
    rfl
  refine ⟨?_, ?_, ?_⟩
  · intro qv
    constructor
    · unfold JsonNode.set_number
      rw [hparse]
      exact hset (JsonNode.PlainNumber qv)
    · unfold JsonNode.get_number
      unfold JsonPath.json_path_get_number
      simp only [hparse]
      rw [hget (JsonNode.PlainNumber qv) rfl]
      rfl
  · intro bv
    constructor
    · unfold JsonNode.set_bool
      rw [hparse]
      exact hset (JsonNode.PlainBoolean bv)
    · unfold JsonNode.get_bool
      unfold JsonPath.json_path_get_bool
      simp only [hparse]
      rw [hget (JsonNode.PlainBoolean bv) rfl]
      rfl
  · intro sv
    constructor
    · unfold JsonNode.set_str
      rw [hparse]
      exact hset (JsonNode.PlainString sv)
    · unfold JsonNode.get_str
      unfold JsonPath.json_path_get_str
      simp only [hparse]
      rw [hget (JsonNode.PlainString sv) rfl]
      rfl

unseal selector_scan dot_name_scan bracket_name_scan json_path_parse_loop node_at set_at in
/-- Witness for C1: on the object `{a: null}` and the path `$.a`, setting
`true` and reading it back returns `Some true`. -/
theorem typed_set_get_roundtrip_witness :
    JsonNode.set_bool (JsonNode.Object [(['a'], JsonNode.PlainNull)])
        "$.a".toList true
      = .ok (JsonNode.Object [(['a'], JsonNode.PlainBoolean true)])
    ∧ JsonNode.get_bool (JsonNode.Object [(['a'], JsonNode.PlainBoolean true)])
        "$.a".toList
      = .ok (some true) := by
  have h := (typed_set_get_roundtrip
    (JsonNode.Object [(['a'], JsonNode.PlainNull)]) "$.a".toList _ [0]
    JsonNode.PlainNull rfl rfl rfl rfl).2.1 true
  exact ⟨h.1.trans rfl, h.2⟩

/-! ## Claim C2 -/

/-- A character safe inside a quoted string or property name: not a
backslash, not a quote of either kind, not a line break.  (Whitespace and
structural characters are fine inside a quote.) -/
def str_char (c : Char) : Bool :=
  !(c = '\\') && !(c = '\'') && !(c = '"') && !(c = '\r') && !(c = '\n')

theorem str_char_props {c : Char} (h : str_char c = true) :
    c ≠ '\\' ∧ c ≠ '\'' ∧ c ≠ '"' ∧ c ≠ '\r' ∧ c ≠ '\n' := by
  simp only [str_char, Bool.and_eq_true, Bool.not_eq_true',
    decide_eq_false_iff_not] at h
  obtain ⟨⟨⟨⟨h1, h2⟩, h3⟩, h4⟩, h5⟩ := h
  exact ⟨h1, h2, h3, h4, h5⟩

/-- The documents whose serialized form survives the round trip: no
backslashes, quotes or line breaks in strings and property names, and
numbers that are nonnegative integers exactly representable in an `f64`. -/
def Safe : JsonNode → Prop
  | JsonNode.PlainNull => True
  | JsonNode.PlainBoolean _ => True
  | JsonNode.PlainNumber q => q.den = 1 ∧ 0 ≤ q.num ∧ q.num < 2 ^ 53
  | JsonNode.PlainString s => ∀ c ∈ s, str_char c = true
  | JsonNode.Array es => ∀ x ∈ es, Safe x
  | JsonNode.Object pl => ∀ p ∈ pl, (∀ c ∈ p.1, str_char c = true) ∧ Safe p.2
termination_by n => sizeOf n
decreasing_by
  · exact List.sizeOf_lt_of_mem (by assumption) |>.trans_le (by simp)
  · rename_i hp
    have h1 : sizeOf p < sizeOf pl := List.sizeOf_lt_of_mem hp
    have h2 : sizeOf p.2 < sizeOf p := by
      obtain ⟨a, b⟩ := p
      simp
    simp
    omega

mutual

/-- The token stream of a serialized document — common to the compact and
the pretty rendering, which differ only in whitespace. -/
def toks : JsonNode → List JsonTag
  | JsonNode.PlainNull => [JsonTag.Literal "null".toList]
  | JsonNode.PlainBoolean b =>
    [JsonTag.Literal (if b then "true".toList else "false".toList)]
  | JsonNode.PlainNumber q => [JsonTag.Literal (f64_display q)]
  | JsonNode.PlainString s => [JsonTag.Literal ('"' :: (s ++ ['"']))]
  | JsonNode.Array es => JsonTag.LeftSquare :: (toks_elems es ++ [JsonTag.RightSquare])
  | JsonNode.Object pl => JsonTag.LeftCurly :: (toks_props pl ++ [JsonTag.RightCurly])

def toks_elems : List JsonNode → List JsonTag
  | [] => []
  | [x] => toks x
  | x :: y :: xs => toks x ++ JsonTag.Comma :: toks_elems (y :: xs)

def toks_props : List (List Char × JsonNode) → List JsonTag
  | [] => []
  | [p] => JsonTag.Literal ('"' :: (p.1 ++ ['"'])) :: JsonTag.Colon :: toks p.2
  | p :: q :: ps =>
    JsonTag.Literal ('"' :: (p.1 ++ ['"'])) :: JsonTag.Colon :: toks p.2
      ++ JsonTag.Comma :: toks_props (q :: ps)

end

theorem toks_ne (d : JsonNode) : toks d ≠ [] := by
  cases d <;> simp [toks]

theorem char_ofNat_digit_isDigit {k : Nat} (h : k < 10) :
    (Char.ofNat (48 + k)).isDigit = true := by
  interval_cases k <;> decide

theorem char_ofNat_digit_toNat {k : Nat} (h : k < 10) :
    (Char.ofNat (48 + k)).toNat = 48 + k := by
  interval_cases k <;> decide

theorem nat_digits_all_digit (n : Nat) : ∀ c ∈ nat_digits n, c.isDigit = true := by
  induction n using Nat.strong_induction_on with
  | _ n ih =>
    intro c hc
    by_cases h : n < 10
    · rw [nat_digits, if_pos h] at hc
      rw [List.mem_singleton] at hc
      subst hc
      exact char_ofNat_digit_isDigit h
    · rw [nat_digits, if_neg h] at hc
      rw [List.mem_append] at hc
      rcases hc with hc | hc
      · exact ih (n / 10) (Nat.div_lt_self (by omega) (by omega)) c hc
      · rw [List.mem_singleton] at hc
        subst hc
        exact char_ofNat_digit_isDigit (Nat.mod_lt n (by omega))

theorem digit_plain {c : Char} (h : c.isDigit = true) : plain_char c = true := by
  have hv : 48 ≤ c.toNat ∧ c.toNat ≤ 57 := by
    simp only [Char.isDigit, Bool.and_eq_true, decide_eq_true_eq] at h
    exact ⟨h.1, h.2⟩
  have hn : ∀ (d : Char) (m : Nat), d.toNat = m → (m < 48 ∨ 57 < m) → c ≠ d := by
    intro d m hd hm hcon
    rw [hcon, hd] at hv
    omega
  simp only [plain_char, Bool.and_eq_true, Bool.not_eq_true',
    decide_eq_false_iff_not]
  refine ⟨⟨⟨⟨hn '\\' 92 rfl (by omega), hn '\'' 39 rfl (by omega)⟩,
    hn '"' 34 rfl (by omega)⟩, ?_⟩, ?_⟩
  · show c.isWhitespace = false
    simp only [Char.isWhitespace, Bool.or_eq_false_iff, decide_eq_false_iff_not]
    exact ⟨⟨⟨hn ' ' 32 rfl (by omega), hn '\t' 9 rfl (by omega)⟩,
      hn '\r' 13 rfl (by omega)⟩, hn '\n' 10 rfl (by omega)⟩
  · show is_structural c = false
    simp only [is_structural, Bool.or_eq_false_iff, decide_eq_false_iff_not]
    exact ⟨⟨⟨⟨⟨hn '{' 123 rfl (by omega), hn '}' 125 rfl (by omega)⟩,
      hn '[' 91 rfl (by omega)⟩, hn ']' 93 rfl (by omega)⟩,
      hn ',' 44 rfl (by omega)⟩, hn ':' 58 rfl (by omega)⟩

theorem digit_ne_dot {c : Char} (h : c.isDigit = true) : c ≠ '.' := by
  intro hcon
  subst hcon
  exact absurd h (by decide)

theorem digits_to_nat_append (a : List Char) (c : Char) :
    digits_to_nat (a ++ [c]) = 10 * digits_to_nat a + (c.toNat - '0'.toNat) := by
  unfold digits_to_nat
  rw [List.foldl_append]
  rfl

theorem digits_to_nat_nat_digits (n : Nat) :
    digits_to_nat (nat_digits n) = n := by
  induction n using Nat.strong_induction_on with
  | _ n ih =>
    have h0 : '0'.toNat = 48 := rfl
    by_cases h : n < 10
    · rw [nat_digits, if_pos h]
      unfold digits_to_nat
      simp only [List.foldl_cons, List.foldl_nil]
      rw [h0, char_ofNat_digit_toNat h]
      omega
    · rw [nat_digits, if_neg h, digits_to_nat_append,
        ih (n / 10) (Nat.div_lt_self (by omega) (by omega)), h0,
        char_ofNat_digit_toNat (Nat.mod_lt n (by omega))]
      omega

theorem nat_digits_ne (n : Nat) : nat_digits n ≠ [] := by
  by_cases h : n < 10
  · rw [nat_digits, if_pos h]; simp
  · rw [nat_digits, if_neg h]; simp

theorem takeWhile_all {α : Type} (p : α → Bool) :
    ∀ (l : List α), (∀ c ∈ l, p c = true) → l.takeWhile p = l := by
  intro l
  induction l with
  | nil => intro _; rfl
  | cons x xs ih =>
    intro h
    rw [List.takeWhile_cons, if_pos (h x (List.mem_cons_self x xs)),
      ih (fun c hc => h c (List.mem_cons_of_mem x hc))]

theorem dropWhile_all {α : Type} (p : α → Bool) :
    ∀ (l : List α), (∀ c ∈ l, p c = true) → l.dropWhile p = [] := by
  intro l
  induction l with
  | nil => intro _; rfl
  | cons x xs ih =>
    intro h
    rw [List.dropWhile_cons, if_pos (h x (List.mem_cons_self x xs)),
      ih (fun c hc => h c (List.mem_cons_of_mem x hc))]

theorem filter_dot_digits (l : List Char) (h : ∀ c ∈ l, c.isDigit = true) :
    (l.filter (· = '.')).length = 0 := by
  have : l.filter (· = '.') = [] := by
    rw [List.filter_eq_nil]
    intro c hc
    simp only [decide_eq_true_eq]
    exact digit_ne_dot (h c hc)
  rw [this]
  rfl

/-- Parsing back the digit run of a nonnegative integral number. -/
theorem parse_plain_digits (n : Nat) :
    parse_plain (nat_digits n) = .ok (JsonNode.PlainNumber (n : Rat)) := by
  have hdig := nat_digits_all_digit n
  have hall : (nat_digits n).all (fun c => char_is_numeric c || c = '.') = true := by
    rw [List.all_eq_true]
    intro c hc
    simp only [Bool.or_eq_true, char_is_numeric]
    exact Or.inl (hdig c hc)
  have hfil := filter_dot_digits (nat_digits n) hdig
  unfold parse_plain
  rw [if_pos ⟨hall, by omega⟩]
  have hfrom : rust_f64_from_str (nat_digits n) = .ok (n : Rat) := by
    unfold rust_f64_from_str
    have hne : ∀ c ∈ nat_digits n, (fun x => decide (x ≠ '.')) c = true := by
      intro c hc
      simp only [ne_eq, decide_eq_true_eq]
      exact digit_ne_dot (hdig c hc)
    have hany : (nat_digits n).any (·.isDigit) = true := by
      rw [List.any_eq_true]
      cases hd : nat_digits n with
      | nil => exact absurd hd (nat_digits_ne n)
      | cons c cs =>
        exact ⟨c, List.mem_cons_self c cs,
          hdig c (hd ▸ List.mem_cons_self c cs)⟩
    have hAll : ((nat_digits n).all fun c => c.isDigit || decide (c = '.')) = true := by
      rw [List.all_eq_true]
      intro c hc
      rw [Bool.or_eq_true]
      exact Or.inl (hdig c hc)
    rw [if_pos ⟨hAll, by omega, hany⟩]
    show Except.ok
        ((digits_to_nat ((nat_digits n).takeWhile (fun x => decide (x ≠ '.'))) : Rat)
          + (digits_to_nat (((nat_digits n).dropWhile (fun x => decide (x ≠ '.'))).drop 1) : Rat)
            / (10 : Rat) ^ (((nat_digits n).dropWhile (fun x => decide (x ≠ '.'))).drop 1).length)
      = Except.ok (n : Rat)
    rw [takeWhile_all _ _ hne, dropWhile_all _ _ hne, List.drop_nil,
      digits_to_nat_nat_digits]
    have hval : (n : Rat) + (digits_to_nat [] : Rat) / (10 : Rat) ^ ([] : List Char).length
        = (n : Rat) := by
      norm_num [digits_to_nat]
    rw [hval]
  rw [hfrom]
  rfl

/-- Parsing back a quoted string literal strips the quotes. -/
theorem parse_plain_quoted (s : List Char) (h : ∀ c ∈ s, str_char c = true) :
    parse_plain ('"' :: (s ++ ['"'])) = .ok (JsonNode.PlainString s) := by
  have hnum : ¬ ((('"' :: (s ++ ['"'])).all fun c => char_is_numeric c || c = '.')
      = true ∧ ((('"' :: (s ++ ['"'])).filter (· = '.')).length ≤ 1)) := by
    rintro ⟨hall, -⟩
    rw [List.all_cons] at hall
    simp [char_is_numeric] at hall
  have hkw : ∀ (kw : String), kw.toList.head? ≠ some '"' →
      ('"' :: (s ++ ['"'])) ≠ kw.toList := by
    intro kw hh hcon
    apply hh
    rw [← hcon]
    rfl
  unfold parse_plain
  rw [if_neg hnum,
    if_neg (by
      rintro (h1 | h1 | h1)
      · exact hkw "true" (by decide) h1
      · exact hkw "True" (by decide) h1
      · exact hkw "TRUE" (by decide) h1),
    if_neg (by
      rintro (h1 | h1 | h1)
      · exact hkw "false" (by decide) h1
      · exact hkw "False" (by decide) h1
      · exact hkw "FALSE" (by decide) h1),
    if_neg (by
      rintro (h1 | h1 | h1)
      · exact hkw "null" (by decide) h1
      · exact hkw "Null" (by decide) h1
      · exact hkw "NULL" (by decide) h1)]
  have hlast : ('"' :: (s ++ ['"'])).getLast? = some '"' := by
    rw [show ('"' :: (s ++ ['"'])) = ('"' :: s) ++ ['"'] by rw [List.cons_append]]
    exact List.getLast?_concat _
  have hlen : 1 < ('"' :: (s ++ ['"'])).length := by
    simp
  rw [if_pos ⟨Or.inr ⟨rfl, hlast⟩, hlen⟩]
  show Except.ok (JsonNode.PlainString ((s ++ ['"']).dropLast)) = _
  rw [List.dropLast_concat]

theorem strip_name_quotes_quoted (s : List Char) :
    strip_name_quotes ('"' :: (s ++ ['"'])) = some s := by
  unfold strip_name_quotes
  have hlast : ('"' :: (s ++ ['"'])).getLast? = some '"' := by
    rw [show ('"' :: (s ++ ['"'])) = ('"' :: s) ++ ['"'] by rw [List.cons_append]]
    exact List.getLast?_concat _
  rw [if_pos (Or.inr ⟨rfl, hlast⟩), if_neg (by simp)]
  show some ((s ++ ['"']).dropLast) = some s
  rw [List.dropLast_concat]

theorem parse_plain_null : parse_plain "null".toList = .ok JsonNode.PlainNull := rfl

theorem parse_plain_true :
    parse_plain "true".toList = .ok (JsonNode.PlainBoolean true) := rfl

theorem parse_plain_false :
    parse_plain "false".toList = .ok (JsonNode.PlainBoolean false) := rfl

/-- The text still to be tokenized starts with a token boundary: nothing,
whitespace, or a structural character. -/
def stopper_headed (l : List Char) : Prop :=
  l = [] ∨ ∃ c cs, l = c :: cs ∧ (c.isWhitespace = true ∨ is_structural c = true)

theorem read_json_tag_ws_append {ws : List Char}
    (h : ∀ c ∈ ws, c.isWhitespace = true) (l : List Char) :
    read_json_tag (ws ++ l) = read_json_tag l := by
  induction ws with
  | nil => rfl
  | cons c cs ih =>
    show read_json_tag (c :: (cs ++ l)) = _
    rw [read_json_tag, if_pos (h c (List.mem_cons_self c cs))]
    exact ih (fun c' hc' => h c' (List.mem_cons_of_mem c hc'))

theorem parse_read_congr {a b : List Char}
    (h : read_json_tag a = read_json_tag b) : JsonTag.parse a = JsonTag.parse b := by
  cases hr : read_json_tag b with
  | mk o rest =>
    cases o with
    | none =>
      rw [tokenize_of_none (h.trans hr), tokenize_of_none hr]
    | some t =>
      rw [tokenize_of_some (h.trans hr), tokenize_of_some hr]

theorem tokenize_ws_prefix_eq {ws : List Char}
    (h : ∀ c ∈ ws, c.isWhitespace = true) (l : List Char) :
    JsonTag.parse (ws ++ l) = JsonTag.parse l :=
  parse_read_congr (read_json_tag_ws_append h l)

theorem indent_spaces_ws (n : Nat) : ∀ c ∈ indent_spaces n, c.isWhitespace = true := by
  intro c hc
  have := List.eq_of_mem_replicate hc
  subst this
  decide

theorem read_left_curly (rest : List Char) :
    read_json_tag ('{' :: rest) = (some JsonTag.LeftCurly, rest) := rfl

theorem read_right_curly (rest : List Char) :
    read_json_tag ('}' :: rest) = (some JsonTag.RightCurly, rest) := rfl

theorem read_left_square (rest : List Char) :
    read_json_tag ('[' :: rest) = (some JsonTag.LeftSquare, rest) := rfl

theorem read_right_square (rest : List Char) :
    read_json_tag (']' :: rest) = (some JsonTag.RightSquare, rest) := rfl

theorem read_comma (rest : List Char) :
    read_json_tag (',' :: rest) = (some JsonTag.Comma, rest) := rfl

theorem read_colon (rest : List Char) :
    read_json_tag (':' :: rest) = (some JsonTag.Colon, rest) := rfl

/-- Reading a run of plain characters followed by a token boundary produces
one literal token of exactly that run. -/
theorem read_json_tag_plain (body rest : List Char) (hb : body ≠ [])
    (h : ∀ c ∈ body, plain_char c = true) (hstop : stopper_headed rest) :
    read_json_tag (body ++ rest) = (some (JsonTag.Literal body), rest) := by
  match body, hb, h with
  | b :: bs, _, h =>
    obtain ⟨hbw, hc1, hc2, hc3, hc4, hc5, hc6⟩ :=
      plain_not_structural_chars (h b (List.mem_cons_self b bs))
    show read_json_tag (b :: (bs ++ rest)) = _
    rw [read_json_tag, if_neg hbw, if_neg hc1, if_neg hc2, if_neg hc3,
      if_neg hc4, if_neg hc5, if_neg hc6]
    have hscan : scan_literal ((b :: bs) ++ rest) 0 Option.none false false
        (by simp) = (b :: bs).length := by
      apply scan_plain_run (b :: bs) rest h
      rcases hstop with rfl | ⟨c, cs, rfl, hc⟩
      · exact Or.inl (by rw [List.append_nil]; exact List.get?_eq_none.mpr (le_refl _))
      · refine Or.inr ⟨c, ?_, hc⟩
        rw [List.get?_append_right (le_refl _), Nat.sub_self]
        rfl
    show (some (JsonTag.Literal ((b :: (bs ++ rest)).take
        (scan_literal (b :: (bs ++ rest)) 0 Option.none false false _))),
      (b :: (bs ++ rest)).drop
        (scan_literal (b :: (bs ++ rest)) 0 Option.none false false _)) = _
    rw [show scan_literal (b :: (bs ++ rest)) 0 Option.none false false
        read_json_tag.proof_2 = (b :: bs).length from hscan]
    show (some (JsonTag.Literal (((b :: bs) ++ rest).take (b :: bs).length)),
      ((b :: bs) ++ rest).drop (b :: bs).length) = _
    rw [List.take_left, List.drop_left]

/-- The scanner marches over safe characters while a quote is open. -/
theorem scan_march_in_quote (l : List Char) (q : Char)
    (hq : q = '\'' ∨ q = '"') :
    ∀ (n e : Nat),
      (∀ k, k < n → ∃ c, l.get? (e + k) = some c ∧ str_char c = true) →
      scan_literal l e (some q) false false (fun hcon => Bool.noConfusion hcon)
        = scan_literal l (e + n) (some q) false false
            (fun hcon => Bool.noConfusion hcon) := by
  intro n
  induction n with
  | zero => intro e _; rw [Nat.add_zero]
  | succ m ih =>
    intro e hp
    obtain ⟨c, hc, hsc⟩ := hp 0 (Nat.succ_pos m)
    rw [Nat.add_zero] at hc
    obtain ⟨hb1, hb2, hb3, hb4, hb5⟩ := str_char_props hsc
    have hng : ¬ ((c = '\'' ∨ c = '"') ∧ false = false ∧ false = false) := by
      rintro ⟨h1 | h1, -, -⟩
      · exact hb2 h1
      · exact hb3 h1
    have hnl : ¬ ((c = '\r' ∨ c = '\n') ∧ (some q : Option Char) ≠ Option.none) := by
      rintro ⟨h1 | h1, -⟩
      · exact hb4 h1
      · exact hb5 h1
    have hnw : ¬ (c.isWhitespace = true ∧ (some q : Option Char) = Option.none) := by
      rintro ⟨-, hcon⟩; exact Option.noConfusion hcon
    have hns : ¬ (is_structural c = true ∧ false = false
        ∧ (some q : Option Char) = Option.none) := by
      rintro ⟨-, -, hcon⟩; exact Option.noConfusion hcon
    rw [scan_literal_other _ _ _ _ hc hb1 hng hnl hnw hns]
    have hshift : ∀ k, k < m →
        ∃ c, l.get? ((e + 1) + k) = some c ∧ str_char c = true := by
      intro k hk
      obtain ⟨c', hc', hs'⟩ := hp (k + 1) (by omega)
      exact ⟨c', by rwa [show e + (k + 1) = (e + 1) + k by omega] at hc', hs'⟩
    rw [ih (e + 1) hshift, show e + 1 + m = e + (m + 1) by omega]

/-- The full scan of a well-formed quoted string literal. -/
theorem scan_string (body rest : List Char)
    (h : ∀ c ∈ body, str_char c = true) (hstop : stopper_headed rest) :
    scan_literal ('"' :: (body ++ '"' :: rest)) 0 Option.none false false
      (by simp) = body.length + 2 := by
  have hget0 : ('"' :: (body ++ '"' :: rest)).get? 0 = some '"' := rfl
  have hmarch : ∀ k, k < body.length →
      ∃ c, ('"' :: (body ++ '"' :: rest)).get? (1 + k) = some c
        ∧ str_char c = true := by
    intro k hk
    have hg : ('"' :: (body ++ '"' :: rest)).get? (1 + k) = body.get? k := by
      rw [show 1 + k = k + 1 by omega, List.get?_cons_succ]
      exact List.get?_append hk
    cases hb : body.get? k with
    | none => exact absurd (List.get?_eq_none.mp hb) (by omega)
    | some c => exact ⟨c, by rw [hg, hb], h c (List.get?_mem hb)⟩
  have hgetq : ('"' :: (body ++ '"' :: rest)).get? (1 + body.length) = some '"' := by
    rw [show 1 + body.length = body.length + 1 by omega, List.get?_cons_succ,
      List.get?_append_right (le_refl body.length), Nat.sub_self]
    rfl
  have hgetstop : ('"' :: (body ++ '"' :: rest)).get? (body.length + 2)
      = rest.get? 0 := by
    rw [show body.length + 2 = (body.length + 1) + 1 by omega, List.get?_cons_succ,
      List.get?_append_right (by omega)]
    rw [show body.length + 1 - body.length = 1 by omega]
    rfl
  rw [scan_literal_quote Option.none false false _ hget0 (by decide)
    ⟨Or.inr rfl, rfl, rfl⟩]
  show scan_literal ('"' :: (body ++ '"' :: rest)) (0 + 1) (some '"') false false _ = _
  rw [show (0 : Nat) + 1 = 1 from rfl]
  rw [scan_march_in_quote ('"' :: (body ++ '"' :: rest)) '"' (Or.inr rfl)
    body.length 1 hmarch]
  rw [scan_literal_quote (some '"') false false _ hgetq (by decide)
    ⟨Or.inr rfl, rfl, rfl⟩]
  show scan_literal ('"' :: (body ++ '"' :: rest)) ((1 + body.length) + 1)
      Option.none false false _ = _
  rw [show (1 + body.length) + 1 = body.length + 2 by omega]
  rcases hstop with rfl | ⟨c, cs, rfl, hcw | hcs⟩
  · exact scan_literal_none Option.none false false _
      (by rw [hgetstop]; rfl)
  · exact scan_literal_ws Option.none false false _ (by rw [hgetstop]; rfl) hcw rfl
  · exact scan_literal_structural Option.none false false _
      (by rw [hgetstop]; rfl) hcs rfl rfl

/-- Reading a quoted string literal with safe body: one literal token with
the quotes kept in the token text. -/
theorem read_json_tag_quoted (body rest : List Char)
    (h : ∀ c ∈ body, str_char c = true) (hstop : stopper_headed rest) :
    read_json_tag (('"' :: (body ++ ['"'])) ++ rest)
      = (some (JsonTag.Literal ('"' :: (body ++ ['"']))), rest) := by
  have hshape : ('"' :: (body ++ ['"'])) ++ rest = '"' :: (body ++ '"' :: rest) := by
    simp
  rw [hshape, read_json_tag, if_neg (by decide), if_neg (by decide),
    if_neg (by decide), if_neg (by decide), if_neg (by decide),
    if_neg (by decide), if_neg (by decide)]
  show (some (JsonTag.Literal (('"' :: (body ++ '"' :: rest)).take
      (scan_literal ('"' :: (body ++ '"' :: rest)) 0 Option.none false false _))),
    ('"' :: (body ++ '"' :: rest)).drop
      (scan_literal ('"' :: (body ++ '"' :: rest)) 0 Option.none false false _)) = _
  rw [show scan_literal ('"' :: (body ++ '"' :: rest)) 0 Option.none false false
      read_json_tag.proof_2 = body.length + 2 from scan_string body rest h hstop]
  have htake : ('"' :: (body ++ '"' :: rest)).take (body.length + 2)
      = '"' :: (body ++ ['"']) := by
    rw [show body.length + 2 = (body.length + 1) + 1 by omega, List.take_succ_cons]
    congr 1
    rw [show body.length + 1 = body.length + 1 from rfl,
      show body ++ '"' :: rest = body ++ ['"'] ++ rest by simp,
      show body.length + 1 = (body ++ ['"']).length by simp,
      List.take_left]
  have hdrop : ('"' :: (body ++ '"' :: rest)).drop (body.length + 2) = rest := by
    rw [show body.length + 2 = (body.length + 1) + 1 by omega, List.drop_succ_cons,
      show body ++ '"' :: rest = body ++ ['"'] ++ rest by simp,
      show body.length + 1 = (body ++ ['"']).length by simp,
      List.drop_left]
  rw [htake, hdrop]

theorem fmt_indent_null (pretty : Bool) (iw : Nat) (npi : Bool) :
    fmt_indent JsonNode.PlainNull pretty iw npi
      = indent_spaces (if npi then 0 else (if pretty then iw else 0))
          ++ "null".toList := by
  rw [fmt_indent]

theorem fmt_indent_bool (pretty : Bool) (iw : Nat) (npi : Bool) (b : Bool) :
    fmt_indent (JsonNode.PlainBoolean b) pretty iw npi
      = indent_spaces (if npi then 0 else (if pretty then iw else 0))
          ++ (if b then "true".toList else "false".toList) := by
  rw [fmt_indent]

theorem fmt_indent_number (pretty : Bool) (iw : Nat) (npi : Bool) (q : Rat) :
    fmt_indent (JsonNode.PlainNumber q) pretty iw npi
      = indent_spaces (if npi then 0 else (if pretty then iw else 0))
          ++ f64_display q := by
  rw [fmt_indent]

theorem fmt_indent_string (pretty : Bool) (iw : Nat) (npi : Bool) (s : List Char) :
    fmt_indent (JsonNode.PlainString s) pretty iw npi
      = indent_spaces (if npi then 0 else (if pretty then iw else 0))
          ++ '"' :: (s ++ ['"']) := by
  rw [fmt_indent]

theorem fmt_indent_array (pretty : Bool) (iw : Nat) (npi : Bool)
    (es : List JsonNode) :
    fmt_indent (JsonNode.Array es) pretty iw npi
      = '[' :: ((if pretty then ['\n'] else [])
          ++ fmt_elems es pretty
              (if pretty then (if pretty then iw else 0) + 4 else 0)
              ((if pretty then [','] else [',', ' '])
                ++ (if pretty then ['\n'] else []))
          ++ (if pretty then ['\n'] else [])
          ++ indent_spaces (if pretty then iw else 0) ++ [']']) := by
  rw [fmt_indent]

theorem fmt_indent_object (pretty : Bool) (iw : Nat) (npi : Bool)
    (props : List (List Char × JsonNode)) :
    fmt_indent (JsonNode.Object props) pretty iw npi
      = '{' :: ((if pretty then ['\n'] else [])
          ++ fmt_props props pretty
              (if pretty then (if pretty then iw else 0) + 4 else 0)
              ((if pretty then [','] else [',', ' '])
                ++ (if pretty then ['\n'] else []))
          ++ (if pretty then ['\n'] else [])
          ++ indent_spaces (if pretty then iw else 0) ++ ['}']) := by
  rw [fmt_indent]

theorem fmt_elems_cons2 (x y : JsonNode) (xs : List JsonNode) (pretty : Bool)
    (niw : Nat) (sep : List Char) :
    fmt_elems (x :: y :: xs) pretty niw sep
      = fmt_indent x pretty niw false ++ sep
          ++ fmt_elems (y :: xs) pretty niw sep := by
  rw [fmt_elems]
  exact fun hcon => List.noConfusion hcon

theorem fmt_props_one (p : List Char × JsonNode) (pretty : Bool) (niw : Nat)
    (sep : List Char) :
    fmt_props [p] pretty niw sep
      = indent_spaces niw ++ '"' :: (p.1 ++ ['"', ':', ' '])
          ++ fmt_indent p.2 pretty niw true := by
  rw [fmt_props]

theorem fmt_props_cons2 (p q : List Char × JsonNode)
    (ps : List (List Char × JsonNode)) (pretty : Bool) (niw : Nat)
    (sep : List Char) :
    fmt_props (p :: q :: ps) pretty niw sep
      = indent_spaces niw ++ '"' :: (p.1 ++ ['"', ':', ' '])
          ++ fmt_indent p.2 pretty niw true ++ sep
          ++ fmt_props (q :: ps) pretty niw sep := by
  rw [fmt_props]
  exact fun hcon => List.noConfusion hcon

/-- The tokenizer recovers the canonical token stream of a serialized safe
document, for the compact and the pretty rendering alike: the renderings
differ only in whitespace. -/
theorem tokenize_fmt_strong :
    ∀ (N : Nat) (d : JsonNode), sizeOf d ≤ N → Safe d →
      ∀ (pretty : Bool) (iw : Nat) (npi : Bool) (suf : List Char),
        stopper_headed suf →
        JsonTag.parse (fmt_indent d pretty iw npi ++ suf)
          = toks d ++ JsonTag.parse suf := by
  intro N
  induction N with
  | zero =>
    intro d hle
    exfalso
    cases d <;> simp at hle
  | succ N ihN =>
    intro d hle hsafe pretty iw npi suf hstop
    have hE : ∀ c ∈ (if pretty then ['\n'] else ([] : List Char)),
        c.isWhitespace = true := by
      intro c hc
      cases pretty
      · simp at hc
      · rw [if_pos rfl, List.mem_singleton] at hc
        subst hc
        decide
    have hlit : ∀ (body : List Char), body ≠ [] →
        (∀ c ∈ body, plain_char c = true) → ∀ piw : Nat,
        JsonTag.parse ((indent_spaces piw ++ body) ++ suf)
          = JsonTag.Literal body :: JsonTag.parse suf := by
      intro body hb hplain piw
      rw [List.append_assoc, tokenize_ws_prefix_eq (indent_spaces_ws piw),
        tokenize_of_some (read_json_tag_plain body suf hb hplain hstop)]
    cases d with
    | PlainNull =>
      rw [fmt_indent_null, toks]
      exact hlit "null".toList (by decide) (by decide) _
    | PlainBoolean b =>
      cases b <;> rw [fmt_indent_bool, toks]
      · exact hlit "false".toList (by decide) (by decide) _
      · exact hlit "true".toList (by decide) (by decide) _
    | PlainNumber q =>
      rw [Safe] at hsafe
      obtain ⟨hden, hnum, -⟩ := hsafe
      have hdisp : f64_display q = nat_digits q.num.toNat := by
        unfold f64_display
        rw [if_pos ⟨hden, hnum⟩]
      rw [fmt_indent_number, toks, hdisp]
      exact hlit (nat_digits q.num.toNat) (nat_digits_ne _)
        (fun c hc => digit_plain (nat_digits_all_digit _ c hc)) _
    | PlainString s =>
      rw [Safe] at hsafe
      rw [fmt_indent_string, toks, List.append_assoc,
        tokenize_ws_prefix_eq (indent_spaces_ws _)]
      show JsonTag.parse (('"' :: (s ++ ['"'])) ++ suf) = _
      rw [tokenize_of_some (read_json_tag_quoted s suf hsafe hstop)]
      rfl
    | Array es =>
      rw [Safe] at hsafe
      have hsizes : ∀ x ∈ es, sizeOf x ≤ N := by
        intro x hx
        have h1 : sizeOf x < sizeOf es := List.sizeOf_lt_of_mem hx
        have h2 : sizeOf (JsonNode.Array es) = 1 + sizeOf es := by simp
        omega
      have helems : ∀ (es' : List JsonNode), (∀ x ∈ es', sizeOf x ≤ N) →
          (∀ x ∈ es', Safe x) → ∀ (niw : Nat) (tail suf2 : List Char),
          (∀ c ∈ tail, c.isWhitespace = true) → stopper_headed suf2 →
          JsonTag.parse (fmt_elems es' pretty niw (',' :: tail) ++ suf2)
            = toks_elems es' ++ JsonTag.parse suf2 := by
        intro es'
        induction es' with
        | nil =>
          intro _ _ niw tail suf2 _ _
          rw [fmt_elems, toks_elems]
          rfl
        | cons x xs ihes =>
          intro hsz hsf niw tail suf2 htail hsuf2
          cases xs with
          | nil =>
            rw [fmt_elems, toks_elems]
            exact ihN x (hsz x (List.mem_cons_self x []))
              (hsf x (List.mem_cons_self x [])) pretty niw false suf2 hsuf2
          | cons y ys =>
            rw [fmt_elems_cons2, toks_elems]
            rw [List.append_assoc, List.append_assoc]
            rw [ihN x (hsz x (List.mem_cons_self x (y :: ys)))
              (hsf x (List.mem_cons_self x (y :: ys))) pretty niw false
              ((',' :: tail) ++ (fmt_elems (y :: ys) pretty niw (',' :: tail) ++ suf2))
              (Or.inr ⟨',', _, rfl, Or.inr (by decide)⟩)]
            show toks x ++ JsonTag.parse (',' :: (tail
                ++ (fmt_elems (y :: ys) pretty niw (',' :: tail) ++ suf2)))
              = (toks x ++ JsonTag.Comma :: toks_elems (y :: ys))
                  ++ JsonTag.parse suf2
            rw [tokenize_of_some (read_comma _), tokenize_ws_prefix_eq htail,
              ihes (fun z hz => hsz z (List.mem_cons_of_mem x hz))
                (fun z hz => hsf z (List.mem_cons_of_mem x hz)) niw tail suf2
                htail hsuf2]
            simp
      rw [fmt_indent_array]
      show JsonTag.parse ('[' :: (((if pretty then ['\n'] else [])
          ++ fmt_elems es pretty _ _ ++ (if pretty then ['\n'] else [])
          ++ indent_spaces (if pretty then iw else 0) ++ [']']) ++ suf)) = _
      rw [tokenize_of_some (read_left_square _)]
      rw [show ((if pretty then ['\n'] else [])
          ++ fmt_elems es pretty (if pretty then (if pretty then iw else 0) + 4 else 0)
              ((if pretty then [','] else [',', ' ']) ++ (if pretty then ['\n'] else []))
          ++ (if pretty then ['\n'] else [])
          ++ indent_spaces (if pretty then iw else 0) ++ [']']) ++ suf
        = (if pretty then ['\n'] else [])
          ++ (fmt_elems es pretty (if pretty then (if pretty then iw else 0) + 4 else 0)
              ((if pretty then [','] else [',', ' ']) ++ (if pretty then ['\n'] else []))
            ++ ((if pretty then ['\n'] else [])
              ++ (indent_spaces (if pretty then iw else 0) ++ (']' :: suf))))
        by simp]
      rw [tokenize_ws_prefix_eq hE]
      have hsep : (if pretty then [','] else [',', ' '])
          ++ (if pretty then ['\n'] else [])
        = ',' :: ((if pretty then [] else [' '])
            ++ (if pretty then ['\n'] else [])) := by
        cases pretty <;> rfl
      have htailws : ∀ c ∈ ((if pretty then [] else [' '])
          ++ (if pretty then ['\n'] else ([] : List Char))), c.isWhitespace = true := by
        intro c hc
        cases pretty <;> simp at hc <;> (subst hc; decide)
      have hsuf2 : stopper_headed ((if pretty then ['\n'] else [])
          ++ (indent_spaces (if pretty then iw else 0) ++ (']' :: suf))) := by
        cases pretty
        · refine Or.inr ⟨']', suf, ?_, Or.inr (by decide)⟩
          simp [indent_spaces]
        · exact Or.inr ⟨'\n', _, rfl, Or.inl (by decide)⟩
      rw [hsep, helems es hsizes hsafe _ _ _ htailws hsuf2,
        tokenize_ws_prefix_eq hE, tokenize_ws_prefix_eq (indent_spaces_ws _),
        tokenize_of_some (read_right_square _)]
      rw [toks]
      simp
    | Object props =>
      rw [Safe] at hsafe
      have hsizes : ∀ p ∈ props, sizeOf p.2 ≤ N := by
        intro p hp
        have h1 : sizeOf p < sizeOf props := List.sizeOf_lt_of_mem hp
        have h2 : sizeOf (JsonNode.Object props) = 1 + sizeOf props := by simp
        have h3 : sizeOf p.2 < sizeOf p := by
          obtain ⟨a, b⟩ := p
          simp
        omega
      have hprops : ∀ (pl : List (List Char × JsonNode)),
          (∀ p ∈ pl, sizeOf p.2 ≤ N) →
          (∀ p ∈ pl, (∀ c ∈ p.1, str_char c = true) ∧ Safe p.2) →
          ∀ (niw : Nat) (tail suf2 : List Char),
          (∀ c ∈ tail, c.isWhitespace = true) → stopper_headed suf2 →
          JsonTag.parse (fmt_props pl pretty niw (',' :: tail) ++ suf2)
            = toks_props pl ++ JsonTag.parse suf2 := by
        intro pl
        induction pl with
        | nil =>
          intro _ _ niw tail suf2 _ _
          rw [fmt_props, toks_props]
          rfl
        | cons p ps ihps =>
          intro hsz hsf niw tail suf2 htail hsuf2
          have hname := (hsf p (List.mem_cons_self p ps)).1
          have hval := (hsf p (List.mem_cons_self p ps)).2
          have hpsz := hsz p (List.mem_cons_self p ps)
          cases ps with
          | nil =>
            rw [fmt_props_one, toks_props]
            rw [List.append_assoc, List.append_assoc,
              tokenize_ws_prefix_eq (indent_spaces_ws _)]
            rw [show '"' :: (p.1 ++ ['"', ':', ' '])
                ++ (fmt_indent p.2 pretty niw true ++ suf2)
              = ('"' :: (p.1 ++ ['"'])) ++ (':' :: ' '
                  :: (fmt_indent p.2 pretty niw true ++ suf2)) by simp]
            rw [tokenize_of_some (read_json_tag_quoted p.1 _ hname
              (Or.inr ⟨':', _, rfl, Or.inr (by decide)⟩))]
            rw [tokenize_of_some (read_colon _)]
            rw [show (' ' :: (fmt_indent p.2 pretty niw true ++ suf2))
              = [' '] ++ (fmt_indent p.2 pretty niw true ++ suf2) from rfl]
            rw [tokenize_ws_prefix_eq (by
              intro c hc
              rw [List.mem_singleton] at hc
              subst hc
              decide)]
            rw [ihN p.2 hpsz hval pretty niw true suf2 hsuf2]
            simp
          | cons q qs =>
            rw [fmt_props_cons2, toks_props]
            rw [List.append_assoc, List.append_assoc, List.append_assoc,
              List.append_assoc, tokenize_ws_prefix_eq (indent_spaces_ws _)]
            rw [show '"' :: (p.1 ++ ['"', ':', ' '])
                ++ (fmt_indent p.2 pretty niw true ++ ((',' :: tail)
                  ++ (fmt_props (q :: qs) pretty niw (',' :: tail) ++ suf2)))
              = ('"' :: (p.1 ++ ['"'])) ++ (':' :: ' '
                  :: (fmt_indent p.2 pretty niw true ++ ((',' :: tail)
                    ++ (fmt_props (q :: qs) pretty niw (',' :: tail) ++ suf2))))
              by simp]
            rw [tokenize_of_some (read_json_tag_quoted p.1 _ hname
              (Or.inr ⟨':', _, rfl, Or.inr (by decide)⟩))]
            rw [tokenize_of_some (read_colon _)]
            rw [show (' ' :: (fmt_indent p.2 pretty niw true ++ ((',' :: tail)
                ++ (fmt_props (q :: qs) pretty niw (',' :: tail) ++ suf2))))
              = [' '] ++ (fmt_indent p.2 pretty niw true ++ ((',' :: tail)
                ++ (fmt_props (q :: qs) pretty niw (',' :: tail) ++ suf2)))
              from rfl]
            rw [tokenize_ws_prefix_eq (by
              intro c hc
              rw [List.mem_singleton] at hc
              subst hc
              decide)]
            rw [ihN p.2 hpsz hval pretty niw true
              ((',' :: tail) ++ (fmt_props (q :: qs) pretty niw (',' :: tail) ++ suf2))
              (Or.inr ⟨',', tail ++ (fmt_props (q :: qs) pretty niw (',' :: tail) ++ suf2),
                rfl, Or.inr (by decide)⟩)]
            rw [show (',' :: tail) ++ (fmt_props (q :: qs) pretty niw (',' :: tail) ++ suf2)
              = ',' :: (tail ++ (fmt_props (q :: qs) pretty niw (',' :: tail) ++ suf2))
              from rfl]
            rw [tokenize_of_some (read_comma _), tokenize_ws_prefix_eq htail,
              ihps (fun z hz => hsz z (List.mem_cons_of_mem p hz))
                (fun z hz => hsf z (List.mem_cons_of_mem p hz)) niw tail suf2
                htail hsuf2]
            simp
      rw [fmt_indent_object]
      show JsonTag.parse ('{' :: (((if pretty then ['\n'] else [])
          ++ fmt_props props pretty _ _ ++ (if pretty then ['\n'] else [])
          ++ indent_spaces (if pretty then iw else 0) ++ ['}']) ++ suf)) = _
      rw [tokenize_of_some (read_left_curly _)]
      rw [show ((if pretty then ['\n'] else [])
          ++ fmt_props props pretty (if pretty then (if pretty then iw else 0) + 4 else 0)
              ((if pretty then [','] else [',', ' ']) ++ (if pretty then ['\n'] else []))
          ++ (if pretty then ['\n'] else [])
          ++ indent_spaces (if pretty then iw else 0) ++ ['}']) ++ suf
        = (if pretty then ['\n'] else [])
          ++ (fmt_props props pretty (if pretty then (if pretty then iw else 0) + 4 else 0)
              ((if pretty then [','] else [',', ' ']) ++ (if pretty then ['\n'] else []))
            ++ ((if pretty then ['\n'] else [])
              ++ (indent_spaces (if pretty then iw else 0) ++ ('}' :: suf))))
        by simp]
      rw [tokenize_ws_prefix_eq hE]
      have hsep : (if pretty then [','] else [',', ' '])
          ++ (if pretty then ['\n'] else [])
        = ',' :: ((if pretty then [] else [' '])
            ++ (if pretty then ['\n'] else [])) := by
        cases pretty <;> rfl
      have htailws : ∀ c ∈ ((if pretty then [] else [' '])
          ++ (if pretty then ['\n'] else ([] : List Char))), c.isWhitespace = true := by
        intro c hc
        cases pretty <;> simp at hc <;> (subst hc; decide)
      have hsuf2 : stopper_headed ((if pretty then ['\n'] else [])
          ++ (indent_spaces (if pretty then iw else 0) ++ ('}' :: suf))) := by
        cases pretty
        · refine Or.inr ⟨'}', suf, ?_, Or.inr (by decide)⟩
          simp [indent_spaces]
        · exact Or.inr ⟨'\n', _, rfl, Or.inl (by decide)⟩
      rw [hsep, hprops props hsizes hsafe _ _ _ htailws hsuf2,
        tokenize_ws_prefix_eq hE, tokenize_ws_prefix_eq (indent_spaces_ws _),
        tokenize_of_some (read_right_curly _)]
      rw [toks]
      simp

def tag_count (t : JsonTag) (l : List JsonTag) : Nat :=
  (l.filter (· = t)).length

theorem tag_count_nil (t : JsonTag) : tag_count t [] = 0 := rfl

theorem tag_count_cons (t c : JsonTag) (l : List JsonTag) :
    tag_count t (c :: l) = (if c = t then 1 else 0) + tag_count t l := by
  by_cases h : c = t
  · simp [tag_count, List.filter_cons, h]
    omega
  · simp [tag_count, List.filter_cons, h]

theorem tag_count_append (t : JsonTag) (a b : List JsonTag) :
    tag_count t (a ++ b) = tag_count t a + tag_count t b := by
  simp [tag_count, List.filter_append]

/-- Same-kind bracket discipline of a tag segment: left and right tags of
the pair balance out, and no prefix closes more than it has opened. -/
def bal_ok (lt rt : JsonTag) (l : List JsonTag) : Prop :=
  tag_count lt l = tag_count rt l
    ∧ ∀ n, tag_count rt (l.take n) ≤ tag_count lt (l.take n)

theorem bal_ok_nil (lt rt : JsonTag) : bal_ok lt rt [] :=
  ⟨rfl, fun n => by simp [tag_count]⟩

theorem bal_ok_single (lt rt t : JsonTag) (h1 : t ≠ lt) (h2 : t ≠ rt) :
    bal_ok lt rt [t] := by
  constructor
  · rw [tag_count_cons, tag_count_cons, if_neg h1, if_neg h2,
      tag_count_nil, tag_count_nil]
  · intro n
    match n with
    | 0 => simp [tag_count]
    | k + 1 =>
      show tag_count rt ([t].take (k + 1)) ≤ tag_count lt ([t].take (k + 1))
      rw [List.take_succ_cons, List.take_nil, tag_count_cons, tag_count_cons,
        if_neg h1, if_neg h2, tag_count_nil, tag_count_nil]

theorem bal_ok_append {lt rt : JsonTag} {a b : List JsonTag}
    (ha : bal_ok lt rt a) (hb : bal_ok lt rt b) : bal_ok lt rt (a ++ b) := by
  constructor
  · rw [tag_count_append, tag_count_append, ha.1, hb.1]
  · intro n
    rw [List.take_append_eq_append_take, tag_count_append, tag_count_append]
    have h1 := ha.2 n
    have h2 := hb.2 (n - a.length)
    have h3 := ha.1
    have h4 : tag_count lt (a.take n) ≤ tag_count lt a := by
      simp only [tag_count]
      have := List.take_sublist n a
      exact List.Sublist.length_le (List.Sublist.filter _ this)
    omega

theorem bal_ok_wrap {lt rt : JsonTag} {inner : List JsonTag} (hne : lt ≠ rt)
    (h : bal_ok lt rt inner) : bal_ok lt rt (lt :: (inner ++ [rt])) := by
  constructor
  · rw [tag_count_cons, tag_count_cons, if_pos rfl, if_neg hne,
      tag_count_append, tag_count_append, h.1, tag_count_cons, tag_count_cons,
      if_neg (fun hcon => hne hcon.symm), if_pos rfl, tag_count_nil,
      tag_count_nil]
    omega
  · intro n
    match n with
    | 0 => simp [tag_count]
    | k + 1 =>
      rw [List.take_succ_cons, tag_count_cons, tag_count_cons, if_pos rfl,
        if_neg hne, List.take_append_eq_append_take, tag_count_append,
        tag_count_append]
      have h1 := h.2 k
      have h2 : tag_count rt ([rt].take (k - inner.length))
          ≤ 1 := by
        match (k - inner.length) with
        | 0 => simp [tag_count]
        | j + 1 =>
          rw [List.take_succ_cons, List.take_nil, tag_count_cons, if_pos rfl,
            tag_count_nil]
      have h3 : tag_count lt (inner.take k) ≤ tag_count lt inner := by
        simp only [tag_count]
        exact List.Sublist.length_le (List.Sublist.filter _ (List.take_sublist k inner))
      have h4 : tag_count rt ([rt].take (k - inner.length)) ≥ 1
          → inner.length ≤ k := by
        intro hge
        by_contra hlt
        rw [show k - inner.length = 0 by omega] at hge
        simp [tag_count] at hge
      have h5 : inner.length ≤ k → inner.take k = inner := by
        intro hle
        exact List.take_of_length_le hle
      have h6 := h.1
      have h7 : tag_count lt ([rt].take (k - inner.length)) + 0
      ≥ 0 := by omega
      by_cases hk : inner.length ≤ k
      · rw [h5 hk] at h1 ⊢
        omega
      · rw [show k - inner.length = 0 by omega]
        simp only [List.take_zero, tag_count_nil]
        omega

/-- Running the matching-bracket scan over a balanced window only moves the
index across it, restoring the mismatch counter. -/
theorem fm_skip (lt rt : JsonTag) (hne : lt ≠ rt) :
    ∀ (seg tags : List JsonTag) (i m : Nat),
      (∀ k, k < seg.length → tags.get? (i + k) = seg.get? k) →
      (∀ n, n ≤ seg.length →
        tag_count rt (seg.take n) ≤ m + tag_count lt (seg.take n)) →
      find_match_loop tags lt rt i m
        = find_match_loop tags lt rt (i + seg.length)
            (m + tag_count lt seg - tag_count rt seg) := by
  intro seg
  induction seg with
  | nil =>
    intro tags i m _ _
    rw [List.length_nil, Nat.add_zero, tag_count_nil, tag_count_nil,
      Nat.add_zero, Nat.sub_zero]
  | cons c cs ih =>
    intro tags i m hwin hpre
    have hc : tags.get? i = some c := by
      have := hwin 0 (by simp)
      rwa [Nat.add_zero] at this
    have hm1 := hpre 1 (by simp)
    rw [List.take_succ_cons, List.take_zero, tag_count_cons, tag_count_cons,
      tag_count_nil, tag_count_nil] at hm1
    have hguard : ¬ (c = rt ∧ m = 0) := by
      rintro ⟨rfl, rfl⟩
      rw [if_pos rfl, if_neg (fun hcon => hne hcon.symm)] at hm1
      omega
    rw [find_match_loop_step hc hguard]
    have hwin' : ∀ k, k < cs.length → tags.get? ((i + 1) + k) = cs.get? k := by
      intro k hk
      have := hwin (k + 1) (by simp; omega)
      rwa [show i + (k + 1) = (i + 1) + k by omega, List.get?_cons_succ] at this
    have hstep : (if c = lt then m + 1 else if c = rt then m - 1 else m)
        = m + (if c = lt then 1 else 0) - (if c = rt then 1 else 0) := by
      by_cases h1 : c = lt
      · rw [if_pos h1, if_pos h1, if_neg (by rw [h1]; exact hne)]
        omega
      · by_cases h2 : c = rt
        · rw [if_neg h1, if_pos h2, if_neg h1, if_pos h2]
          omega
        · rw [if_neg h1, if_neg h2, if_neg h1, if_neg h2]
          omega
    have hpre' : ∀ n, n ≤ cs.length →
        tag_count rt (cs.take n)
          ≤ (m + (if c = lt then 1 else 0) - (if c = rt then 1 else 0))
            + tag_count lt (cs.take n) := by
      intro n hn
      have := hpre (n + 1) (by simp; omega)
      rw [List.take_succ_cons, tag_count_cons, tag_count_cons] at this
      by_cases h1 : c = lt
      · rw [if_pos h1, if_neg (by rw [h1]; exact hne)] at this ⊢
        omega
      · by_cases h2 : c = rt
        · rw [if_neg h1, if_pos h2] at this ⊢
          rw [if_pos h2, if_neg h1] at hm1
          omega
        · rw [if_neg h1, if_neg h2] at this ⊢
          omega
    rw [hstep, ih tags (i + 1) _ hwin' hpre']
    rw [show i + (c :: cs).length = (i + 1) + cs.length
      by rw [List.length_cons]; omega]
    congr 1
    rw [tag_count_cons, tag_count_cons]
    by_cases h1 : c = lt
    · rw [if_pos h1, if_neg (by rw [h1]; exact hne)]
      omega
    · by_cases h2 : c = rt
      · rw [if_neg h1, if_pos h2]
        rw [if_pos h2, if_neg h1] at hm1
        omega
      · rw [if_neg h1, if_neg h2]
        omega

theorem get?_at_append (front X : List JsonTag) (k : Nat) :
    (front ++ X).get? (front.length + k) = X.get? k := by
  rw [List.get?_append_right (by omega)]
  congr 1
  omega

/-- `find_match_tag` on a window `lt inner rt` with balanced interior finds
exactly the closing tag of the window. -/
theorem find_match_toks {lt rt : JsonTag} (hne : lt ≠ rt)
    {inner : List JsonTag} (hbal : bal_ok lt rt inner)
    (front rest : List JsonTag) :
    find_match_tag (front ++ ((lt :: (inner ++ [rt])) ++ rest)) front.length lt rt
      = .ok (front.length + inner.length + 1) := by
  unfold find_match_tag
  have hwin : ∀ k, k < inner.length →
      (front ++ ((lt :: (inner ++ [rt])) ++ rest)).get? ((front.length + 1) + k)
        = inner.get? k := by
    intro k hk
    rw [show (front.length + 1) + k = front.length + (1 + k) by omega,
      get?_at_append front _ (1 + k),
      show (lt :: (inner ++ [rt])) ++ rest = lt :: ((inner ++ [rt]) ++ rest)
        from rfl,
      show 1 + k = k + 1 by omega, List.get?_cons_succ, List.append_assoc]
    exact List.get?_append hk
  have hpre : ∀ n, n ≤ inner.length →
      tag_count rt (inner.take n) ≤ 0 + tag_count lt (inner.take n) := by
    intro n _
    rw [Nat.zero_add]
    exact hbal.2 n
  rw [fm_skip lt rt hne inner _ (front.length + 1) 0 hwin hpre]
  have hget : (front ++ ((lt :: (inner ++ [rt])) ++ rest)).get?
      ((front.length + 1) + inner.length) = some rt := by
    rw [show (front.length + 1) + inner.length
        = front.length + (1 + inner.length) by omega,
      get?_at_append front _ (1 + inner.length),
      show (lt :: (inner ++ [rt])) ++ rest = lt :: ((inner ++ [rt]) ++ rest)
        from rfl,
      show 1 + inner.length = inner.length + 1 by omega, List.get?_cons_succ,
      List.append_assoc, List.get?_append_right (le_refl _), Nat.sub_self]
    rfl
  rw [find_match_loop_break hget ⟨rfl, by rw [hbal.1]; omega⟩]
  congr 1
  omega

theorem tag_slice_append (front seg rest : List JsonTag) (h : seg ≠ []) :
    tag_slice (front ++ (seg ++ rest)) front.length
      (front.length + (seg.length - 1)) = seg := by
  unfold tag_slice
  rw [List.drop_left]
  have hlen : 0 < seg.length := List.length_pos.mpr h
  rw [show front.length + (seg.length - 1) - front.length + 1 = seg.length
    by omega]
  exact List.take_left seg rest

theorem trim_square_wrap (inner : List JsonTag) :
    trim_square (JsonTag.LeftSquare :: (inner ++ [JsonTag.RightSquare]))
      = inner := by
  unfold trim_square
  rw [if_pos ⟨rfl, by
    rw [show JsonTag.LeftSquare :: (inner ++ [JsonTag.RightSquare])
      = (JsonTag.LeftSquare :: inner) ++ [JsonTag.RightSquare] from rfl]
    exact List.getLast?_concat _⟩]
  show (inner ++ [JsonTag.RightSquare]).dropLast = inner
  exact List.dropLast_concat ..

theorem trim_curly_wrap (inner : List JsonTag) :
    trim_curly (JsonTag.LeftCurly :: (inner ++ [JsonTag.RightCurly]))
      = inner := by
  unfold trim_curly
  rw [if_pos ⟨rfl, by
    rw [show JsonTag.LeftCurly :: (inner ++ [JsonTag.RightCurly])
      = (JsonTag.LeftCurly :: inner) ++ [JsonTag.RightCurly] from rfl]
    exact List.getLast?_concat _⟩]
  show (inner ++ [JsonTag.RightCurly]).dropLast = inner
  exact List.dropLast_concat ..

theorem toks_bal_strong :
    ∀ (N : Nat) (d : JsonNode), sizeOf d ≤ N →
      bal_ok JsonTag.LeftSquare JsonTag.RightSquare (toks d)
      ∧ bal_ok JsonTag.LeftCurly JsonTag.RightCurly (toks d) := by
  intro N
  induction N with
  | zero =>
    intro d hle
    exfalso
    cases d <;> simp at hle
  | succ N ihN =>
    intro d hle
    have hlit : ∀ s : List Char,
        bal_ok JsonTag.LeftSquare JsonTag.RightSquare [JsonTag.Literal s]
        ∧ bal_ok JsonTag.LeftCurly JsonTag.RightCurly [JsonTag.Literal s] :=
      fun s => ⟨bal_ok_single _ _ _ (fun h => JsonTag.noConfusion h)
          (fun h => JsonTag.noConfusion h),
        bal_ok_single _ _ _ (fun h => JsonTag.noConfusion h)
          (fun h => JsonTag.noConfusion h)⟩
    cases d with
    | PlainNull => rw [toks]; exact hlit _
    | PlainBoolean b => rw [toks]; exact hlit _
    | PlainNumber q => rw [toks]; exact hlit _
    | PlainString s => rw [toks]; exact hlit _
    | Array es =>
      have hsizes : ∀ x ∈ es, sizeOf x ≤ N := by
        intro x hx
        have h1 : sizeOf x < sizeOf es := List.sizeOf_lt_of_mem hx
        have h2 : sizeOf (JsonNode.Array es) = 1 + sizeOf es := by simp
        omega
      have helems : ∀ (es' : List JsonNode), (∀ x ∈ es', sizeOf x ≤ N) →
          bal_ok JsonTag.LeftSquare JsonTag.RightSquare (toks_elems es')
          ∧ bal_ok JsonTag.LeftCurly JsonTag.RightCurly (toks_elems es') := by
        intro es'
        induction es' with
        | nil => intro _; rw [toks_elems]; exact ⟨bal_ok_nil _ _, bal_ok_nil _ _⟩
        | cons x xs ihes =>
          intro hsz
          cases xs with
          | nil =>
            rw [toks_elems]
            exact ihN x (hsz x (List.mem_cons_self x []))
          | cons y ys =>
            rw [toks_elems]
            have h1 := ihN x (hsz x (List.mem_cons_self x (y :: ys)))
            have h2 := ihes (fun z hz => hsz z (List.mem_cons_of_mem x hz))
            have hcomma : bal_ok JsonTag.LeftSquare JsonTag.RightSquare
                  [JsonTag.Comma]
                ∧ bal_ok JsonTag.LeftCurly JsonTag.RightCurly [JsonTag.Comma] :=
              ⟨bal_ok_single _ _ _ (fun h => JsonTag.noConfusion h)
                  (fun h => JsonTag.noConfusion h),
                bal_ok_single _ _ _ (fun h => JsonTag.noConfusion h)
                  (fun h => JsonTag.noConfusion h)⟩
            refine ⟨bal_ok_append h1.1 ?_, bal_ok_append h1.2 ?_⟩
            · exact bal_ok_append hcomma.1 h2.1
            · exact bal_ok_append hcomma.2 h2.2
      rw [toks]
      constructor
      · exact bal_ok_wrap (fun h => JsonTag.noConfusion h) (helems es hsizes).1
      · have h1 : bal_ok JsonTag.LeftCurly JsonTag.RightCurly [JsonTag.LeftSquare] :=
          bal_ok_single _ _ _ (fun h => JsonTag.noConfusion h)
            (fun h => JsonTag.noConfusion h)
        have h2 : bal_ok JsonTag.LeftCurly JsonTag.RightCurly [JsonTag.RightSquare] :=
          bal_ok_single _ _ _ (fun h => JsonTag.noConfusion h)
            (fun h => JsonTag.noConfusion h)
        exact bal_ok_append h1
          (bal_ok_append (helems es hsizes).2 h2)
    | Object props =>
      have hsizes : ∀ p ∈ props, sizeOf p.2 ≤ N := by
        intro p hp
        have h1 : sizeOf p < sizeOf props := List.sizeOf_lt_of_mem hp
        have h2 : sizeOf (JsonNode.Object props) = 1 + sizeOf props := by simp
        have h3 : sizeOf p.2 < sizeOf p := by
          obtain ⟨a, b⟩ := p
          simp
        omega
      have hsingles : ∀ t : JsonTag, t ≠ JsonTag.LeftSquare →
          t ≠ JsonTag.RightSquare → t ≠ JsonTag.LeftCurly →
          t ≠ JsonTag.RightCurly →
          bal_ok JsonTag.LeftSquare JsonTag.RightSquare [t]
          ∧ bal_ok JsonTag.LeftCurly JsonTag.RightCurly [t] :=
        fun t h1 h2 h3 h4 => ⟨bal_ok_single _ _ _ h1 h2, bal_ok_single _ _ _ h3 h4⟩
      have hprops : ∀ (pl : List (List Char × JsonNode)),
          (∀ p ∈ pl, sizeOf p.2 ≤ N) →
          bal_ok JsonTag.LeftSquare JsonTag.RightSquare (toks_props pl)
          ∧ bal_ok JsonTag.LeftCurly JsonTag.RightCurly (toks_props pl) := by
        intro pl
        induction pl with
        | nil => intro _; rw [toks_props]; exact ⟨bal_ok_nil _ _, bal_ok_nil _ _⟩
        | cons p ps ihps =>
          intro hsz
          have hv := ihN p.2 (hsz p (List.mem_cons_self p ps))
          have hname := hsingles (JsonTag.Literal ('"' :: (p.1 ++ ['"'])))
            (fun h => JsonTag.noConfusion h) (fun h => JsonTag.noConfusion h)
            (fun h => JsonTag.noConfusion h) (fun h => JsonTag.noConfusion h)
          have hcolon := hsingles JsonTag.Colon
            (fun h => JsonTag.noConfusion h) (fun h => JsonTag.noConfusion h)
            (fun h => JsonTag.noConfusion h) (fun h => JsonTag.noConfusion h)
          cases ps with
          | nil =>
            rw [toks_props]
            refine ⟨?_, ?_⟩
            · exact bal_ok_append
                hname.1 (bal_ok_append hcolon.1 hv.1)
            · exact bal_ok_append
                hname.2 (bal_ok_append hcolon.2 hv.2)
          | cons q qs =>
            rw [toks_props]
            have h2 := ihps (fun z hz => hsz z (List.mem_cons_of_mem p hz))
            have hcomma := hsingles JsonTag.Comma
              (fun h => JsonTag.noConfusion h) (fun h => JsonTag.noConfusion h)
              (fun h => JsonTag.noConfusion h) (fun h => JsonTag.noConfusion h)
            refine ⟨?_, ?_⟩
            · exact bal_ok_append
                (bal_ok_append hname.1 (bal_ok_append hcolon.1 hv.1))
                (bal_ok_append hcomma.1 h2.1)
            · exact bal_ok_append
                (bal_ok_append hname.2 (bal_ok_append hcolon.2 hv.2))
                (bal_ok_append hcomma.2 h2.2)
      rw [toks]
      constructor
      · have h1 : bal_ok JsonTag.LeftSquare JsonTag.RightSquare [JsonTag.LeftCurly] :=
          bal_ok_single _ _ _ (fun h => JsonTag.noConfusion h)
            (fun h => JsonTag.noConfusion h)
        have h2 : bal_ok JsonTag.LeftSquare JsonTag.RightSquare [JsonTag.RightCurly] :=
          bal_ok_single _ _ _ (fun h => JsonTag.noConfusion h)
            (fun h => JsonTag.noConfusion h)
        exact bal_ok_append h1
          (bal_ok_append (hprops props hsizes).1 h2)
      · exact bal_ok_wrap (fun h => JsonTag.noConfusion h) (hprops props hsizes).2

theorem parse_tags_from_none {tags : List JsonTag} {i : Nat}
    (h : tags.get? i = Option.none) : parse_tags_from tags i = .ok [] := by
  rw [parse_tags_from]
  split
  · rfl
  · rename_i lit hc; rw [h] at hc; exact Option.noConfusion hc
  · rename_i hc; rw [h] at hc; exact Option.noConfusion hc
  · rename_i hc; rw [h] at hc; exact Option.noConfusion hc
  · rename_i t hc; rw [h] at hc; exact Option.noConfusion hc

theorem parse_tags_from_lit {tags : List JsonTag} {i : Nat} {lit : List Char}
    {n : JsonNode} {ns : List JsonNode}
    (hget : tags.get? i = some (JsonTag.Literal lit))
    (hplain : parse_plain lit = .ok n)
    (hrest : parse_tags_from tags (i + 1) = .ok ns) :
    parse_tags_from tags i = .ok (n :: ns) := by
  rw [parse_tags_from]
  split
  · rename_i hc; rw [hget] at hc; exact Option.noConfusion hc
  · rename_i lit' hc
    rw [hget] at hc
    cases Option.some.inj hc
    rw [hplain, hrest]
  · rename_i hc; rw [hget] at hc
    exact JsonTag.noConfusion (Option.some.inj hc)
  · rename_i hc; rw [hget] at hc
    exact JsonTag.noConfusion (Option.some.inj hc)
  · rename_i t hnl hns hnc hc
    rw [hget] at hc
    exact absurd (Option.some.inj hc).symm (hnl lit)

theorem parse_tags_from_square {tags : List JsonTag} {i j : Nat}
    {elems : List JsonNode} {ns : List JsonNode}
    (hget : tags.get? i = some JsonTag.LeftSquare)
    (hj : find_match_tag tags i JsonTag.LeftSquare JsonTag.RightSquare = .ok j)
    (harr : parse_array_loop (trim_square (tag_slice tags i j)) 0 = .ok elems)
    (hrest : parse_tags_from tags (j + 1) = .ok ns) :
    parse_tags_from tags i = .ok (JsonNode.Array elems :: ns) := by
  rw [parse_tags_from]
  split
  · rename_i hc; rw [hget] at hc; exact Option.noConfusion hc
  · rename_i lit' hc
    rw [hget] at hc
    exact JsonTag.noConfusion (Option.some.inj hc)
  · rename_i hc
    rw [hget] at hc
    split
    · rename_i e hj'
      rw [hj] at hj'
      exact Except.noConfusion hj'
    · rename_i j' hj'
      rw [hj] at hj'
      cases Except.ok.inj hj'
      rw [harr, hrest]
  · rename_i hc
    rw [hget] at hc
    exact JsonTag.noConfusion (Option.some.inj hc)
  · rename_i t hnl hns hnc hc
    rw [hget] at hc
    exact absurd (Option.some.inj hc).symm hns

theorem parse_tags_from_curly {tags : List JsonTag} {i j : Nat}
    {props : List (List Char × JsonNode)} {ns : List JsonNode}
    (hget : tags.get? i = some JsonTag.LeftCurly)
    (hj : find_match_tag tags i JsonTag.LeftCurly JsonTag.RightCurly = .ok j)
    (hobj : parse_object_loop (trim_curly (tag_slice tags i j)) 0 = .ok props)
    (hrest : parse_tags_from tags (j + 1) = .ok ns) :
    parse_tags_from tags i = .ok (JsonNode.Object props :: ns) := by
  rw [parse_tags_from]
  split
  · rename_i hc; rw [hget] at hc; exact Option.noConfusion hc
  · rename_i lit' hc
    rw [hget] at hc
    exact JsonTag.noConfusion (Option.some.inj hc)
  · rename_i hc
    rw [hget] at hc
    exact JsonTag.noConfusion (Option.some.inj hc)
  · rename_i hc
    rw [hget] at hc
    split
    · rename_i e hj'
      rw [hj] at hj'
      exact Except.noConfusion hj'
    · rename_i j' hj'
      rw [hj] at hj'
      cases Except.ok.inj hj'
      rw [hobj, hrest]
  · rename_i t hnl hns hnc hc
    rw [hget] at hc
    exact absurd (Option.some.inj hc).symm hnc

theorem parse_next_lit {tags : List JsonTag} {i : Nat} {lit : List Char}
    {ns : List JsonNode}
    (hget : tags.get? i = some (JsonTag.Literal lit))
    (hts : parse_tags_from (tag_slice tags i i) 0 = .ok ns)
    (hlt : i < i + 1) :
    parse_next tags i = .ok (ns.head?, ⟨i + 1, hlt⟩) := by
  rw [parse_next]
  split
  · rename_i hc; rw [hget] at hc; exact Option.noConfusion hc
  · rename_i lit' hc
    rw [hget] at hc
    cases Option.some.inj hc
    rw [hts]
  · rename_i hc
    rw [hget] at hc
    exact JsonTag.noConfusion (Option.some.inj hc)
  · rename_i hc
    rw [hget] at hc
    exact JsonTag.noConfusion (Option.some.inj hc)
  · rename_i t hnl hns hnc hc
    rw [hget] at hc
    exact absurd (Option.some.inj hc).symm (hnl lit)

theorem parse_next_square {tags : List JsonTag} {i j : Nat}
    {ns : List JsonNode}
    (hget : tags.get? i = some JsonTag.LeftSquare)
    (hj : find_match_tag tags i JsonTag.LeftSquare JsonTag.RightSquare = .ok j)
    (hts : parse_tags_from (tag_slice tags i j) 0 = .ok ns)
    (j' : Nat) (hj' : j' = j + 1) (hlt : i < j') :
    parse_next tags i = .ok (ns.head?, ⟨j', hlt⟩) := by
  subst hj'
  rw [parse_next]
  split
  · rename_i hc; rw [hget] at hc; exact Option.noConfusion hc
  · rename_i lit' hc
    rw [hget] at hc
    exact JsonTag.noConfusion (Option.some.inj hc)
  · rename_i hc
    rw [hget] at hc
    split
    · rename_i e hj2
      rw [hj] at hj2
      exact Except.noConfusion hj2
    · rename_i j2 hj2
      rw [hj] at hj2
      cases Except.ok.inj hj2
      rw [hts]
  · rename_i hc
    rw [hget] at hc
    exact JsonTag.noConfusion (Option.some.inj hc)
  · rename_i t hnl hns hnc hc
    rw [hget] at hc
    exact absurd (Option.some.inj hc).symm hns

theorem parse_next_curly {tags : List JsonTag} {i j : Nat}
    {ns : List JsonNode}
    (hget : tags.get? i = some JsonTag.LeftCurly)
    (hj : find_match_tag tags i JsonTag.LeftCurly JsonTag.RightCurly = .ok j)
    (hts : parse_tags_from (tag_slice tags i j) 0 = .ok ns)
    (j' : Nat) (hj' : j' = j + 1) (hlt : i < j') :
    parse_next tags i = .ok (ns.head?, ⟨j', hlt⟩) := by
  subst hj'
  rw [parse_next]
  split
  · rename_i hc; rw [hget] at hc; exact Option.noConfusion hc
  · rename_i lit' hc
    rw [hget] at hc
    exact JsonTag.noConfusion (Option.some.inj hc)
  · rename_i hc
    rw [hget] at hc
    exact JsonTag.noConfusion (Option.some.inj hc)
  · rename_i hc
    rw [hget] at hc
    split
    · rename_i e hj2
      rw [hj] at hj2
      exact Except.noConfusion hj2
    · rename_i j2 hj2
      rw [hj] at hj2
      cases Except.ok.inj hj2
      rw [hts]
  · rename_i t hnl hns hnc hc
    rw [hget] at hc
    exact absurd (Option.some.inj hc).symm hnc

theorem parse_array_loop_none {inner : List JsonTag} {i : Nat}
    (h : inner.get? i = Option.none) : parse_array_loop inner i = .ok [] := by
  rw [parse_array_loop]
  split
  · rfl
  · rename_i t hc; rw [h] at hc; exact Option.noConfusion hc

theorem parse_array_loop_step {inner : List JsonTag} {i : Nat} {t : JsonTag}
    {n : JsonNode} {j : {k : Nat // i < k}} {ns : List JsonNode}
    (hget : inner.get? i = some t)
    (hn : parse_next inner i = .ok (some n, j))
    (hrest : parse_array_loop inner (skip_comma_index inner j.1) = .ok ns) :
    parse_array_loop inner i = .ok (n :: ns) := by
  rw [parse_array_loop]
  split
  · rename_i hc; rw [hget] at hc; exact Option.noConfusion hc
  · rename_i t' hc
    split
    · rename_i e hn'
      rw [hn] at hn'
      exact Except.noConfusion hn'
    · rename_i j' hn'
      rw [hn] at hn'
      have := Except.ok.inj hn'
      exact absurd (congrArg Prod.fst this) (by simp)
    · rename_i n' j' hn'
      rw [hn] at hn'
      have h1 := Except.ok.inj hn'
      have h2 : some n = some n' := congrArg Prod.fst h1
      have h3 : j = j' := congrArg Prod.snd h1
      cases Option.some.inj h2
      cases h3
      rw [hrest]

theorem parse_object_loop_none {inner : List JsonTag} {i : Nat}
    (h : inner.get? i = Option.none) : parse_object_loop inner i = .ok [] := by
  rw [parse_object_loop]
  split
  · rfl
  · rename_i str hc; rw [h] at hc; exact Option.noConfusion hc
  · rename_i t hnl hc; rw [h] at hc; exact Option.noConfusion hc

theorem parse_object_loop_step {inner : List JsonTag} {i : Nat}
    {str pn : List Char} {c0 : JsonTag} {v : JsonNode}
    {j : {k : Nat // skip_colon_index c0 i ≤ k}}
    {props : List (List Char × JsonNode)}
    (hget : inner.get? i = some (JsonTag.Literal str))
    (hstrip : strip_name_quotes str = some pn)
    (hcolon : inner.get? (i + 1) = some c0)
    (hval : parse_obj_value_loop inner (skip_colon_index c0 i) = .ok (some v, j))
    (hrest : parse_object_loop inner (skip_comma_index inner j.1) = .ok props) :
    parse_object_loop inner i = .ok ((pn, v) :: props) := by
  rw [parse_object_loop]
  split
  · rename_i hc; rw [hget] at hc; exact Option.noConfusion hc
  · rename_i str' hc
    rw [hget] at hc
    cases Option.some.inj hc
    split
    · rename_i hs
      rw [hstrip] at hs
      exact Option.noConfusion hs
    · rename_i prop_name hs
      rw [hstrip] at hs
      cases Option.some.inj hs
      split
      · rename_i hc2; rw [hcolon] at hc2; exact Option.noConfusion hc2
      · rename_i c0' hc2
        rw [hcolon] at hc2
        cases Option.some.inj hc2
        split
        · rename_i e hv'
          rw [hval] at hv'
          exact Except.noConfusion hv'
        · rename_i j' hv'
          rw [hval] at hv'
          have := Except.ok.inj hv'
          exact absurd (congrArg Prod.fst this) (by simp)
        · rename_i v' j' hv'
          rw [hval] at hv'
          have h1 := Except.ok.inj hv'
          have h2 : some v = some v' := congrArg Prod.fst h1
          have h3 : j = j' := congrArg Prod.snd h1
          cases Option.some.inj h2
          cases h3
          rw [hrest]
  · rename_i t hnl hc
    rw [hget] at hc
    exact absurd (Option.some.inj hc).symm (hnl str)

theorem parse_obj_value_loop_direct {inner : List JsonTag} {start : Nat}
    {t : JsonTag} {n : JsonNode} {s' : {k : Nat // start < k}}
    (hget : inner.get? start = some t)
    (hn : parse_next inner start = .ok (some n, s')) :
    parse_obj_value_loop inner start = .ok (some n, ⟨s'.1, le_of_lt s'.2⟩) := by
  rw [parse_obj_value_loop]
  split
  · rename_i hc; rw [hget] at hc; exact Option.noConfusion hc
  · rename_i t' hc
    split
    · rename_i e hn'
      rw [hn] at hn'
      exact Except.noConfusion hn'
    · rename_i s2 hn'
      rw [hn] at hn'
      have := Except.ok.inj hn'
      exact absurd (congrArg Prod.fst this) (by simp)
    · rename_i n2 s2 hn'
      rw [hn] at hn'
      have h1 := Except.ok.inj hn'
      have h2 : some n = some n2 := congrArg Prod.fst h1
      have h3 : s' = s2 := congrArg Prod.snd h1
      cases Option.some.inj h2
      cases h3
      rfl

theorem jsontag_parse_nil : JsonTag.parse [] = [] := by
  rw [JsonTag.parse]
  split
  · rfl
  · rename_i t rest h
    have h0 : read_json_tag [] = (none, []) := rfl
    rw [h0] at h
    exact Option.noConfusion (congrArg Prod.fst h)

theorem tag_slice_whole (seg : List JsonTag) (h : seg ≠ []) :
    tag_slice seg 0 (seg.length - 1) = seg := by
  have h2 := tag_slice_append [] seg [] h
  simpa using h2

theorem safe_number_inv {q : Rat} (h : Safe (JsonNode.PlainNumber q)) :
    q.den = 1 ∧ 0 ≤ q.num ∧ q.num < 2 ^ 53 := by
  rw [Safe] at h
  exact h

theorem safe_string_inv {s : List Char} (h : Safe (JsonNode.PlainString s)) :
    ∀ c ∈ s, str_char c = true := by
  rw [Safe] at h
  exact h

theorem safe_array_inv {es : List JsonNode} (h : Safe (JsonNode.Array es)) :
    ∀ x ∈ es, Safe x := by
  rw [Safe] at h
  exact h

theorem safe_object_inv {pl : List (List Char × JsonNode)}
    (h : Safe (JsonNode.Object pl)) :
    ∀ p ∈ pl, (∀ c ∈ p.1, str_char c = true) ∧ Safe p.2 := by
  rw [Safe] at h
  exact h

theorem rat_coe_toNat_of_safe {q : Rat} (hden : q.den = 1) (h0 : 0 ≤ q.num) :
    ((q.num.toNat : Nat) : Rat) = q := by
  have h1 : ((q.num.toNat : Nat) : Int) = q.num := Int.toNat_of_nonneg h0
  have h2 : ((q.num : Int) : Rat) = q := by
    have h3 := Rat.num_div_den q
    rw [hden] at h3
    simpa using h3
  rw [← h2]
  exact_mod_cast h1

theorem toks_elems_bal (es : List JsonNode) :
    bal_ok JsonTag.LeftSquare JsonTag.RightSquare (toks_elems es)
    ∧ bal_ok JsonTag.LeftCurly JsonTag.RightCurly (toks_elems es) := by
  induction es with
  | nil => rw [toks_elems]; exact ⟨bal_ok_nil _ _, bal_ok_nil _ _⟩
  | cons x xs ih =>
    have hx := toks_bal_strong (sizeOf x) x (le_refl _)
    cases xs with
    | nil => rw [toks_elems]; exact hx
    | cons y ys =>
      rw [toks_elems]
      have hcomma : bal_ok JsonTag.LeftSquare JsonTag.RightSquare [JsonTag.Comma]
          ∧ bal_ok JsonTag.LeftCurly JsonTag.RightCurly [JsonTag.Comma] :=
        ⟨bal_ok_single _ _ _ (fun h => JsonTag.noConfusion h)
            (fun h => JsonTag.noConfusion h),
          bal_ok_single _ _ _ (fun h => JsonTag.noConfusion h)
            (fun h => JsonTag.noConfusion h)⟩
      exact ⟨bal_ok_append hx.1 (bal_ok_append hcomma.1 ih.1),
        bal_ok_append hx.2 (bal_ok_append hcomma.2 ih.2)⟩

theorem toks_props_bal (pl : List (List Char × JsonNode)) :
    bal_ok JsonTag.LeftSquare JsonTag.RightSquare (toks_props pl)
    ∧ bal_ok JsonTag.LeftCurly JsonTag.RightCurly (toks_props pl) := by
  induction pl with
  | nil => rw [toks_props]; exact ⟨bal_ok_nil _ _, bal_ok_nil _ _⟩
  | cons p ps ih =>
    have hsingles : ∀ t : JsonTag, t ≠ JsonTag.LeftSquare →
        t ≠ JsonTag.RightSquare → t ≠ JsonTag.LeftCurly →
        t ≠ JsonTag.RightCurly →
        bal_ok JsonTag.LeftSquare JsonTag.RightSquare [t]
        ∧ bal_ok JsonTag.LeftCurly JsonTag.RightCurly [t] :=
      fun t h1 h2 h3 h4 => ⟨bal_ok_single _ _ _ h1 h2, bal_ok_single _ _ _ h3 h4⟩
    have hv := toks_bal_strong (sizeOf p.2) p.2 (le_refl _)
    have hname := hsingles (JsonTag.Literal ('"' :: (p.1 ++ ['"'])))
      (fun h => JsonTag.noConfusion h) (fun h => JsonTag.noConfusion h)
      (fun h => JsonTag.noConfusion h) (fun h => JsonTag.noConfusion h)
    have hcolon := hsingles JsonTag.Colon
      (fun h => JsonTag.noConfusion h) (fun h => JsonTag.noConfusion h)
      (fun h => JsonTag.noConfusion h) (fun h => JsonTag.noConfusion h)
    cases ps with
    | nil =>
      rw [toks_props]
      exact ⟨bal_ok_append hname.1 (bal_ok_append hcolon.1 hv.1),
        bal_ok_append hname.2 (bal_ok_append hcolon.2 hv.2)⟩
    | cons q qs =>
      rw [toks_props]
      have hcomma := hsingles JsonTag.Comma
        (fun h => JsonTag.noConfusion h) (fun h => JsonTag.noConfusion h)
        (fun h => JsonTag.noConfusion h) (fun h => JsonTag.noConfusion h)
      exact ⟨bal_ok_append
          (bal_ok_append hname.1 (bal_ok_append hcolon.1 hv.1))
          (bal_ok_append hcomma.1 ih.1),
        bal_ok_append
          (bal_ok_append hname.2 (bal_ok_append hcolon.2 hv.2))
          (bal_ok_append hcomma.2 ih.2)⟩

/-- The tag-stream parser recovers a safe document from its canonical token
stream: both as the whole stream (`parse_tags_from`) and as a window inside a
larger stream (`parse_next`). -/
theorem parse_toks_strong :
    ∀ (N : Nat) (d : JsonNode), sizeOf d ≤ N → Safe d →
      (parse_tags_from (toks d) 0 = .ok [d])
      ∧ ∀ (front rest : List JsonTag) (i j : Nat),
          i = front.length → j = i + (toks d).length → ∀ hj : i < j,
          parse_next (front ++ (toks d ++ rest)) i = .ok (some d, ⟨j, hj⟩) := by
  intro N
  induction N with
  | zero =>
    intro d hle
    exfalso
    cases d <;> simp at hle
  | succ N ihN =>
    intro d hle hsafe
    have hleaf : ∀ (s : List Char), parse_plain s = .ok d →
        toks d = [JsonTag.Literal s] →
        (parse_tags_from (toks d) 0 = .ok [d])
        ∧ ∀ (front rest : List JsonTag) (i j : Nat),
            i = front.length → j = i + (toks d).length → ∀ hj : i < j,
            parse_next (front ++ (toks d ++ rest)) i = .ok (some d, ⟨j, hj⟩) := by
      intro s hplain htk
      rw [htk]
      constructor
      · exact parse_tags_from_lit rfl hplain (parse_tags_from_none rfl)
      · intro front rest i j hieq hjeq hj
        subst hieq
        have hget : (front ++ ([JsonTag.Literal s] ++ rest)).get? front.length
            = some (JsonTag.Literal s) := get?_at_append front _ 0
        have hslice : tag_slice (front ++ ([JsonTag.Literal s] ++ rest))
            front.length front.length = [JsonTag.Literal s] :=
          tag_slice_append front [JsonTag.Literal s] rest
            (fun hcon => List.noConfusion hcon)
        have hts : parse_tags_from (tag_slice
            (front ++ ([JsonTag.Literal s] ++ rest)) front.length front.length)
            0 = .ok [d] := by
          rw [hslice]
          exact parse_tags_from_lit rfl hplain (parse_tags_from_none rfl)
        have hjv : j = front.length + 1 := hjeq
        subst hjv
        exact parse_next_lit hget hts (Nat.lt_succ_self _)
    cases d with
    | PlainNull => exact hleaf _ parse_plain_null (by rw [toks])
    | PlainBoolean b =>
      cases b with
      | false => exact hleaf _ parse_plain_false (by rw [toks]; rfl)
      | true => exact hleaf _ parse_plain_true (by rw [toks]; rfl)
    | PlainNumber q =>
      obtain ⟨hden, h0, h53⟩ := safe_number_inv hsafe
      have hdisp : f64_display q = nat_digits q.num.toNat := by
        unfold f64_display
        rw [if_pos ⟨hden, h0⟩]
      have hplain : parse_plain (f64_display q) = .ok (JsonNode.PlainNumber q) := by
        rw [hdisp]
        have h2 := parse_plain_digits q.num.toNat
        rw [rat_coe_toNat_of_safe hden h0] at h2
        exact h2
      exact hleaf _ hplain (by rw [toks])
    | PlainString s =>
      exact hleaf _ (parse_plain_quoted s (safe_string_inv hsafe)) (by rw [toks])
    | Array es =>
      have hsizes : ∀ x ∈ es, sizeOf x ≤ N := by
        intro x hx
        have h1 : sizeOf x < sizeOf es := List.sizeOf_lt_of_mem hx
        have h2 : sizeOf (JsonNode.Array es) = 1 + sizeOf es := by simp
        omega
      have hsafes := safe_array_inv hsafe
      have hbalE := (toks_elems_bal es).1
      have hne : JsonTag.LeftSquare ≠ JsonTag.RightSquare :=
        fun h => JsonTag.noConfusion h
      have hAL : ∀ (es' : List JsonNode), (∀ x ∈ es', sizeOf x ≤ N) →
          (∀ x ∈ es', Safe x) → ∀ (front : List JsonTag) (i : Nat),
          i = front.length →
          parse_array_loop (front ++ toks_elems es') i = .ok es' := by
        intro es'
        induction es' with
        | nil =>
          intro _ _ front i hieq
          subst hieq
          rw [toks_elems, List.append_nil]
          exact parse_array_loop_none (List.get?_eq_none.mpr (le_refl _))
        | cons x xs ih =>
          intro hsz hsf front i hieq
          subst hieq
          have hx := ihN x (hsz x (List.mem_cons_self x xs))
            (hsf x (List.mem_cons_self x xs))
          cases xs with
          | nil =>
            rw [toks_elems]
            have hPN := hx.2 front [] front.length
              (front.length + (toks x).length) rfl rfl
              (by have := List.length_pos.mpr (toks_ne x); omega)
            rw [List.append_nil] at hPN
            have hget : ∃ t, (front ++ toks x).get? front.length = some t := by
              cases htk : toks x with
              | nil => exact absurd htk (toks_ne x)
              | cons t ts => exact ⟨t, get?_at_append front (t :: ts) 0⟩
            obtain ⟨t, hget⟩ := hget
            have hnone : (front ++ toks x).get?
                (front.length + (toks x).length) = none := by
              apply List.get?_eq_none.mpr
              rw [List.length_append]
            have hskip : skip_comma_index (front ++ toks x)
                (front.length + (toks x).length)
                = front.length + (toks x).length := by
              unfold skip_comma_index
              rw [hnone, if_neg (fun hcon => Option.noConfusion hcon)]
            have hrest : parse_array_loop (front ++ toks x)
                (skip_comma_index (front ++ toks x)
                  (front.length + (toks x).length)) = .ok [] := by
              rw [hskip]
              exact parse_array_loop_none hnone
            exact parse_array_loop_step hget hPN hrest
          | cons y ys =>
            rw [toks_elems]
            have hPN := hx.2 front (JsonTag.Comma :: toks_elems (y :: ys))
              front.length (front.length + (toks x).length) rfl rfl
              (by have := List.length_pos.mpr (toks_ne x); omega)
            have hget : ∃ t, (front ++ (toks x
                ++ JsonTag.Comma :: toks_elems (y :: ys))).get? front.length
                = some t := by
              cases htk : toks x with
              | nil => exact absurd htk (toks_ne x)
              | cons t ts =>
                exact ⟨t, get?_at_append front
                  ((t :: ts) ++ JsonTag.Comma :: toks_elems (y :: ys)) 0⟩
            obtain ⟨t, hget⟩ := hget
            have hcomma : (front ++ (toks x
                ++ JsonTag.Comma :: toks_elems (y :: ys))).get?
                (front.length + (toks x).length) = some JsonTag.Comma := by
              have h2 := get?_at_append (front ++ toks x)
                (JsonTag.Comma :: toks_elems (y :: ys)) 0
              rw [List.append_assoc, List.length_append] at h2
              exact h2
            have hskip : skip_comma_index (front ++ (toks x
                ++ JsonTag.Comma :: toks_elems (y :: ys)))
                (front.length + (toks x).length)
                = front.length + (toks x).length + 1 := by
              unfold skip_comma_index
              rw [hcomma, if_pos rfl]
            have hrest : parse_array_loop (front ++ (toks x
                ++ JsonTag.Comma :: toks_elems (y :: ys)))
                (skip_comma_index (front ++ (toks x
                  ++ JsonTag.Comma :: toks_elems (y :: ys)))
                  (front.length + (toks x).length)) = .ok (y :: ys) := by
              rw [hskip]
              have h3 := ih (fun z hz => hsz z (List.mem_cons_of_mem x hz))
                (fun z hz => hsf z (List.mem_cons_of_mem x hz))
                (front ++ toks x ++ [JsonTag.Comma])
                (front.length + (toks x).length + 1)
                (by simp only [List.length_append, List.length_cons,
                      List.length_nil]
                    try omega)
              simp only [List.append_assoc] at h3
              exact h3
            exact parse_array_loop_step hget hPN hrest
      have hT : parse_tags_from (toks (JsonNode.Array es)) 0
          = .ok [JsonNode.Array es] := by
        rw [toks]
        have hget : (JsonTag.LeftSquare
            :: (toks_elems es ++ [JsonTag.RightSquare])).get? 0
            = some JsonTag.LeftSquare := rfl
        have hj : find_match_tag (JsonTag.LeftSquare
            :: (toks_elems es ++ [JsonTag.RightSquare])) 0
            JsonTag.LeftSquare JsonTag.RightSquare
            = .ok ((toks_elems es).length + 1) := by
          simpa using find_match_toks hne hbalE [] []
        have hlen2 : (JsonTag.LeftSquare
            :: (toks_elems es ++ [JsonTag.RightSquare])).length - 1
            = (toks_elems es).length + 1 := by
          simp
        have hslice := tag_slice_whole
          (JsonTag.LeftSquare :: (toks_elems es ++ [JsonTag.RightSquare]))
          (fun hcon => List.noConfusion hcon)
        rw [hlen2] at hslice
        have harr : parse_array_loop (trim_square (tag_slice
            (JsonTag.LeftSquare :: (toks_elems es ++ [JsonTag.RightSquare])) 0
            ((toks_elems es).length + 1))) 0 = .ok es := by
          rw [hslice, trim_square_wrap]
          exact hAL es hsizes hsafes [] 0 rfl
        have hrest : parse_tags_from (JsonTag.LeftSquare
            :: (toks_elems es ++ [JsonTag.RightSquare]))
            ((toks_elems es).length + 1 + 1) = .ok [] := by
          apply parse_tags_from_none
          apply List.get?_eq_none.mpr
          simp
        exact parse_tags_from_square hget hj harr hrest
      refine ⟨hT, ?_⟩
      intro front rest i j hieq hjeq hj
      subst hieq
      rw [toks] at hjeq ⊢
      have hget : (front ++ ((JsonTag.LeftSquare
          :: (toks_elems es ++ [JsonTag.RightSquare])) ++ rest)).get?
          front.length = some JsonTag.LeftSquare := get?_at_append front _ 0
      have hj2 := find_match_toks hne hbalE front rest
      have hslice := tag_slice_append front
        (JsonTag.LeftSquare :: (toks_elems es ++ [JsonTag.RightSquare])) rest
        (fun hcon => List.noConfusion hcon)
      have hlen2 : front.length + ((JsonTag.LeftSquare
          :: (toks_elems es ++ [JsonTag.RightSquare])).length - 1)
          = front.length + (toks_elems es).length + 1 := by
        simp only [List.length_cons, List.length_append, List.length_nil]
        try omega
      rw [hlen2] at hslice
      have hT2 := hT
      rw [toks] at hT2
      have hts : parse_tags_from (tag_slice (front ++ ((JsonTag.LeftSquare
          :: (toks_elems es ++ [JsonTag.RightSquare])) ++ rest)) front.length
          (front.length + (toks_elems es).length + 1)) 0
          = .ok [JsonNode.Array es] := by
        rw [hslice]
        exact hT2
      exact parse_next_square hget hj2 hts j
        (by rw [hjeq]
            simp only [List.length_cons, List.length_append, List.length_nil]
            try omega)
        hj
    | Object pl =>
      have hsizes : ∀ p ∈ pl, sizeOf p.2 ≤ N := by
        intro p hp
        have h1 : sizeOf p < sizeOf pl := List.sizeOf_lt_of_mem hp
        have h2 : sizeOf (JsonNode.Object pl) = 1 + sizeOf pl := by simp
        have h3 : sizeOf p.2 < sizeOf p := by
          obtain ⟨a, b⟩ := p
          simp
        omega
      have hsafes : ∀ p ∈ pl, Safe p.2 :=
        fun p hp => (safe_object_inv hsafe p hp).2
      have hbalP := (toks_props_bal pl).2
      have hne : JsonTag.LeftCurly ≠ JsonTag.RightCurly :=
        fun h => JsonTag.noConfusion h
      have hOL : ∀ (pl' : List (List Char × JsonNode)),
          (∀ p ∈ pl', sizeOf p.2 ≤ N) → (∀ p ∈ pl', Safe p.2) →
          ∀ (front : List JsonTag) (i : Nat), i = front.length →
          parse_object_loop (front ++ toks_props pl') i = .ok pl' := by
        intro pl'
        induction pl' with
        | nil =>
          intro _ _ front i hieq
          subst hieq
          rw [toks_props, List.append_nil]
          exact parse_object_loop_none (List.get?_eq_none.mpr (le_refl _))
        | cons p ps ih =>
          intro hsz hsf front i hieq
          subst hieq
          have hp := ihN p.2 (hsz p (List.mem_cons_self p ps))
            (hsf p (List.mem_cons_self p ps))
          cases ps with
          | nil =>
            rw [toks_props]
            have hget : (front ++ (JsonTag.Literal ('"' :: (p.1 ++ ['"']))
                :: JsonTag.Colon :: toks p.2)).get? front.length
                = some (JsonTag.Literal ('"' :: (p.1 ++ ['"']))) :=
              get?_at_append front _ 0
            have hcolon : (front ++ (JsonTag.Literal ('"' :: (p.1 ++ ['"']))
                :: JsonTag.Colon :: toks p.2)).get? (front.length + 1)
                = some JsonTag.Colon := get?_at_append front _ 1
            have hPN := hp.2 (front ++ [JsonTag.Literal ('"' :: (p.1 ++ ['"'])),
                JsonTag.Colon]) [] (front.length + 2)
              (front.length + 2 + (toks p.2).length)
              (by simp only [List.length_append, List.length_cons,
                    List.length_nil]
                  try omega)
              rfl
              (by have := List.length_pos.mpr (toks_ne p.2)
                  omega)
            rw [List.append_nil, List.append_assoc] at hPN
            have hget2 : ∃ t, (front ++ (JsonTag.Literal ('"' :: (p.1 ++ ['"']))
                :: JsonTag.Colon :: toks p.2)).get? (front.length + 2)
                = some t := by
              cases htk : toks p.2 with
              | nil => exact absurd htk (toks_ne p.2)
              | cons t ts =>
                exact ⟨t, get?_at_append front
                  (JsonTag.Literal ('"' :: (p.1 ++ ['"']))
                    :: JsonTag.Colon :: t :: ts) 2⟩
            obtain ⟨t, hget2⟩ := hget2
            have hval := parse_obj_value_loop_direct hget2 hPN
            have hnone : (front ++ (JsonTag.Literal ('"' :: (p.1 ++ ['"']))
                :: JsonTag.Colon :: toks p.2)).get?
                (front.length + 2 + (toks p.2).length) = none := by
              apply List.get?_eq_none.mpr
              simp only [List.length_append, List.length_cons]
              omega
            have hskip : skip_comma_index (front
                ++ (JsonTag.Literal ('"' :: (p.1 ++ ['"']))
                  :: JsonTag.Colon :: toks p.2))
                (front.length + 2 + (toks p.2).length)
                = front.length + 2 + (toks p.2).length := by
              unfold skip_comma_index
              rw [hnone, if_neg (fun hcon => Option.noConfusion hcon)]
            have hrest : parse_object_loop (front
                ++ (JsonTag.Literal ('"' :: (p.1 ++ ['"']))
                  :: JsonTag.Colon :: toks p.2))
                (skip_comma_index (front
                  ++ (JsonTag.Literal ('"' :: (p.1 ++ ['"']))
                    :: JsonTag.Colon :: toks p.2))
                  (front.length + 2 + (toks p.2).length)) = .ok [] := by
              rw [hskip]
              exact parse_object_loop_none hnone
            exact parse_object_loop_step hget (strip_name_quotes_quoted p.1)
              hcolon hval hrest
          | cons q qs =>
            rw [toks_props]
            have hget : (front ++ ((JsonTag.Literal ('"' :: (p.1 ++ ['"']))
                :: JsonTag.Colon :: toks p.2)
                ++ JsonTag.Comma :: toks_props (q :: qs))).get? front.length
                = some (JsonTag.Literal ('"' :: (p.1 ++ ['"']))) :=
              get?_at_append front _ 0
            have hcolon : (front ++ ((JsonTag.Literal ('"' :: (p.1 ++ ['"']))
                :: JsonTag.Colon :: toks p.2)
                ++ JsonTag.Comma :: toks_props (q :: qs))).get?
                (front.length + 1) = some JsonTag.Colon :=
              get?_at_append front _ 1
            have hPN := hp.2 (front ++ [JsonTag.Literal ('"' :: (p.1 ++ ['"'])),
                JsonTag.Colon]) (JsonTag.Comma :: toks_props (q :: qs))
              (front.length + 2) (front.length + 2 + (toks p.2).length)
              (by simp only [List.length_append, List.length_cons,
                    List.length_nil]
                  try omega)
              rfl
              (by have := List.length_pos.mpr (toks_ne p.2)
                  omega)
            rw [List.append_assoc] at hPN
            have hget2 : ∃ t, (front ++ ((JsonTag.Literal ('"' :: (p.1 ++ ['"']))
                :: JsonTag.Colon :: toks p.2)
                ++ JsonTag.Comma :: toks_props (q :: qs))).get?
                (front.length + 2) = some t := by
              cases htk : toks p.2 with
              | nil => exact absurd htk (toks_ne p.2)
              | cons t ts =>
                exact ⟨t, get?_at_append front
                  (JsonTag.Literal ('"' :: (p.1 ++ ['"'])) :: JsonTag.Colon
                    :: ((t :: ts) ++ JsonTag.Comma :: toks_props (q :: qs))) 2⟩
            obtain ⟨t, hget2⟩ := hget2
            have hval := parse_obj_value_loop_direct hget2 hPN
            have hcomma : (front ++ ((JsonTag.Literal ('"' :: (p.1 ++ ['"']))
                :: JsonTag.Colon :: toks p.2)
                ++ JsonTag.Comma :: toks_props (q :: qs))).get?
                (front.length + 2 + (toks p.2).length)
                = some JsonTag.Comma := by
              have h2 := get?_at_append (front
                ++ [JsonTag.Literal ('"' :: (p.1 ++ ['"'])), JsonTag.Colon]
                ++ toks p.2) (JsonTag.Comma :: toks_props (q :: qs)) 0
              have hix : (front
                  ++ [JsonTag.Literal ('"' :: (p.1 ++ ['"'])), JsonTag.Colon]
                  ++ toks p.2).length + 0
                  = front.length + 2 + (toks p.2).length := by
                simp only [List.length_append, List.length_cons,
                  List.length_nil]
                try omega
              rw [hix] at h2
              simp only [List.append_assoc] at h2
              exact h2
            have hskip : skip_comma_index (front
                ++ ((JsonTag.Literal ('"' :: (p.1 ++ ['"']))
                  :: JsonTag.Colon :: toks p.2)
                  ++ JsonTag.Comma :: toks_props (q :: qs)))
                (front.length + 2 + (toks p.2).length)
                = front.length + 2 + (toks p.2).length + 1 := by
              unfold skip_comma_index
              rw [hcomma, if_pos rfl]
            have hrest : parse_object_loop (front
                ++ ((JsonTag.Literal ('"' :: (p.1 ++ ['"']))
                  :: JsonTag.Colon :: toks p.2)
                  ++ JsonTag.Comma :: toks_props (q :: qs)))
                (skip_comma_index (front
                  ++ ((JsonTag.Literal ('"' :: (p.1 ++ ['"']))
                    :: JsonTag.Colon :: toks p.2)
                    ++ JsonTag.Comma :: toks_props (q :: qs)))
                  (front.length + 2 + (toks p.2).length)) = .ok (q :: qs) := by
              rw [hskip]
              have h3 := ih (fun z hz => hsz z (List.mem_cons_of_mem p hz))
                (fun z hz => hsf z (List.mem_cons_of_mem p hz))
                (front ++ [JsonTag.Literal ('"' :: (p.1 ++ ['"'])),
                  JsonTag.Colon] ++ toks p.2 ++ [JsonTag.Comma])
                (front.length + 2 + (toks p.2).length + 1)
                (by simp only [List.length_append, List.length_cons,
                      List.length_nil]
                    try omega)
              simp only [List.append_assoc] at h3
              exact h3
            exact parse_object_loop_step hget (strip_name_quotes_quoted p.1)
              hcolon hval hrest
      have hT : parse_tags_from (toks (JsonNode.Object pl)) 0
          = .ok [JsonNode.Object pl] := by
        rw [toks]
        have hget : (JsonTag.LeftCurly
            :: (toks_props pl ++ [JsonTag.RightCurly])).get? 0
            = some JsonTag.LeftCurly := rfl
        have hj : find_match_tag (JsonTag.LeftCurly
            :: (toks_props pl ++ [JsonTag.RightCurly])) 0
            JsonTag.LeftCurly JsonTag.RightCurly
            = .ok ((toks_props pl).length + 1) := by
          simpa using find_match_toks hne hbalP [] []
        have hlen2 : (JsonTag.LeftCurly
            :: (toks_props pl ++ [JsonTag.RightCurly])).length - 1
            = (toks_props pl).length + 1 := by
          simp
        have hslice := tag_slice_whole
          (JsonTag.LeftCurly :: (toks_props pl ++ [JsonTag.RightCurly]))
          (fun hcon => List.noConfusion hcon)
        rw [hlen2] at hslice
        have hobj : parse_object_loop (trim_curly (tag_slice
            (JsonTag.LeftCurly :: (toks_props pl ++ [JsonTag.RightCurly])) 0
            ((toks_props pl).length + 1))) 0 = .ok pl := by
          rw [hslice, trim_curly_wrap]
          exact hOL pl hsizes hsafes [] 0 rfl
        have hrest : parse_tags_from (JsonTag.LeftCurly
            :: (toks_props pl ++ [JsonTag.RightCurly]))
            ((toks_props pl).length + 1 + 1) = .ok [] := by
          apply parse_tags_from_none
          apply List.get?_eq_none.mpr
          simp
        exact parse_tags_from_curly hget hj hobj hrest
      refine ⟨hT, ?_⟩
      intro front rest i j hieq hjeq hj
      subst hieq
      rw [toks] at hjeq ⊢
      have hget : (front ++ ((JsonTag.LeftCurly
          :: (toks_props pl ++ [JsonTag.RightCurly])) ++ rest)).get?
          front.length = some JsonTag.LeftCurly := get?_at_append front _ 0
      have hj2 := find_match_toks hne hbalP front rest
      have hslice := tag_slice_append front
        (JsonTag.LeftCurly :: (toks_props pl ++ [JsonTag.RightCurly])) rest
        (fun hcon => List.noConfusion hcon)
      have hlen2 : front.length + ((JsonTag.LeftCurly
          :: (toks_props pl ++ [JsonTag.RightCurly])).length - 1)
          = front.length + (toks_props pl).length + 1 := by
        simp only [List.length_cons, List.length_append, List.length_nil]
        try omega
      rw [hlen2] at hslice
      have hT2 := hT
      rw [toks] at hT2
      have hts : parse_tags_from (tag_slice (front ++ ((JsonTag.LeftCurly
          :: (toks_props pl ++ [JsonTag.RightCurly])) ++ rest)) front.length
          (front.length + (toks_props pl).length + 1)) 0
          = .ok [JsonNode.Object pl] := by
        rw [hslice]
        exact hT2
      exact parse_next_curly hget hj2 hts j
        (by rw [hjeq]
            simp only [List.length_cons, List.length_append, List.length_nil]
            try omega)
        hj

/-- C2 (amended): for every safe document `d` — strings and property names
free of backslashes, quotes and line breaks, numbers that are nonnegative
integers below `2 ^ 53` — parsing the compact serialization of `d` yields
`[d]`, and parsing the pretty (4-space-indented) serialization of `d` also
yields `[d]`.  The unrestricted claim is false: see
`roundtrip_newline_counterexample`. -/
theorem serialize_parse_roundtrip (d : JsonNode) (h : Safe d) :
    JsonNode.parse (JsonNode.to_compact d) = .ok [d]
    ∧ JsonNode.parse (JsonNode.to_pretty d) = .ok [d] := by
  have hT := (parse_toks_strong (sizeOf d) d (le_refl _) h).1
  have hc : JsonTag.parse (JsonNode.to_compact d) = toks d := by
    have h2 := tokenize_fmt_strong (sizeOf d) d (le_refl _) h false 0 false []
      (Or.inl rfl)
    rw [List.append_nil, jsontag_parse_nil, List.append_nil] at h2
    exact h2
  have hp : JsonTag.parse (JsonNode.to_pretty d) = toks d := by
    have h2 := tokenize_fmt_strong (sizeOf d) d (le_refl _) h true 0 false []
      (Or.inl rfl)
    rw [List.append_nil, jsontag_parse_nil, List.append_nil] at h2
    exact h2
  constructor
  · unfold JsonNode.parse JsonNode.parse_tags
    rw [hc]
    exact hT
  · unfold JsonNode.parse JsonNode.parse_tags
    rw [hp]
    exact hT

theorem serialize_parse_roundtrip_witness :
    JsonNode.parse (JsonNode.to_compact
        (JsonNode.Array [JsonNode.PlainNull]))
      = .ok [JsonNode.Array [JsonNode.PlainNull]]
    ∧ JsonNode.parse (JsonNode.to_pretty
        (JsonNode.Array [JsonNode.PlainNull]))
      = .ok [JsonNode.Array [JsonNode.PlainNull]] :=
  serialize_parse_roundtrip (JsonNode.Array [JsonNode.PlainNull])
    (by simp [Safe])

set_option maxRecDepth 8000 in
unseal scan_literal JsonTag.parse parse_tags_from parse_next parse_array_loop parse_object_loop parse_obj_value_loop find_match_loop in
/-- C2 counterexample: a string value containing a line break serializes to a
quoted run spanning the break, which the tokenizer recovers as two separate
literals; the parse result is two string nodes, not the original document. -/
theorem roundtrip_newline_counterexample :
    JsonNode.parse (JsonNode.to_compact
        (JsonNode.PlainString ['a', '\n', 'b']))
      ≠ .ok [JsonNode.PlainString ['a', '\n', 'b']] := by
  intro hcon
  have h1 : JsonNode.parse (JsonNode.to_compact
      (JsonNode.PlainString ['a', '\n', 'b']))
      = .ok [JsonNode.PlainString ['"', 'a'], JsonNode.PlainString ['b', '"']] :=
    rfl
  rw [h1] at hcon
  have h2 := Except.ok.inj hcon
  exact List.noConfusion h2 (fun _ h3 => List.noConfusion h3)

end Plainjson
